import Mathlib

/-!
# Verification of the Vacuum World planner (`planner.py`)

This file is a shallow embedding of the search engine of `planner.py`:
the `RobotState` data model, successor generation, the uniform-cost
search `ucs` (whose frontier is a CPython `heapq` binary heap of
`(cost, state)` pairs) and the depth-first search `dfs` (whose frontier
is a stack), together with theorems checking the natural-language
specification against this embedding.

Conventions of the embedding:
* Python `int` becomes `Int` (grid coordinates can go negative before the
  bounds check rejects them); counters become `Nat`.
* `frozenset` of positions becomes `Finset (Int × Int)`; the Python
  `set` named `explored` becomes a `Finset` of keys.
* The Python lists used as heap / stack become `List`.
* The search loops, which in Python run until the frontier empties, are
  written with an explicit fuel parameter; running out of fuel is the
  distinguished result `SearchResult.outOfFuel`, and a theorem shows
  enough fuel is always available, so the fuel is no restriction.
* `print`-based output becomes the returned `SearchResult`; the
  `sys.exit(1)` on exhaustion is modelled by `exitCode`.
* Both loops additionally accumulate the list of keys
  `(position, dirty_cells)` of the nodes popped from the frontier, in
  pop order.  This trace is pure observation: it influences nothing.
-/

namespace VacuumPlanner

/-- The five action labels `"N" "S" "E" "W" "V"` of `planner.py`. -/
inductive Action : Type where
  | N : Action
  | S : Action
  | E : Action
  | W : Action
  | V : Action
deriving DecidableEq, Repr

/-- A grid position `(row, column)`, a Python 2-tuple of `int`. -/
abbrev Pos : Type := Int × Int

/-- A set of dirty positions, a Python `frozenset` of position tuples. -/
abbrev Dirty : Type := Finset Pos

/-- The duplicate-detection key `(state.position, state.dirty_cells)`. -/
abbrev Key : Type := Pos × Dirty

/-- `class RobotState` of `planner.py` (lines 27-34): a position, a
frozenset of remaining dirty cells and the action path taken so far. -/
structure RobotState : Type where
  position : Pos
  dirty_cells : Dirty
  path : List Action
deriving DecidableEq

/-- `RobotState.__lt__` (lines 33-34): comparison looks only at
`len(self.dirty_cells) < len(other.dirty_cells)`. -/
def RobotState.lt (self other : RobotState) : Prop :=
  self.dirty_cells.card < other.dirty_cells.card

instance (s o : RobotState) : Decidable (RobotState.lt s o) := by
  unfold RobotState.lt; infer_instance

/-- The key of a state for duplicate detection. -/
def RobotState.key (s : RobotState) : Key := (s.position, s.dirty_cells)

/-! ## The CPython `heapq` binary heap

`ucs` stores `(len(path), state)` pairs in a Python list managed by
`heapq.heappush` / `heapq.heappop`.  Python compares two such tuples
lexicographically: first the integer costs, and on equal costs it falls
back to `RobotState.__lt__`, i.e. to comparing the number of remaining
dirty cells.  (The identity-based default `__eq__` of `RobotState` never
equates two tuple components that are compared, because every pushed
tuple holds a freshly constructed state object.)  So the effective
strict order on heap entries is the strict lexicographic order on the
projection `(cost, card dirty_cells)`; the heap code below is generic
over such a projection `κ` into `Nat × Nat`. -/

/-- Strict lexicographic order on `Nat × Nat`, the order Python applies
to `(cost, state)` heap entries through the projection `entryKey`. -/
def pairLt (x y : Nat × Nat) : Prop :=
  x.1 < y.1 ∨ (x.1 = y.1 ∧ x.2 < y.2)

instance (x y : Nat × Nat) : Decidable (pairLt x y) := by
  unfold pairLt; infer_instance

/-- The loop of `heapq._siftdown(heap, startpos, pos)` where `newitem`
is the value conceptually stored at slot `pos`: walk `newitem` toward
the root while it is strictly smaller than its parent, shifting parents
down, and finally store `newitem` at the slot reached.  The structural
fuel `n` only has to dominate the number of iterations (`n ≥ pos`
suffices, since the position strictly decreases); every caller passes
such a fuel, so the fuel never cuts the loop short. -/
def siftdownAux (κ : α → Nat × Nat) :
    Nat → List α → Nat → Nat → α → List α
  | 0, heap, _startpos, pos, newitem => heap.set pos newitem
  | n + 1, heap, startpos, pos, newitem =>
    if startpos < pos then
      let parentpos := (pos - 1) / 2
      let parent := heap.getD parentpos newitem
      if pairLt (κ newitem) (κ parent) then
        siftdownAux κ n (heap.set pos parent) startpos parentpos newitem
      else
        heap.set pos newitem
    else
      heap.set pos newitem

/-- `heapq._siftdown(heap, startpos, pos)` with `newitem = heap[pos]`
made explicit.  The fuel `pos` is enough for the loop to run to its real
exit condition. -/
def siftdownLoop (κ : α → Nat × Nat) (heap : List α) (startpos pos : Nat)
    (newitem : α) : List α :=
  siftdownAux κ pos heap startpos pos newitem

/-- `heapq.heappush(heap, item)`: append, then sift the new item down
toward the root. -/
def heappush (κ : α → Nat × Nat) (heap : List α) (item : α) : List α :=
  siftdownLoop κ (heap ++ [item]) 0 heap.length item

/-- The loop of `heapq._siftup(heap, pos)` where `newitem` is the value
conceptually stored at slot `pos`: walk the hole down along the
smaller-child path to a leaf, store `newitem` there, then `_siftdown` it
back up toward `startpos`.  The structural fuel `n` only has to dominate
the number of iterations (`n ≥ heap.length - pos` suffices, since the
position strictly increases and stays below the length). -/
def siftupAux (κ : α → Nat × Nat) :
    Nat → List α → Nat → Nat → α → List α
  | 0, heap, startpos, pos, newitem =>
    siftdownLoop κ (heap.set pos newitem) startpos pos newitem
  | n + 1, heap, startpos, pos, newitem =>
    let childpos := 2 * pos + 1
    if childpos < heap.length then
      let rightpos := childpos + 1
      let childpos :=
        if rightpos < heap.length ∧
            ¬ pairLt (κ (heap.getD childpos newitem)) (κ (heap.getD rightpos newitem)) then
          rightpos
        else childpos
      siftupAux κ n (heap.set pos (heap.getD childpos newitem)) startpos childpos newitem
    else
      siftdownLoop κ (heap.set pos newitem) startpos pos newitem

/-- `heapq._siftup(heap, pos)` with `newitem = heap[pos]` made explicit.
The fuel `heap.length` is enough for the loop to run to its real exit
condition. -/
def siftupLoop (κ : α → Nat × Nat) (heap : List α) (startpos pos : Nat)
    (newitem : α) : List α :=
  siftupAux κ heap.length heap startpos pos newitem

/-- `heapq.heappop(heap)`: pop the last element; if the heap is still
nonempty, return its root and restore the heap shape by moving the last
element to the root and sifting it up; on a Python empty list this
raises, modelled by `none`. -/
def heappop (κ : α → Nat × Nat) : List α → Option (α × List α)
  | [] => none
  | x :: xs =>
    let lastelt := (x :: xs).getLast (List.cons_ne_nil x xs)
    match (x :: xs).dropLast with
    | [] => some (lastelt, [])
    | r :: rs => some (r, siftupLoop κ ((r :: rs).set 0 lastelt) 0 0 lastelt)

/-- The projection `ucs` orders heap entries by: cost
(`len(path)` at push time), then number of remaining dirty cells
(`RobotState.__lt__`). -/
def entryKey (e : Nat × RobotState) : Nat × Nat :=
  (e.1, e.2.dirty_cells.card)

/-! ## The world grid -/

/-- Reading `world[r][c]`: the grid is a list of rows of one-character
cells.  The search only indexes inside the `0 ≤ r < rows`,
`0 ≤ c < cols` box it has just bounds-checked, so for a well-formed
(rectangular, `rows × cols`) grid the default `'#'` is never consulted. -/
def cellAt (world : List (List Char)) (r c : Int) : Char :=
  (world.getD r.toNat []).getD c.toNat '#'

/-- The direction dictionary
`{"N": (-1, 0), "S": (1, 0), "E": (0, 1), "W": (0, -1)}` of lines
70/116, in its Python (insertion-order) iteration order. -/
def dirList : List (Action × (Int × Int)) :=
  [(Action.N, (-1, 0)), (Action.S, (1, 0)), (Action.E, (0, 1)), (Action.W, (0, -1))]

/-- One direction of the successor loop (lines 94-97 / 140-145): from
row `r`, column `c` move by the direction offset; if the target is in
bounds and not a wall, build the successor state carrying the parent's
dirty set and the path extended by the direction label. -/
def tryDir (cols rows : Int) (world : List (List Char)) (cur : RobotState)
    (r c : Int) (ad : Action × (Int × Int)) : Option RobotState :=
  let nr := r + ad.2.1
  let nc := c + ad.2.2
  if 0 ≤ nr ∧ nr < rows ∧ 0 ≤ nc ∧ nc < cols ∧ cellAt world nr nc ≠ '#' then
    some ⟨(nr, nc), cur.dirty_cells, cur.path ++ [ad.1]⟩
  else
    none

/-- The successor states a popped (and, if applicable, vacuumed) node
generates, in the fixed N, S, E, W order of the direction dictionary.
Building the candidate states is independent of the frontier and the
explored set, so the Python loop is the fold of `pushIfNew` over this
list. -/
def genSuccessors (cols rows : Int) (world : List (List Char))
    (cur : RobotState) (r c : Int) : List RobotState :=
  dirList.filterMap (tryDir cols rows world cur r c)

/-- The result of one search invocation: the solution path with the two
counters, or exhaustion with the two counters, or fuel ran out (which,
by `ucs_terminates`/`dfs_terminates`, never happens with enough fuel). -/
inductive SearchResult : Type where
  | solved (path : List Action) (gen exp : Nat) : SearchResult
  | exhausted (gen exp : Nat) : SearchResult
  | outOfFuel : SearchResult
deriving DecidableEq, Repr

/-- The process termination status the caller surfaces: `sys.exit(1)`
on exhaustion (line 107/155), normal termination on success. -/
def exitCode : SearchResult → Nat
  | SearchResult.solved _ _ _ => 0
  | SearchResult.exhausted _ _ => 1
  | SearchResult.outOfFuel => 1

/-! ## Uniform-cost search (`ucs`, lines 63-107) -/

/-- Lines 97-101 for one candidate successor: if its key is not in the
explored set, push `(len(path), state)` onto the heap, add the key to
the explored set and count one generated node. -/
def ucsPushIfNew (acc : List (Nat × RobotState) × Finset Key × Nat)
    (ns : RobotState) : List (Nat × RobotState) × Finset Key × Nat :=
  if ns.key ∉ acc.2.1 then
    (heappush entryKey acc.1 (ns.path.length, ns), insert ns.key acc.2.1, acc.2.2 + 1)
  else
    acc

/-- The successor loop of `ucs` (lines 94-101), folded over the
generated candidates. -/
def ucsPushSuccessors (cols rows : Int) (world : List (List Char))
    (cur : RobotState) (r c : Int) (pq : List (Nat × RobotState))
    (explored : Finset Key) (gen : Nat) :
    List (Nat × RobotState) × Finset Key × Nat :=
  (genSuccessors cols rows world cur r c).foldl ucsPushIfNew (pq, explored, gen)

/-- The `ucs` loop (lines 73-107).  Each iteration counts one expansion,
pops the heap minimum, records its key in the trace, applies the vacuum
transition when the popped position is dirty, returns the path when no
dirty cells remain, and otherwise pushes the unexplored successors and
loops. -/
def ucsGo (cols rows : Int) (world : List (List Char)) :
    Nat → List (Nat × RobotState) → Finset Key → Nat → Nat → List Key →
    SearchResult × List Key
  | 0, _pq, _explored, _gen, _exp, trace => (SearchResult.outOfFuel, trace)
  | fuel + 1, pq, explored, gen, exp, trace =>
    match heappop entryKey pq with
    | none => (SearchResult.exhausted gen exp, trace)
    | some (e, pq') =>
      let cur0 := e.2
      let r := cur0.position.1
      let c := cur0.position.2
      let cur : RobotState :=
        if cur0.position ∈ cur0.dirty_cells then
          ⟨cur0.position, cur0.dirty_cells.erase cur0.position,
            cur0.path ++ [Action.V]⟩
        else cur0
      if cur.dirty_cells = ∅ then
        (SearchResult.solved cur.path gen (exp + 1), trace ++ [cur0.key])
      else
        let acc := ucsPushSuccessors cols rows world cur r c pq' explored gen
        ucsGo cols rows world fuel acc.1 acc.2.1 acc.2.2 (exp + 1)
          (trace ++ [cur0.key])

/-- The part of the `ucs` loop body that runs on the node actually being
expanded, i.e. after the vacuum transition: goal test (lines 86-91),
successor generation and push (lines 94-101), next iteration.  The
theorem for claim C4 relates one step of `ucsGo` to this function. -/
def ucsProcess (cols rows : Int) (world : List (List Char)) (fuel : Nat)
    (cur : RobotState) (pq' : List (Nat × RobotState)) (explored : Finset Key)
    (gen exp : Nat) (trace : List Key) : SearchResult × List Key :=
  if cur.dirty_cells = ∅ then
    (SearchResult.solved cur.path gen exp, trace)
  else
    let acc :=
      ucsPushSuccessors cols rows world cur cur.position.1 cur.position.2
        pq' explored gen
    ucsGo cols rows world fuel acc.1 acc.2.1 acc.2.2 exp trace

/-- `ucs(cols, rows, world, start)`: seed the heap with `(0, start)` and
run the loop.  The trace of popped keys is returned alongside. -/
def ucs (cols rows : Int) (world : List (List Char)) (start : RobotState)
    (fuel : Nat) : SearchResult × List Key :=
  ucsGo cols rows world fuel (heappush entryKey [] (0, start)) ∅ 0 0 []

/-! ## Depth-first search (`dfs`, lines 110-155) -/

/-- Lines 146-149 for one candidate successor: if its key is not in the
explored set, append the state to the stack, add the key to the explored
set and count one generated node. -/
def dfsPushIfNew (acc : List RobotState × Finset Key × Nat)
    (ns : RobotState) : List RobotState × Finset Key × Nat :=
  if ns.key ∉ acc.2.1 then
    (acc.1 ++ [ns], insert ns.key acc.2.1, acc.2.2 + 1)
  else
    acc

/-- The successor loop of `dfs` (lines 140-149), folded over the
generated candidates. -/
def dfsPushSuccessors (cols rows : Int) (world : List (List Char))
    (cur : RobotState) (r c : Int) (stack : List RobotState)
    (explored : Finset Key) (gen : Nat) :
    List RobotState × Finset Key × Nat :=
  (genSuccessors cols rows world cur r c).foldl dfsPushIfNew (stack, explored, gen)

/-- `stack.pop()`: remove and return the last element of the list. -/
def stackPop : List RobotState → Option (RobotState × List RobotState)
  | [] => none
  | x :: xs =>
    some ((x :: xs).getLast (List.cons_ne_nil x xs), (x :: xs).dropLast)

/-- The `dfs` loop (lines 119-155), structurally identical to `ucsGo`
except the frontier is a stack popped from the end. -/
def dfsGo (cols rows : Int) (world : List (List Char)) :
    Nat → List RobotState → Finset Key → Nat → Nat → List Key →
    SearchResult × List Key
  | 0, _stack, _explored, _gen, _exp, trace => (SearchResult.outOfFuel, trace)
  | fuel + 1, stack, explored, gen, exp, trace =>
    match stackPop stack with
    | none => (SearchResult.exhausted gen exp, trace)
    | some (cur0, stack') =>
      let r := cur0.position.1
      let c := cur0.position.2
      let cur : RobotState :=
        if cur0.position ∈ cur0.dirty_cells then
          ⟨cur0.position, cur0.dirty_cells.erase cur0.position,
            cur0.path ++ [Action.V]⟩
        else cur0
      if cur.dirty_cells = ∅ then
        (SearchResult.solved cur.path gen (exp + 1), trace ++ [cur0.key])
      else
        let acc := dfsPushSuccessors cols rows world cur r c stack' explored gen
        dfsGo cols rows world fuel acc.1 acc.2.1 acc.2.2 (exp + 1)
          (trace ++ [cur0.key])

/-- The post-vacuum part of the `dfs` loop body, analogous to
`ucsProcess`. -/
def dfsProcess (cols rows : Int) (world : List (List Char)) (fuel : Nat)
    (cur : RobotState) (stack' : List RobotState) (explored : Finset Key)
    (gen exp : Nat) (trace : List Key) : SearchResult × List Key :=
  if cur.dirty_cells = ∅ then
    (SearchResult.solved cur.path gen exp, trace)
  else
    let acc :=
      dfsPushSuccessors cols rows world cur cur.position.1 cur.position.2
        stack' explored gen
    dfsGo cols rows world fuel acc.1 acc.2.1 acc.2.2 exp trace

/-- `dfs(cols, rows, world, start)`: seed the stack with the start state
and run the loop. -/
def dfs (cols rows : Int) (world : List (List Char)) (start : RobotState)
    (fuel : Nat) : SearchResult × List Key :=
  dfsGo cols rows world fuel [start] ∅ 0 0 []

/-! ## Replay semantics

Replaying an action sequence from a position and dirty set: each of
N/S/E/W moves one cell, `V` removes the current position from the dirty
set.  A replay is valid when every move stays inside the grid bounds and
lands on a non-wall cell. -/

/-- The movement offset of an action (`V` does not move). -/
def moveDelta : Action → Int × Int
  | Action.N => (-1, 0)
  | Action.S => (1, 0)
  | Action.E => (0, 1)
  | Action.W => (0, -1)
  | Action.V => (0, 0)

/-- Apply one action to a `(position, dirty set)` configuration. -/
def applyAction (p : Pos) (d : Dirty) : Action → Pos × Dirty
  | Action.V => (p, d.erase p)
  | a => ((p.1 + (moveDelta a).1, p.2 + (moveDelta a).2), d)

/-- Replay a whole action sequence. -/
def replay (p : Pos) (d : Dirty) : List Action → Pos × Dirty
  | [] => (p, d)
  | a :: rest => replay (applyAction p d a).1 (applyAction p d a).2 rest

/-- One action is admissible at position `p`: a vacuum always is, a move
must stay in bounds and land on a non-wall cell. -/
def StepOk (cols rows : Int) (world : List (List Char)) (p : Pos) :
    Action → Prop
  | Action.V => True
  | a =>
    let q : Pos := (p.1 + (moveDelta a).1, p.2 + (moveDelta a).2)
    0 ≤ q.1 ∧ q.1 < rows ∧ 0 ≤ q.2 ∧ q.2 < cols ∧ cellAt world q.1 q.2 ≠ '#'

instance (cols rows : Int) (world : List (List Char)) (p : Pos) (a : Action) :
    Decidable (StepOk cols rows world p a) := by
  cases a <;> · unfold StepOk; infer_instance

/-- A replayed action sequence never leaves the grid bounds and never
enters a wall cell. -/
def ValidReplay (cols rows : Int) (world : List (List Char)) :
    Pos → Dirty → List Action → Prop
  | _, _, [] => True
  | p, d, a :: rest =>
    StepOk cols rows world p a ∧
      ValidReplay cols rows world (applyAction p d a).1 (applyAction p d a).2 rest

instance instDecidableValidReplay (cols rows : Int) (world : List (List Char)) :
    ∀ (p : Pos) (d : Dirty) (l : List Action),
      Decidable (ValidReplay cols rows world p d l)
  | _, _, [] => Decidable.isTrue trivial
  | p, d, a :: rest =>
    @instDecidableAnd _ _ _
      (instDecidableValidReplay cols rows world
        (applyAction p d a).1 (applyAction p d a).2 rest)

/-! ## Permutation facts about the heap and stack operations

The loop invariants of both searches only need that a push adds its item
to the frontier's contents and a pop removes the returned item, i.e.
that the operations permute contents as expected. -/

/-- Adding-form counting lemma for `List.set`, avoiding truncated
subtraction. -/
theorem count_set_add {α : Type} [DecidableEq α] {l : List α} {i : Nat}
    (hi : i < l.length) (v y : α) :
    (l.set i v).count y + (if l[i] = y then 1 else 0)
      = l.count y + (if v = y then 1 else 0) := by
  have h1 : l.set i v = l.take i ++ v :: l.drop (i + 1) :=
    List.set_eq_take_cons_drop v hi
  have h2 : l.count y
      = (l.take i ++ l[i] :: l.drop (i + 1)).count y := by
    conv_lhs => rw [← List.take_append_drop i l, List.drop_eq_getElem_cons hi]
  rw [h1, h2]
  simp only [List.count_append, List.count_cons, beq_iff_eq]
  split_ifs <;> omega

/-- Overwriting slot `i` with the element of slot `j` and then slot `j`
with `x` permutes to just overwriting slot `i` with `x`. -/
theorem set_set_perm {α : Type} [DecidableEq α] {l : List α} {i j : Nat}
    (hi : i < l.length) (hj : j < l.length) (x : α) :
    ((l.set i l[j]).set j x).Perm (l.set i x) := by
  rcases eq_or_ne i j with rfl | hij
  · rw [List.set_set]
  · rw [List.perm_iff_count]
    intro y
    have hj1 : j < (l.set i l[j]).length := by simpa using hj
    have e1 := count_set_add (l := l.set i l[j]) hj1 x y
    have e2 := count_set_add (l := l) hi (l[j]) y
    have e3 := count_set_add (l := l) hi x y
    rw [List.getElem_set_ne hij] at e1
    omega

/-- `siftdownAux` permutes the heap contents to just writing `newitem`
into slot `pos` (for any fuel). -/
theorem siftdownAux_perm {α : Type} [DecidableEq α] (κ : α → Nat × Nat) :
    ∀ (n : Nat) (heap : List α) (startpos pos : Nat) (item : α),
      pos < heap.length →
      (siftdownAux κ n heap startpos pos item).Perm (heap.set pos item)
  | 0, heap, startpos, pos, item, _ => by
    simp [siftdownAux]
  | n + 1, heap, startpos, pos, item, hpos => by
    simp only [siftdownAux]
    by_cases h1 : startpos < pos
    · simp only [if_pos h1]
      by_cases h2 : pairLt (κ item) (κ (heap.getD ((pos - 1) / 2) item))
      · simp only [if_pos h2]
        have hpp : (pos - 1) / 2 < heap.length := by
          have : (pos - 1) / 2 < pos := by omega
          omega
        have hgd : heap.getD ((pos - 1) / 2) item = heap[(pos - 1) / 2] :=
          List.getD_eq_getElem _ _ hpp
        have ih := siftdownAux_perm κ n
          (heap.set pos (heap.getD ((pos - 1) / 2) item)) startpos
          ((pos - 1) / 2) item (by simpa using hpp)
        refine ih.trans ?_
        rw [hgd]
        exact set_set_perm hpos hpp item
      · simp only [if_neg h2]
        exact List.Perm.refl _
    · simp only [if_neg h1]
      exact List.Perm.refl _

/-- `siftupAux` permutes the heap contents to just writing `newitem`
into slot `pos` (for any fuel). -/
theorem siftupAux_perm {α : Type} [DecidableEq α] (κ : α → Nat × Nat) :
    ∀ (n : Nat) (heap : List α) (startpos pos : Nat) (item : α),
      pos < heap.length →
      (siftupAux κ n heap startpos pos item).Perm (heap.set pos item)
  | 0, heap, startpos, pos, item, hpos => by
    simp only [siftupAux, siftdownLoop]
    have := siftdownAux_perm κ pos (heap.set pos item) startpos pos item
      (by simpa using hpos)
    rw [List.set_set] at this
    exact this
  | n + 1, heap, startpos, pos, item, hpos => by
    simp only [siftupAux]
    by_cases h : 2 * pos + 1 < heap.length
    · simp only [if_pos h]
      set c : Nat :=
        if 2 * pos + 1 + 1 < heap.length ∧
            ¬ pairLt (κ (heap.getD (2 * pos + 1) item))
              (κ (heap.getD (2 * pos + 1 + 1) item)) then
          2 * pos + 1 + 1
        else 2 * pos + 1 with hc
    -- `c` is the chosen child index; in both cases it is in range and below `pos`.
      have hcr : c < heap.length := by
        rw [hc]; split_ifs with hsplit
        · exact hsplit.1
        · exact h
      have hgd : heap.getD c item = heap[c] := List.getD_eq_getElem _ _ hcr
      have ih := siftupAux_perm κ n (heap.set pos (heap.getD c item)) startpos
        c item (by simpa using hcr)
      refine ih.trans ?_
      rw [hgd]
      exact set_set_perm hpos hcr item
    · simp only [if_neg h, siftdownLoop]
      have := siftdownAux_perm κ pos (heap.set pos item) startpos pos item
        (by simpa using hpos)
      rw [List.set_set] at this
      exact this

/-- Writing the appended element over itself changes nothing. -/
theorem set_append_singleton_length {α : Type} :
    ∀ (l : List α) (x y : α), (l ++ [x]).set l.length y = l ++ [y]
  | [], x, y => rfl
  | a :: l, x, y => by
    simp only [List.cons_append, List.length_cons, List.set_cons_succ]
    rw [set_append_singleton_length l x y]

/-- `heappush` permutes the heap contents to consing the new item. -/
theorem heappush_perm {α : Type} [DecidableEq α] (κ : α → Nat × Nat)
    (heap : List α) (item : α) :
    (heappush κ heap item).Perm (item :: heap) := by
  unfold heappush siftdownLoop
  have h := siftdownAux_perm κ heap.length (heap ++ [item]) 0 heap.length item
    (by simp)
  rw [set_append_singleton_length] at h
  exact h.trans (List.perm_append_singleton item heap)

/-- `heappop` fails exactly on the empty heap. -/
theorem heappop_eq_none_iff {α : Type} (κ : α → Nat × Nat) (heap : List α) :
    heappop κ heap = none ↔ heap = [] := by
  cases heap with
  | nil => simp [heappop]
  | cons x xs =>
    rcases hdl : (x :: xs).dropLast with _ | ⟨r, rs⟩ <;> simp [heappop, hdl]

/-- `heappop` permutes the heap contents to consing the returned item
onto the remaining heap. -/
theorem heappop_perm {α : Type} [DecidableEq α] (κ : α → Nat × Nat)
    {heap rest : List α} {e : α}
    (h : heappop κ heap = some (e, rest)) : heap.Perm (e :: rest) := by
  match heap with
  | [] => simp [heappop] at h
  | x :: xs =>
    rw [heappop] at h
    have hlast : (x :: xs).dropLast ++ [(x :: xs).getLast (List.cons_ne_nil x xs)]
        = x :: xs := List.dropLast_append_getLast _
    set last := (x :: xs).getLast (List.cons_ne_nil x xs) with hlastdef
    rcases hdl : (x :: xs).dropLast with _ | ⟨r, rs⟩
    · rw [hdl] at h
      simp only [Option.some.injEq, Prod.mk.injEq] at h
      rw [hdl] at hlast
      simp only [List.nil_append] at hlast
      rw [← hlast, ← h.1, ← h.2]
    · rw [hdl] at h
      simp only [Option.some.injEq, Prod.mk.injEq] at h
      obtain ⟨he, hrest⟩ := h
      have hperm : rest.Perm (last :: rs) := by
        rw [← hrest]
        have h0 : (0 : Nat) < ((r :: rs).set 0 last).length := by simp
        have := siftupAux_perm κ ((r :: rs).set 0 last).length
          ((r :: rs).set 0 last) 0 0 last h0
        rw [List.set_set] at this
        simpa [siftupLoop] using this
      rw [hdl] at hlast
      have h1 : (x :: xs).Perm (r :: (last :: rs)) := by
        rw [← hlast]
        exact List.Perm.cons r (List.perm_append_singleton last rs)
      have h2 : (e :: rest).Perm (r :: (last :: rs)) := by
        rw [← he]
        exact List.Perm.cons r hperm
      exact h1.trans h2.symm

/-- The popped entry was in the heap. -/
theorem heappop_mem {α : Type} [DecidableEq α] {κ : α → Nat × Nat}
    {heap rest : List α} {e : α}
    (h : heappop κ heap = some (e, rest)) : e ∈ heap :=
  (heappop_perm κ h).mem_iff.2 (List.mem_cons_self e rest)

/-- Popping shrinks the heap length by one. -/
theorem heappop_length {α : Type} [DecidableEq α] {κ : α → Nat × Nat}
    {heap rest : List α} {e : α}
    (h : heappop κ heap = some (e, rest)) : heap.length = rest.length + 1 := by
  simpa using (heappop_perm κ h).length_eq

/-- `stack.pop()` fails exactly on the empty stack. -/
theorem stackPop_eq_none_iff (stack : List RobotState) :
    stackPop stack = none ↔ stack = [] := by
  cases stack <;> simp [stackPop]

/-- `stack.pop()` permutes the stack contents to consing the returned
item onto the remaining stack. -/
theorem stackPop_perm {stack rest : List RobotState} {e : RobotState}
    (h : stackPop stack = some (e, rest)) : stack.Perm (e :: rest) := by
  match stack with
  | [] => simp [stackPop] at h
  | x :: xs =>
    simp only [stackPop, Option.some.injEq, Prod.mk.injEq] at h
    obtain ⟨he, hrest⟩ := h
    have hlast : (x :: xs).dropLast ++ [(x :: xs).getLast (List.cons_ne_nil x xs)]
        = x :: xs := List.dropLast_append_getLast _
    rw [he, hrest] at hlast
    rw [← hlast]
    exact List.perm_append_singleton e rest

/-- The popped state was on the stack. -/
theorem stackPop_mem {stack rest : List RobotState} {e : RobotState}
    (h : stackPop stack = some (e, rest)) : e ∈ stack :=
  (stackPop_perm h).mem_iff.2 (List.mem_cons_self e rest)

/-! ## One-step unfolding of the search loops -/

/-- One iteration of the `ucs` loop on a nonempty frontier: pop the heap
minimum, count one expansion, record the popped key, apply the vacuum
transition when the popped position is dirty, and hand the resulting
node to the post-vacuum processing `ucsProcess` — with the generated
count unchanged. -/
theorem ucsGo_succ_pop (cols rows : Int) (world : List (List Char))
    (fuel : Nat) {pq pq' : List (Nat × RobotState)} {e : Nat × RobotState}
    (explored : Finset Key) (gen exp : Nat) (trace : List Key)
    (hpop : heappop entryKey pq = some (e, pq')) :
    ucsGo cols rows world (fuel + 1) pq explored gen exp trace
      = ucsProcess cols rows world fuel
          (if e.2.position ∈ e.2.dirty_cells then
            ⟨e.2.position, e.2.dirty_cells.erase e.2.position,
              e.2.path ++ [Action.V]⟩
          else e.2)
          pq' explored gen (exp + 1) (trace ++ [e.2.key]) := by
  by_cases hd : e.2.position ∈ e.2.dirty_cells <;>
    simp [ucsGo, ucsProcess, hpop, hd]

/-- One iteration of the `dfs` loop on a nonempty frontier, analogous to
`ucsGo_succ_pop`. -/
theorem dfsGo_succ_pop (cols rows : Int) (world : List (List Char))
    (fuel : Nat) {stack stack' : List RobotState} {e : RobotState}
    (explored : Finset Key) (gen exp : Nat) (trace : List Key)
    (hpop : stackPop stack = some (e, stack')) :
    dfsGo cols rows world (fuel + 1) stack explored gen exp trace
      = dfsProcess cols rows world fuel
          (if e.position ∈ e.dirty_cells then
            ⟨e.position, e.dirty_cells.erase e.position, e.path ++ [Action.V]⟩
          else e)
          stack' explored gen (exp + 1) (trace ++ [e.key]) := by
  by_cases hd : e.position ∈ e.dirty_cells <;>
    simp [dfsGo, dfsProcess, hpop, hd]

/-- The `ucs` loop on an empty frontier reports exhaustion with the
accumulated counters. -/
theorem ucsGo_succ_empty (cols rows : Int) (world : List (List Char))
    (fuel : Nat) (explored : Finset Key) (gen exp : Nat) (trace : List Key) :
    ucsGo cols rows world (fuel + 1) [] explored gen exp trace
      = (SearchResult.exhausted gen exp, trace) := by
  simp [ucsGo, heappop]

/-- The `dfs` loop on an empty frontier reports exhaustion with the
accumulated counters. -/
theorem dfsGo_succ_empty (cols rows : Int) (world : List (List Char))
    (fuel : Nat) (explored : Finset Key) (gen exp : Nat) (trace : List Key) :
    dfsGo cols rows world (fuel + 1) [] explored gen exp trace
      = (SearchResult.exhausted gen exp, trace) := by
  simp [dfsGo, stackPop]

/-- Once enough fuel is provided for the `ucs` loop to reach its real
termination, extra fuel changes nothing. -/
theorem ucsGo_fuel_irrel (cols rows : Int) (world : List (List Char)) :
    ∀ (m fuel : Nat) (pq : List (Nat × RobotState)) (explored : Finset Key)
      (gen exp : Nat) (trace : List Key), m ≤ fuel →
      (ucsGo cols rows world m pq explored gen exp trace).1 ≠ SearchResult.outOfFuel →
      ucsGo cols rows world fuel pq explored gen exp trace
        = ucsGo cols rows world m pq explored gen exp trace
  | 0, _fuel, pq, ex, g, e, tr, _hle, hne => (hne rfl).elim
  | m + 1, fuel, pq, ex, g, e, tr, hle, hne => by
    obtain ⟨f, rfl⟩ : ∃ f, fuel = f + 1 := ⟨fuel - 1, by omega⟩
    cases hpop : heappop entryKey pq with
    | none => simp [ucsGo, hpop]
    | some pr =>
      obtain ⟨e0, pq'⟩ := pr
      rw [ucsGo_succ_pop cols rows world f ex g e tr hpop,
        ucsGo_succ_pop cols rows world m ex g e tr hpop]
      rw [ucsGo_succ_pop cols rows world m ex g e tr hpop] at hne
      unfold ucsProcess at hne ⊢
      by_cases hgoal :
          (if e0.2.position ∈ e0.2.dirty_cells then
            (⟨e0.2.position, e0.2.dirty_cells.erase e0.2.position,
              e0.2.path ++ [Action.V]⟩ : RobotState)
          else e0.2).dirty_cells = ∅
      · simp only [if_pos hgoal]
      · simp only [if_neg hgoal] at hne ⊢
        exact ucsGo_fuel_irrel cols rows world m f _ _ _ _ _ (by omega) hne

/-- Once enough fuel is provided for the `dfs` loop to reach its real
termination, extra fuel changes nothing. -/
theorem dfsGo_fuel_irrel (cols rows : Int) (world : List (List Char)) :
    ∀ (m fuel : Nat) (stack : List RobotState) (explored : Finset Key)
      (gen exp : Nat) (trace : List Key), m ≤ fuel →
      (dfsGo cols rows world m stack explored gen exp trace).1 ≠ SearchResult.outOfFuel →
      dfsGo cols rows world fuel stack explored gen exp trace
        = dfsGo cols rows world m stack explored gen exp trace
  | 0, _fuel, stack, ex, g, e, tr, _hle, hne => (hne rfl).elim
  | m + 1, fuel, stack, ex, g, e, tr, hle, hne => by
    obtain ⟨f, rfl⟩ : ∃ f, fuel = f + 1 := ⟨fuel - 1, by omega⟩
    cases hpop : stackPop stack with
    | none => simp [dfsGo, hpop]
    | some pr =>
      obtain ⟨e0, stack'⟩ := pr
      rw [dfsGo_succ_pop cols rows world f ex g e tr hpop,
        dfsGo_succ_pop cols rows world m ex g e tr hpop]
      rw [dfsGo_succ_pop cols rows world m ex g e tr hpop] at hne
      unfold dfsProcess at hne ⊢
      by_cases hgoal :
          (if e0.position ∈ e0.dirty_cells then
            (⟨e0.position, e0.dirty_cells.erase e0.position,
              e0.path ++ [Action.V]⟩ : RobotState)
          else e0).dirty_cells = ∅
      · simp only [if_pos hgoal]
      · simp only [if_neg hgoal] at hne ⊢
        exact dfsGo_fuel_irrel cols rows world m f _ _ _ _ _ (by omega) hne

/-! ## Replay lemmas -/

/-- Replaying a concatenation replays the pieces in order. -/
theorem replay_append (σ τ : List Action) :
    ∀ (p : Pos) (d : Dirty),
      replay p d (σ ++ τ) = replay (replay p d σ).1 (replay p d σ).2 τ := by
  induction σ with
  | nil => intro p d; rfl
  | cons a σ ih =>
    intro p d
    simp only [List.cons_append, replay]
    exact ih _ _

/-- Valid replays extend by one admissible step. -/
theorem validReplay_snoc (cols rows : Int) (world : List (List Char))
    (σ : List Action) :
    ∀ (p : Pos) (d : Dirty) (a : Action),
      ValidReplay cols rows world p d σ →
      StepOk cols rows world (replay p d σ).1 a →
      ValidReplay cols rows world p d (σ ++ [a]) := by
  induction σ with
  | nil =>
    intro p d a _ hstep
    exact ⟨hstep, trivial⟩
  | cons b σ ih =>
    intro p d a hv hstep
    obtain ⟨hb, hv'⟩ := hv
    exact ⟨hb, ih _ _ a hv' hstep⟩

/-- Replaying only ever shrinks the dirty set. -/
theorem replay_dirty_subset (σ : List Action) :
    ∀ (p : Pos) (d : Dirty), (replay p d σ).2 ⊆ d := by
  induction σ with
  | nil => intro p d; exact Finset.Subset.refl d
  | cons a σ ih =>
    intro p d
    refine Finset.Subset.trans (ih _ _) ?_
    cases a <;> simp [applyAction, Finset.erase_subset]

/-- The path-coherence invariant every frontier state satisfies: its
path replays validly from the start configuration and lands exactly on
the state's position and remaining dirty set. -/
def StateInv (cols rows : Int) (world : List (List Char)) (p0 : Pos)
    (d0 : Dirty) (s : RobotState) : Prop :=
  ValidReplay cols rows world p0 d0 s.path ∧
    replay p0 d0 s.path = (s.position, s.dirty_cells)

/-- The vacuum transition preserves path coherence. -/
theorem stateInv_vac {cols rows : Int} {world : List (List Char)} {p0 : Pos}
    {d0 : Dirty} {s : RobotState} (h : StateInv cols rows world p0 d0 s) :
    StateInv cols rows world p0 d0
      ⟨s.position, s.dirty_cells.erase s.position, s.path ++ [Action.V]⟩ := by
  obtain ⟨hv, hr⟩ := h
  constructor
  · exact validReplay_snoc cols rows world s.path p0 d0 Action.V hv (by
      rw [hr]; trivial)
  · rw [replay_append, hr]
    simp [replay, applyAction]

/-- The no-op vacuum: erasing a position that is not dirty. -/
theorem stateInv_vac_of_not_mem {cols rows : Int} {world : List (List Char)}
    {p0 : Pos} {d0 : Dirty} {s : RobotState}
    (h : StateInv cols rows world p0 d0 s) :
    StateInv cols rows world p0 d0 s := h

/-! ## Successor generation lemmas -/

/-- Membership characterization of `genSuccessors`: a state is generated
iff it is the move in one of the four directions whose target is in
bounds and passable, carrying the parent's dirty set and the extended
path. -/
theorem mem_genSuccessors_iff (cols rows : Int) (world : List (List Char))
    (cur : RobotState) (r c : Int) (ns : RobotState) :
    ns ∈ genSuccessors cols rows world cur r c ↔
      ∃ a dr dc, (a, (dr, dc)) ∈ dirList ∧
        0 ≤ r + dr ∧ r + dr < rows ∧ 0 ≤ c + dc ∧ c + dc < cols ∧
        cellAt world (r + dr) (c + dc) ≠ '#' ∧
        ns = ⟨(r + dr, c + dc), cur.dirty_cells, cur.path ++ [a]⟩ := by
  simp only [genSuccessors, List.mem_filterMap]
  constructor
  · rintro ⟨⟨a, dr, dc⟩, hmem, htry⟩
    unfold tryDir at htry
    simp only at htry
    split_ifs at htry with hcond
    · simp only [Option.some.injEq] at htry
      exact ⟨a, dr, dc, hmem, hcond.1, hcond.2.1, hcond.2.2.1, hcond.2.2.2.1,
        hcond.2.2.2.2, htry.symm⟩
  · rintro ⟨a, dr, dc, hmem, h1, h2, h3, h4, h5, hns⟩
    refine ⟨(a, dr, dc), hmem, ?_⟩
    unfold tryDir
    simp only
    rw [if_pos ⟨h1, h2, h3, h4, h5⟩, hns]

/-- Successor states preserve path coherence when generated from the
parent's own position. -/
theorem stateInv_succ {cols rows : Int} {world : List (List Char)} {p0 : Pos}
    {d0 : Dirty} {cur ns : RobotState}
    (h : StateInv cols rows world p0 d0 cur)
    (hns : ns ∈ genSuccessors cols rows world cur cur.position.1 cur.position.2) :
    StateInv cols rows world p0 d0 ns := by
  obtain ⟨hv, hr⟩ := h
  rw [mem_genSuccessors_iff] at hns
  obtain ⟨a, dr, dc, hmem, h1, h2, h3, h4, h5, hns⟩ := hns
  subst hns
  simp only [dirList, List.mem_cons, List.not_mem_nil, or_false,
    Prod.mk.injEq] at hmem
  rcases hmem with ⟨rfl, rfl, rfl⟩ | ⟨rfl, rfl, rfl⟩ | ⟨rfl, rfl, rfl⟩ |
    ⟨rfl, rfl, rfl⟩ <;>
  · refine ⟨validReplay_snoc cols rows world cur.path p0 d0 _ hv ?_, ?_⟩
    · rw [hr]
      exact ⟨h1, h2, h3, h4, h5⟩
    · rw [replay_append, hr]
      simp [replay, applyAction, moveDelta]

/-! ## The successor fold: membership facts -/

/-- Unfolding `ucsPushIfNew` on an unexplored key. -/
theorem ucsPushIfNew_pos (acc : List (Nat × RobotState) × Finset Key × Nat)
    (ns : RobotState) (h : ns.key ∉ acc.2.1) :
    ucsPushIfNew acc ns
      = (heappush entryKey acc.1 (ns.path.length, ns),
          insert ns.key acc.2.1, acc.2.2 + 1) := by
  unfold ucsPushIfNew
  rw [if_pos h]

/-- Unfolding `ucsPushIfNew` on an explored key. -/
theorem ucsPushIfNew_neg (acc : List (Nat × RobotState) × Finset Key × Nat)
    (ns : RobotState) (h : ns.key ∈ acc.2.1) :
    ucsPushIfNew acc ns = acc := by
  unfold ucsPushIfNew
  rw [if_neg (not_not_intro h)]

/-- Unfolding `dfsPushIfNew` on an unexplored key. -/
theorem dfsPushIfNew_pos (acc : List RobotState × Finset Key × Nat)
    (ns : RobotState) (h : ns.key ∉ acc.2.1) :
    dfsPushIfNew acc ns
      = (acc.1 ++ [ns], insert ns.key acc.2.1, acc.2.2 + 1) := by
  unfold dfsPushIfNew
  rw [if_pos h]

/-- Unfolding `dfsPushIfNew` on an explored key. -/
theorem dfsPushIfNew_neg (acc : List RobotState × Finset Key × Nat)
    (ns : RobotState) (h : ns.key ∈ acc.2.1) :
    dfsPushIfNew acc ns = acc := by
  unfold dfsPushIfNew
  rw [if_neg (not_not_intro h)]

/-- Elements of the frontier after the `ucs` successor fold: either they
were already there, or they are freshly pushed `(len(path), state)`
entries for generated candidates. -/
theorem ucsFold_mem (l : List RobotState) :
    ∀ (acc : List (Nat × RobotState) × Finset Key × Nat) (e : Nat × RobotState),
      e ∈ (l.foldl ucsPushIfNew acc).1 →
      e ∈ acc.1 ∨ ∃ ns ∈ l, e = (ns.path.length, ns) := by
  induction l with
  | nil => intro acc e he; exact Or.inl he
  | cons a l ih =>
    intro acc e he
    rcases ih (ucsPushIfNew acc a) e he with h | ⟨ns, hns, rfl⟩
    · by_cases hnew : a.key ∈ acc.2.1
      · rw [ucsPushIfNew_neg acc a hnew] at h
        exact Or.inl h
      · rw [ucsPushIfNew_pos acc a hnew] at h
        rcases List.mem_cons.1
            ((heappush_perm entryKey acc.1 (a.path.length, a)).mem_iff.1 h) with
          h' | h'
        · exact Or.inr ⟨a, List.mem_cons_self a l, h'⟩
        · exact Or.inl h'
    · exact Or.inr ⟨ns, List.mem_cons_of_mem a hns, rfl⟩

/-- Frontier membership is preserved by the `ucs` successor fold. -/
theorem ucsFold_mem_mono (l : List RobotState) :
    ∀ (acc : List (Nat × RobotState) × Finset Key × Nat) (e : Nat × RobotState),
      e ∈ acc.1 → e ∈ (l.foldl ucsPushIfNew acc).1 := by
  induction l with
  | nil => intro acc e he; exact he
  | cons a l ih =>
    intro acc e he
    refine ih (ucsPushIfNew acc a) e ?_
    by_cases hnew : a.key ∈ acc.2.1
    · rw [ucsPushIfNew_neg acc a hnew]
      exact he
    · rw [ucsPushIfNew_pos acc a hnew]
      exact (heappush_perm entryKey acc.1 (a.path.length, a)).mem_iff.2
        (List.mem_cons_of_mem _ he)

/-- Elements of the frontier after the `dfs` successor fold: either they
were already there, or they are generated candidates. -/
theorem dfsFold_mem (l : List RobotState) :
    ∀ (acc : List RobotState × Finset Key × Nat) (s : RobotState),
      s ∈ (l.foldl dfsPushIfNew acc).1 → s ∈ acc.1 ∨ s ∈ l := by
  induction l with
  | nil => intro acc s hs; exact Or.inl hs
  | cons a l ih =>
    intro acc s hs
    rcases ih (dfsPushIfNew acc a) s hs with h | h
    · by_cases hnew : a.key ∈ acc.2.1
      · rw [dfsPushIfNew_neg acc a hnew] at h
        exact Or.inl h
      · rw [dfsPushIfNew_pos acc a hnew] at h
        rcases List.mem_append.1 h with h' | h'
        · exact Or.inl h'
        · rcases List.mem_singleton.1 h' with rfl
          exact Or.inr (List.mem_cons_self s l)
    · exact Or.inr (List.mem_cons_of_mem a h)

/-- Frontier membership is preserved by the `dfs` successor fold. -/
theorem dfsFold_mem_mono (l : List RobotState) :
    ∀ (acc : List RobotState × Finset Key × Nat) (s : RobotState),
      s ∈ acc.1 → s ∈ (l.foldl dfsPushIfNew acc).1 := by
  induction l with
  | nil => intro acc s hs; exact hs
  | cons a l ih =>
    intro acc s hs
    refine ih (dfsPushIfNew acc a) s ?_
    by_cases hnew : a.key ∈ acc.2.1
    · rw [dfsPushIfNew_neg acc a hnew]
      exact hs
    · rw [dfsPushIfNew_pos acc a hnew]
      exact List.mem_append.2 (Or.inl hs)

/-! ## Returned solutions replay validly (basis of C3, C6, C8) -/

/-- If every frontier state is path-coherent and the `ucs` loop returns
a solution, the solution replays validly from the start configuration
and ends with an empty dirty set. -/
theorem ucsGo_solved_valid (cols rows : Int) (world : List (List Char))
    (p0 : Pos) (d0 : Dirty) :
    ∀ (fuel : Nat) (pq : List (Nat × RobotState)) (explored : Finset Key)
      (gen exp : Nat) (trace : List Key) (p : List Action) (g x : Nat),
      (∀ e ∈ pq, StateInv cols rows world p0 d0 e.2) →
      (ucsGo cols rows world fuel pq explored gen exp trace).1
        = SearchResult.solved p g x →
      ∃ pos, ValidReplay cols rows world p0 d0 p ∧
        replay p0 d0 p = (pos, ∅) := by
  intro fuel
  induction fuel with
  | zero => intro pq ex gen exp tr p g x _ heq; exact absurd heq (by simp [ucsGo])
  | succ fuel ih =>
    intro pq ex gen exp tr p g x hinv heq
    cases hpop : heappop entryKey pq with
    | none =>
      have hstep : ucsGo cols rows world (fuel + 1) pq ex gen exp tr
          = (SearchResult.exhausted gen exp, tr) := by
        simp [ucsGo, hpop]
      rw [hstep] at heq
      exact absurd heq (by simp)
    | some pr =>
      obtain ⟨e0, pq'⟩ := pr
      rw [ucsGo_succ_pop cols rows world fuel ex gen exp tr hpop] at heq
      have he0 : StateInv cols rows world p0 d0 e0.2 := hinv e0 (heappop_mem hpop)
      set cur : RobotState :=
        if e0.2.position ∈ e0.2.dirty_cells then
          ⟨e0.2.position, e0.2.dirty_cells.erase e0.2.position,
            e0.2.path ++ [Action.V]⟩
        else e0.2 with hcurdef
      have hcur : StateInv cols rows world p0 d0 cur := by
        rw [hcurdef]
        split_ifs with hd
        · exact stateInv_vac he0
        · exact he0
      unfold ucsProcess at heq
      split_ifs at heq with hgoal
      · simp only [Prod.fst, SearchResult.solved.injEq] at heq
        obtain ⟨rfl, -, -⟩ := heq
        refine ⟨cur.position, hcur.1, ?_⟩
        rw [hcur.2, hgoal]
      · refine ih _ _ _ _ _ p g x ?_ heq
        intro e he
        rcases ucsFold_mem _ _ e he with h | ⟨ns, hns, rfl⟩
        · exact hinv e ((heappop_perm entryKey hpop).mem_iff.2
            (List.mem_cons_of_mem _ h))
        · exact stateInv_succ hcur hns

/-- If every frontier state is path-coherent and the `dfs` loop returns
a solution, the solution replays validly from the start configuration
and ends with an empty dirty set. -/
theorem dfsGo_solved_valid (cols rows : Int) (world : List (List Char))
    (p0 : Pos) (d0 : Dirty) :
    ∀ (fuel : Nat) (stack : List RobotState) (explored : Finset Key)
      (gen exp : Nat) (trace : List Key) (p : List Action) (g x : Nat),
      (∀ s ∈ stack, StateInv cols rows world p0 d0 s) →
      (dfsGo cols rows world fuel stack explored gen exp trace).1
        = SearchResult.solved p g x →
      ∃ pos, ValidReplay cols rows world p0 d0 p ∧
        replay p0 d0 p = (pos, ∅) := by
  intro fuel
  induction fuel with
  | zero => intro stack ex gen exp tr p g x _ heq; exact absurd heq (by simp [dfsGo])
  | succ fuel ih =>
    intro stack ex gen exp tr p g x hinv heq
    cases hpop : stackPop stack with
    | none =>
      have hstep : dfsGo cols rows world (fuel + 1) stack ex gen exp tr
          = (SearchResult.exhausted gen exp, tr) := by
        simp [dfsGo, hpop]
      rw [hstep] at heq
      exact absurd heq (by simp)
    | some pr =>
      obtain ⟨e0, stack'⟩ := pr
      rw [dfsGo_succ_pop cols rows world fuel ex gen exp tr hpop] at heq
      have he0 : StateInv cols rows world p0 d0 e0 := hinv e0 (stackPop_mem hpop)
      set cur : RobotState :=
        if e0.position ∈ e0.dirty_cells then
          ⟨e0.position, e0.dirty_cells.erase e0.position, e0.path ++ [Action.V]⟩
        else e0 with hcurdef
      have hcur : StateInv cols rows world p0 d0 cur := by
        rw [hcurdef]
        split_ifs with hd
        · exact stateInv_vac he0
        · exact he0
      unfold dfsProcess at heq
      split_ifs at heq with hgoal
      · simp only [Prod.fst, SearchResult.solved.injEq] at heq
        obtain ⟨rfl, -, -⟩ := heq
        refine ⟨cur.position, hcur.1, ?_⟩
        rw [hcur.2, hgoal]
      · refine ih _ _ _ _ _ p g x ?_ heq
        intro s hs
        rcases dfsFold_mem _ _ s hs with h | h
        · exact hinv s ((stackPop_perm hpop).mem_iff.2 (List.mem_cons_of_mem _ h))
        · exact stateInv_succ hcur h

/-- A start state with the empty path is path-coherent. -/
theorem stateInv_start (cols rows : Int) (world : List (List Char))
    (p0 : Pos) (d0 : Dirty) :
    StateInv cols rows world p0 d0 ⟨p0, d0, []⟩ :=
  ⟨trivial, rfl⟩

/-- C3.  For every world and either strategy, whenever the search
returns a solution, replaying the returned action sequence from the
initial position — moving one cell per N/S/E/W action and removing the
current position from the dirty set on each V action — never leaves the
grid bounds, never enters a wall cell, and ends with the
remaining-dirty-set empty. -/
theorem claim_C3 (cols rows : Int) (world : List (List Char)) (p0 : Pos)
    (d0 : Dirty) (fuel : Nat) (p : List Action) (g x : Nat) :
    ((ucs cols rows world ⟨p0, d0, []⟩ fuel).1 = SearchResult.solved p g x →
      ValidReplay cols rows world p0 d0 p ∧ (replay p0 d0 p).2 = ∅) ∧
    ((dfs cols rows world ⟨p0, d0, []⟩ fuel).1 = SearchResult.solved p g x →
      ValidReplay cols rows world p0 d0 p ∧ (replay p0 d0 p).2 = ∅) := by
  constructor
  · intro heq
    obtain ⟨pos, hv, hr⟩ := ucsGo_solved_valid cols rows world p0 d0 fuel
      (heappush entryKey [] (0, ⟨p0, d0, []⟩)) ∅ 0 0 [] p g x
      (by
        intro e he
        rcases List.mem_cons.1
            ((heappush_perm entryKey [] (0, ⟨p0, d0, []⟩)).mem_iff.1 he) with
          rfl | h'
        · exact stateInv_start cols rows world p0 d0
        · simp at h')
      heq
    exact ⟨hv, by rw [hr]⟩
  · intro heq
    obtain ⟨pos, hv, hr⟩ := dfsGo_solved_valid cols rows world p0 d0 fuel
      [⟨p0, d0, []⟩] ∅ 0 0 [] p g x
      (by
        intro s hs
        rcases List.mem_singleton.1 hs with rfl
        exact stateInv_start cols rows world p0 d0)
      heq
    exact ⟨hv, by rw [hr]⟩

/-- Witness for C3 at the concrete world `"_*@"`. -/
theorem claim_C3_witness :
    ValidReplay 3 1 [['_', '*', '_']] (0, 2) {(0, 1)} [Action.W, Action.V] ∧
      (replay (0, 2) {(0, 1)} [Action.W, Action.V]).2 = ∅ :=
  (claim_C3 3 1 [['_', '*', '_']] (0, 2) {(0, 1)} 10
    [Action.W, Action.V] 1 2).1 (by decide)

/-- C9.  On the 1-row, 3-column world `"_*@"` (dirty cell at column 1,
start at column 2), the cost-ordered strategy returns exactly the action
sequence `["W", "V"]`, with generated count ≥ 1 and expanded count ≥ 1.
Two iterations suffice, so any fuel of at least 2 gives this result. -/
theorem claim_C9 (fuel : Nat) (hfuel : 2 ≤ fuel) :
    ∃ gen exp,
      (ucs 3 1 [['_', '*', '_']] ⟨(0, 2), {(0, 1)}, []⟩ fuel).1
        = SearchResult.solved [Action.W, Action.V] gen exp ∧
      1 ≤ gen ∧ 1 ≤ exp := by
  refine ⟨1, 2, ?_, by omega, by omega⟩
  unfold ucs
  rw [ucsGo_fuel_irrel 3 1 [['_', '*', '_']] 2 fuel _ _ _ _ _ hfuel (by decide)]
  decide

/-- Witness for C9 at fuel 2. -/
theorem claim_C9_witness :
    ∃ gen exp,
      (ucs 3 1 [['_', '*', '_']] ⟨(0, 2), {(0, 1)}, []⟩ 2).1
        = SearchResult.solved [Action.W, Action.V] gen exp ∧
      1 ≤ gen ∧ 1 ≤ exp :=
  claim_C9 2 (by omega)

/-- Counterexample to C2 as stated: on the world `"*_@"` the initial
key `((0,2), {(0,0)})` is never recorded in the explored set, is
re-generated as a successor, and is expanded (popped) twice — the trace
of popped `(position, remaining-dirty-set)` keys is not duplicate-free. -/
theorem claim_C2_counterexample :
    (ucs 3 1 [['*', '_', '_']] ⟨(0, 2), {(0, 0)}, []⟩ 100).2
      = [((0, 2), {(0, 0)}), ((0, 1), {(0, 0)}),
          ((0, 2), {(0, 0)}), ((0, 0), {(0, 0)})] ∧
    ¬ ((ucs 3 1 [['*', '_', '_']] ⟨(0, 2), {(0, 0)}, []⟩ 100).2.Nodup) := by
  constructor <;> decide

/-- C4.  For every popped node whose position is in its remaining dirty
set, both strategies hand — before the goal test and before successor
generation, which `ucsProcess`/`dfsProcess` perform — the node with the
identical position, the dirty set minus that position, and the path
extended by a vacuum action to the rest of the loop body; the generated
count is passed through unchanged, and the expanded count gets exactly
the one increment every popped node gets. -/
theorem claim_C4 :
    (∀ (cols rows : Int) (world : List (List Char)) (fuel : Nat)
        (pq pq' : List (Nat × RobotState)) (e : Nat × RobotState)
        (explored : Finset Key) (gen exp : Nat) (trace : List Key),
      heappop entryKey pq = some (e, pq') →
      e.2.position ∈ e.2.dirty_cells →
      ucsGo cols rows world (fuel + 1) pq explored gen exp trace
        = ucsProcess cols rows world fuel
            ⟨e.2.position, e.2.dirty_cells.erase e.2.position,
              e.2.path ++ [Action.V]⟩
            pq' explored gen (exp + 1) (trace ++ [e.2.key])) ∧
    (∀ (cols rows : Int) (world : List (List Char)) (fuel : Nat)
        (stack stack' : List RobotState) (e : RobotState)
        (explored : Finset Key) (gen exp : Nat) (trace : List Key),
      stackPop stack = some (e, stack') →
      e.position ∈ e.dirty_cells →
      dfsGo cols rows world (fuel + 1) stack explored gen exp trace
        = dfsProcess cols rows world fuel
            ⟨e.position, e.dirty_cells.erase e.position, e.path ++ [Action.V]⟩
            stack' explored gen (exp + 1) (trace ++ [e.key])) := by
  constructor
  · intro cols rows world fuel pq pq' e explored gen exp trace hpop hd
    rw [ucsGo_succ_pop cols rows world fuel explored gen exp trace hpop,
      if_pos hd]
  · intro cols rows world fuel stack stack' e explored gen exp trace hpop hd
    rw [dfsGo_succ_pop cols rows world fuel explored gen exp trace hpop,
      if_pos hd]

/-- Witness for C4 on the 1×1 world `"@"` with the start standing on the
single dirty cell. -/
theorem claim_C4_witness :
    (ucsGo 1 1 [['*']] 1 [(0, ⟨(0, 0), {(0, 0)}, []⟩)] ∅ 0 0 []
      = ucsProcess 1 1 [['*']] 0 ⟨(0, 0), Finset.erase {(0, 0)} (0, 0),
          [] ++ [Action.V]⟩ [] ∅ 0 (0 + 1)
          ([] ++ [RobotState.key ⟨(0, 0), {(0, 0)}, []⟩])) ∧
    (dfsGo 1 1 [['*']] 1 [⟨(0, 0), {(0, 0)}, []⟩] ∅ 0 0 []
      = dfsProcess 1 1 [['*']] 0 ⟨(0, 0), Finset.erase {(0, 0)} (0, 0),
          [] ++ [Action.V]⟩ [] ∅ 0 (0 + 1)
          ([] ++ [RobotState.key ⟨(0, 0), {(0, 0)}, []⟩])) :=
  ⟨claim_C4.1 1 1 [['*']] 0 [(0, ⟨(0, 0), {(0, 0)}, []⟩)] []
      (0, ⟨(0, 0), {(0, 0)}, []⟩) ∅ 0 0 [] (by decide) (by decide),
   claim_C4.2 1 1 [['*']] 0 [⟨(0, 0), {(0, 0)}, []⟩] []
      ⟨(0, 0), {(0, 0)}, []⟩ ∅ 0 0 [] (by decide) (by decide)⟩

/-- C5.  A successor in a given direction is generated iff the target
lies in bounds and on a non-wall cell; it carries the target position,
the expanded node's (post-vacuum) dirty set unchanged, and the path
extended by the direction label; and the four directions are tried in
the fixed order N, S, E, W.  (`ucsProcess` and `dfsProcess` fold the
push-if-unexplored update over exactly this list.) -/
theorem claim_C5 (cols rows : Int) (world : List (List Char))
    (cur : RobotState) (r c : Int) :
    (∀ ns, ns ∈ genSuccessors cols rows world cur r c ↔
      ∃ a dr dc, (a, (dr, dc)) ∈ dirList ∧
        0 ≤ r + dr ∧ r + dr < rows ∧ 0 ≤ c + dc ∧ c + dc < cols ∧
        cellAt world (r + dr) (c + dc) ≠ '#' ∧
        ns = ⟨(r + dr, c + dc), cur.dirty_cells, cur.path ++ [a]⟩) ∧
    genSuccessors cols rows world cur r c
      = (tryDir cols rows world cur r c (Action.N, (-1, 0))).toList
        ++ (tryDir cols rows world cur r c (Action.S, (1, 0))).toList
        ++ (tryDir cols rows world cur r c (Action.E, (0, 1))).toList
        ++ (tryDir cols rows world cur r c (Action.W, (0, -1))).toList ∧
    (∀ (pq : List (Nat × RobotState)) (explored : Finset Key) (gen : Nat),
      ucsPushSuccessors cols rows world cur r c pq explored gen
        = (genSuccessors cols rows world cur r c).foldl ucsPushIfNew
            (pq, explored, gen)) ∧
    (∀ (stack : List RobotState) (explored : Finset Key) (gen : Nat),
      dfsPushSuccessors cols rows world cur r c stack explored gen
        = (genSuccessors cols rows world cur r c).foldl dfsPushIfNew
            (stack, explored, gen)) := by
  refine ⟨mem_genSuccessors_iff cols rows world cur r c, ?_,
    fun _ _ _ => rfl, fun _ _ _ => rfl⟩
  simp only [genSuccessors, dirList, List.filterMap_cons, List.filterMap_nil]
  cases tryDir cols rows world cur r c (Action.N, (-1, 0)) <;>
    cases tryDir cols rows world cur r c (Action.S, (1, 0)) <;>
    cases tryDir cols rows world cur r c (Action.E, (0, 1)) <;>
    cases tryDir cols rows world cur r c (Action.W, (0, -1)) <;>
    simp

/-- C6.  A returned solution is never spurious (it really cleans every
dirty cell along a legal replay); the exhausted outcome carries the two
counters and surfaces as the non-zero termination status 1; and on the
world `"#####" / "#*#_#" / "#####"` whose dirty cell is fully enclosed
by walls, both strategies report `Exhausted` (after one expansion,
having generated nothing). -/
theorem claim_C6 :
    (∀ (cols rows : Int) (world : List (List Char)) (p0 : Pos) (d0 : Dirty)
        (fuel : Nat) (p : List Action) (g x : Nat),
      ((ucs cols rows world ⟨p0, d0, []⟩ fuel).1 = SearchResult.solved p g x ∨
        (dfs cols rows world ⟨p0, d0, []⟩ fuel).1 = SearchResult.solved p g x) →
      ValidReplay cols rows world p0 d0 p ∧ (replay p0 d0 p).2 = ∅) ∧
    (∀ g x : Nat, exitCode (SearchResult.exhausted g x) = 1) ∧
    (∀ fuel : Nat, 2 ≤ fuel →
      (ucs 5 3 [['#', '#', '#', '#', '#'], ['#', '*', '#', '_', '#'],
          ['#', '#', '#', '#', '#']] ⟨(1, 3), {(1, 1)}, []⟩ fuel).1
        = SearchResult.exhausted 0 1 ∧
      (dfs 5 3 [['#', '#', '#', '#', '#'], ['#', '*', '#', '_', '#'],
          ['#', '#', '#', '#', '#']] ⟨(1, 3), {(1, 1)}, []⟩ fuel).1
        = SearchResult.exhausted 0 1) := by
  refine ⟨?_, fun _ _ => rfl, ?_⟩
  · intro cols rows world p0 d0 fuel p g x hor
    rcases hor with heq | heq
    · obtain ⟨pos, hv, hr⟩ := ucsGo_solved_valid cols rows world p0 d0 fuel
        (heappush entryKey [] (0, ⟨p0, d0, []⟩)) ∅ 0 0 [] p g x
        (by
          intro e he
          rcases List.mem_cons.1
              ((heappush_perm entryKey [] (0, ⟨p0, d0, []⟩)).mem_iff.1 he) with
            rfl | h'
          · exact stateInv_start cols rows world p0 d0
          · simp at h')
        heq
      exact ⟨hv, by rw [hr]⟩
    · obtain ⟨pos, hv, hr⟩ := dfsGo_solved_valid cols rows world p0 d0 fuel
        [⟨p0, d0, []⟩] ∅ 0 0 [] p g x
        (by
          intro s hs
          rcases List.mem_singleton.1 hs with rfl
          exact stateInv_start cols rows world p0 d0)
        heq
      exact ⟨hv, by rw [hr]⟩
  · intro fuel hfuel
    constructor
    · unfold ucs
      rw [ucsGo_fuel_irrel 5 3 _ 2 fuel _ _ _ _ _ hfuel (by decide)]
      decide
    · unfold dfs
      rw [dfsGo_fuel_irrel 5 3 _ 2 fuel _ _ _ _ _ hfuel (by decide)]
      decide

/-- Witness for C6: the solved run on `"_*@"` really cleans, and the
enclosed world exhausts at fuel 2. -/
theorem claim_C6_witness :
    (ValidReplay 3 1 [['_', '*', '_']] (0, 2) {(0, 1)} [Action.W, Action.V] ∧
      (replay (0, 2) {(0, 1)} [Action.W, Action.V]).2 = ∅) ∧
    ((ucs 5 3 [['#', '#', '#', '#', '#'], ['#', '*', '#', '_', '#'],
        ['#', '#', '#', '#', '#']] ⟨(1, 3), {(1, 1)}, []⟩ 2).1
      = SearchResult.exhausted 0 1 ∧
    (dfs 5 3 [['#', '#', '#', '#', '#'], ['#', '*', '#', '_', '#'],
        ['#', '#', '#', '#', '#']] ⟨(1, 3), {(1, 1)}, []⟩ 2).1
      = SearchResult.exhausted 0 1) :=
  ⟨claim_C6.1 3 1 [['_', '*', '_']] (0, 2) {(0, 1)} 10
      [Action.W, Action.V] 1 2 (Or.inl (by decide)),
   claim_C6.2.2 2 (by omega)⟩

/-! ## Counting keys through the search (basis of the amended C2 and C7)

Each push records its key in the explored set, and a key is only pushed
while absent from the explored set — except for the seed, which is
pushed without being recorded.  So every key enters the frontier at most
once as a generated successor, plus once if it is the seed key. -/

/-- The number of occurrences of a key in a list of keys. -/
def keyCount (k : Key) (l : List Key) : Nat :=
  l.countP (fun k' => decide (k' = k))

theorem keyCount_nil (k : Key) : keyCount k [] = 0 := rfl

theorem keyCount_cons (k k0 : Key) (l : List Key) :
    keyCount k (k0 :: l) = keyCount k l + (if k0 = k then 1 else 0) := by
  simp [keyCount, List.countP_cons]

theorem keyCount_append (k : Key) (l₁ l₂ : List Key) :
    keyCount k (l₁ ++ l₂) = keyCount k l₁ + keyCount k l₂ :=
  List.countP_append _ l₁ l₂

theorem keyCount_perm (k : Key) {l₁ l₂ : List Key} (h : l₁.Perm l₂) :
    keyCount k l₁ = keyCount k l₂ :=
  List.Perm.countP_eq _ h

/-- The key list of a `ucs` frontier. -/
def pqKeys (pq : List (Nat × RobotState)) : List Key :=
  pq.map (fun e => e.2.key)

/-- The key list of a `dfs` frontier. -/
def stackKeys (stack : List RobotState) : List Key :=
  stack.map (fun s => s.key)

/-- Counting keys through the `ucs` successor fold: the frontier gains
at most one entry per key, and only while moving that key from outside
to inside the explored set. -/
theorem ucsPushSuccessors_keyCount (cols rows : Int) (world : List (List Char))
    (cur : RobotState) (r c : Int) (pq : List (Nat × RobotState))
    (explored : Finset Key) (gen : Nat) (k : Key) :
    keyCount k (pqKeys (ucsPushSuccessors cols rows world cur r c pq explored gen).1)
        + (if k ∈ explored then 1 else 0)
      ≤ keyCount k (pqKeys pq)
        + (if k ∈ (ucsPushSuccessors cols rows world cur r c pq explored gen).2.1
            then 1 else 0) := by
  unfold ucsPushSuccessors
  generalize genSuccessors cols rows world cur r c = l
  induction l generalizing pq explored gen with
  | nil => simp
  | cons a l ih =>
    simp only [List.foldl_cons]
    by_cases hnew : a.key ∈ explored
    · simp only [ucsPushIfNew_neg (pq, explored, gen) a hnew]
      exact ih pq explored gen
    · simp only [ucsPushIfNew_pos (pq, explored, gen) a hnew]
      have hstep := ih (heappush entryKey pq (a.path.length, a))
        (insert a.key explored) (gen + 1)
      have hpush : keyCount k
            (pqKeys (heappush entryKey pq (a.path.length, a)))
          = keyCount k (pqKeys pq) + (if a.key = k then 1 else 0) := by
        have hp := (heappush_perm entryKey pq (a.path.length, a)).map
          (fun e => e.2.key)
        simp only [pqKeys]
        rw [keyCount_perm k hp]
        simp only [List.map_cons]
        rw [keyCount_cons]
      rw [hpush] at hstep
      by_cases hk : k = a.key
      · have h1 : (if k ∈ insert a.key explored then 1 else 0) = 1 := by
          simp [hk]
        have h2 : (if k ∈ explored then 1 else 0) = 0 := by simp [hk, hnew]
        have h3 : (if a.key = k then 1 else 0) = 1 := by simp [hk]
        rw [h1, h3] at hstep
        rw [h2]
        omega
      · have h1 : (if k ∈ insert a.key explored then 1 else 0)
            = (if k ∈ explored then 1 else 0) := by
          simp [Finset.mem_insert, hk]
        have h2 : (if a.key = k then 1 else 0) = 0 := by
          simp [Ne.symm hk]
        rw [h1, h2] at hstep
        omega

/-- Counting keys through the `dfs` successor fold. -/
theorem dfsPushSuccessors_keyCount (cols rows : Int) (world : List (List Char))
    (cur : RobotState) (r c : Int) (stack : List RobotState)
    (explored : Finset Key) (gen : Nat) (k : Key) :
    keyCount k (stackKeys (dfsPushSuccessors cols rows world cur r c stack explored gen).1)
        + (if k ∈ explored then 1 else 0)
      ≤ keyCount k (stackKeys stack)
        + (if k ∈ (dfsPushSuccessors cols rows world cur r c stack explored gen).2.1
            then 1 else 0) := by
  unfold dfsPushSuccessors
  generalize genSuccessors cols rows world cur r c = l
  induction l generalizing stack explored gen with
  | nil => simp
  | cons a l ih =>
    simp only [List.foldl_cons]
    by_cases hnew : a.key ∈ explored
    · simp only [dfsPushIfNew_neg (stack, explored, gen) a hnew]
      exact ih stack explored gen
    · simp only [dfsPushIfNew_pos (stack, explored, gen) a hnew]
      have hstep := ih (stack ++ [a]) (insert a.key explored) (gen + 1)
      have hpush : keyCount k (stackKeys (stack ++ [a]))
          = keyCount k (stackKeys stack) + (if a.key = k then 1 else 0) := by
        simp only [stackKeys, List.map_append, List.map_cons, List.map_nil]
        rw [keyCount_append]
        rw [show keyCount k [a.key] = if a.key = k then 1 else 0 from by
          rw [show ([a.key] : List Key) = a.key :: [] from rfl, keyCount_cons,
            keyCount_nil]
          omega]
      rw [hpush] at hstep
      by_cases hk : k = a.key
      · have h1 : (if k ∈ insert a.key explored then 1 else 0) = 1 := by
          simp [hk]
        have h2 : (if k ∈ explored then 1 else 0) = 0 := by simp [hk, hnew]
        have h3 : (if a.key = k then 1 else 0) = 1 := by simp [hk]
        rw [h1, h3] at hstep
        rw [h2]
        omega
      · have h1 : (if k ∈ insert a.key explored then 1 else 0)
            = (if k ∈ explored then 1 else 0) := by
          simp [Finset.mem_insert, hk]
        have h2 : (if a.key = k then 1 else 0) = 0 := by
          simp [Ne.symm hk]
        rw [h1, h2] at hstep
        omega

/-- Master counting invariant for the `ucs` loop: the number of times a
key is popped, plus its multiplicity in the frontier, never exceeds one
— except for the seed key, where the bound is two. -/
theorem ucsGo_trace_count (cols rows : Int) (world : List (List Char))
    (seedKey : Key) :
    ∀ (fuel : Nat) (pq : List (Nat × RobotState)) (explored : Finset Key)
      (gen exp : Nat) (trace : List Key),
      (∀ k, keyCount k trace + keyCount k (pqKeys pq)
          ≤ (if k = seedKey then 1 else 0) + (if k ∈ explored then 1 else 0)) →
      ∀ k, keyCount k ((ucsGo cols rows world fuel pq explored gen exp trace).2)
          ≤ (if k = seedKey then 1 else 0) + 1 := by
  intro fuel
  induction fuel with
  | zero =>
    intro pq ex gen exp tr hinv k
    show keyCount k tr ≤ _
    have := hinv k
    split_ifs at this ⊢ <;> omega
  | succ fuel ih =>
    intro pq ex gen exp tr hinv k
    cases hpop : heappop entryKey pq with
    | none =>
      have hstep : ucsGo cols rows world (fuel + 1) pq ex gen exp tr
          = (SearchResult.exhausted gen exp, tr) := by
        simp [ucsGo, hpop]
      rw [hstep]
      show keyCount k tr ≤ _
      have := hinv k
      split_ifs at this ⊢ <;> omega
    | some pr =>
      obtain ⟨e0, pq'⟩ := pr
      rw [ucsGo_succ_pop cols rows world fuel ex gen exp tr hpop]
      have hkeys : ∀ k', keyCount k' (pqKeys pq)
          = (if e0.2.key = k' then 1 else 0) + keyCount k' (pqKeys pq') := by
        intro k'
        have hp := (heappop_perm entryKey hpop).map (fun e => e.2.key)
        rw [show pqKeys pq = pq.map (fun e => e.2.key) from rfl,
          keyCount_perm k' hp]
        simp only [List.map_cons]
        rw [keyCount_cons]
        have : keyCount k' (pq'.map (fun e => e.2.key))
            = keyCount k' (pqKeys pq') := rfl
        omega
      have htrace : ∀ k', keyCount k' (tr ++ [e0.2.key])
          = keyCount k' tr + (if e0.2.key = k' then 1 else 0) := by
        intro k'
        rw [keyCount_append,
          show ([e0.2.key] : List Key) = e0.2.key :: [] from rfl,
          keyCount_cons, keyCount_nil]
        omega
      set cur : RobotState :=
        if e0.2.position ∈ e0.2.dirty_cells then
          ⟨e0.2.position, e0.2.dirty_cells.erase e0.2.position,
            e0.2.path ++ [Action.V]⟩
        else e0.2 with hcurdef
      unfold ucsProcess
      by_cases hgoal : cur.dirty_cells = ∅
      · rw [if_pos hgoal]
        show keyCount k (tr ++ [e0.2.key]) ≤ _
        rw [htrace k]
        have h1 := hinv k
        have h2 := hkeys k
        split_ifs at h1 h2 ⊢ <;> omega
      · rw [if_neg hgoal]
        refine ih _ _ _ _ _ ?_ k
        intro k'
        have h1 := hinv k'
        have h2 := hkeys k'
        have h3 := ucsPushSuccessors_keyCount cols rows world cur
          cur.position.1 cur.position.2 pq' ex gen k'
        rw [htrace k']
        split_ifs at h1 h2 h3 ⊢ <;> omega

/-- Master counting invariant for the `dfs` loop. -/
theorem dfsGo_trace_count (cols rows : Int) (world : List (List Char))
    (seedKey : Key) :
    ∀ (fuel : Nat) (stack : List RobotState) (explored : Finset Key)
      (gen exp : Nat) (trace : List Key),
      (∀ k, keyCount k trace + keyCount k (stackKeys stack)
          ≤ (if k = seedKey then 1 else 0) + (if k ∈ explored then 1 else 0)) →
      ∀ k, keyCount k ((dfsGo cols rows world fuel stack explored gen exp trace).2)
          ≤ (if k = seedKey then 1 else 0) + 1 := by
  intro fuel
  induction fuel with
  | zero =>
    intro stack ex gen exp tr hinv k
    show keyCount k tr ≤ _
    have := hinv k
    split_ifs at this ⊢ <;> omega
  | succ fuel ih =>
    intro stack ex gen exp tr hinv k
    cases hpop : stackPop stack with
    | none =>
      have hstep : dfsGo cols rows world (fuel + 1) stack ex gen exp tr
          = (SearchResult.exhausted gen exp, tr) := by
        simp [dfsGo, hpop]
      rw [hstep]
      show keyCount k tr ≤ _
      have := hinv k
      split_ifs at this ⊢ <;> omega
    | some pr =>
      obtain ⟨e0, stack'⟩ := pr
      rw [dfsGo_succ_pop cols rows world fuel ex gen exp tr hpop]
      have hkeys : ∀ k', keyCount k' (stackKeys stack)
          = (if e0.key = k' then 1 else 0) + keyCount k' (stackKeys stack') := by
        intro k'
        have hp := (stackPop_perm hpop).map (fun s => s.key)
        rw [show stackKeys stack = stack.map (fun s => s.key) from rfl,
          keyCount_perm k' hp]
        simp only [List.map_cons]
        rw [keyCount_cons]
        have : keyCount k' (stack'.map (fun s => s.key))
            = keyCount k' (stackKeys stack') := rfl
        omega
      have htrace : ∀ k', keyCount k' (tr ++ [e0.key])
          = keyCount k' tr + (if e0.key = k' then 1 else 0) := by
        intro k'
        rw [keyCount_append,
          show ([e0.key] : List Key) = e0.key :: [] from rfl,
          keyCount_cons, keyCount_nil]
        omega
      set cur : RobotState :=
        if e0.position ∈ e0.dirty_cells then
          ⟨e0.position, e0.dirty_cells.erase e0.position, e0.path ++ [Action.V]⟩
        else e0 with hcurdef
      unfold dfsProcess
      by_cases hgoal : cur.dirty_cells = ∅
      · rw [if_pos hgoal]
        show keyCount k (tr ++ [e0.key]) ≤ _
        rw [htrace k]
        have h1 := hinv k
        have h2 := hkeys k
        split_ifs at h1 h2 ⊢ <;> omega
      · rw [if_neg hgoal]
        refine ih _ _ _ _ _ ?_ k
        intro k'
        have h1 := hinv k'
        have h2 := hkeys k'
        have h3 := dfsPushSuccessors_keyCount cols rows world cur
          cur.position.1 cur.position.2 stack' ex gen k'
        rw [htrace k']
        split_ifs at h1 h2 h3 ⊢ <;> omega

/-- C2, amended.  Every key pushed as a generated successor is recorded
in the explored set at the moment it is pushed, and keys already in the
explored set are never pushed again; but the initial state's key is
pushed without being recorded, so it can be re-generated once.  Hence,
in either strategy, a key other than the initial `(position, dirty)` key
is expanded (popped) at most once, and the initial key at most twice. -/
theorem claim_C2 :
    (∀ (cols rows : Int) (world : List (List Char)) (p0 : Pos) (d0 : Dirty)
        (fuel : Nat) (k : Key),
      keyCount k ((ucs cols rows world ⟨p0, d0, []⟩ fuel).2)
        ≤ (if k = (p0, d0) then 1 else 0) + 1) ∧
    (∀ (cols rows : Int) (world : List (List Char)) (p0 : Pos) (d0 : Dirty)
        (fuel : Nat) (k : Key),
      keyCount k ((dfs cols rows world ⟨p0, d0, []⟩ fuel).2)
        ≤ (if k = (p0, d0) then 1 else 0) + 1) ∧
    (∀ (acc : List (Nat × RobotState) × Finset Key × Nat) (ns : RobotState),
      ns.key ∉ acc.2.1 →
      (ucsPushIfNew acc ns).2.1 = insert ns.key acc.2.1 ∧
      (ucsPushIfNew acc ns).2.2 = acc.2.2 + 1 ∧
      (ucsPushIfNew acc ns).1.Perm ((ns.path.length, ns) :: acc.1)) ∧
    (∀ (acc : List RobotState × Finset Key × Nat) (ns : RobotState),
      ns.key ∈ acc.2.1 → dfsPushIfNew acc ns = acc) := by
  refine ⟨?_, ?_, ?_, ?_⟩
  · intro cols rows world p0 d0 fuel k
    unfold ucs
    refine ucsGo_trace_count cols rows world (p0, d0) fuel _ _ _ _ _ ?_ k
    intro k'
    show keyCount k' [] + keyCount k' (((p0, d0) : Key) :: []) ≤ _
    rw [keyCount_nil, keyCount_cons, keyCount_nil]
    by_cases hk : k' = ((p0, d0) : Key)
    · rw [if_pos hk.symm, if_pos hk]
      omega
    · rw [if_neg (fun h => hk h.symm), if_neg hk]
      omega
  · intro cols rows world p0 d0 fuel k
    unfold dfs
    refine dfsGo_trace_count cols rows world (p0, d0) fuel _ _ _ _ _ ?_ k
    intro k'
    show keyCount k' [] + keyCount k' (((p0, d0) : Key) :: []) ≤ _
    rw [keyCount_nil, keyCount_cons, keyCount_nil]
    by_cases hk : k' = ((p0, d0) : Key)
    · rw [if_pos hk.symm, if_pos hk]
      omega
    · rw [if_neg (fun h => hk h.symm), if_neg hk]
      omega
  · intro acc ns h
    rw [ucsPushIfNew_pos acc ns h]
    exact ⟨rfl, rfl, heappush_perm entryKey acc.1 (ns.path.length, ns)⟩
  · intro acc ns h
    exact dfsPushIfNew_neg acc ns h

/-- Witness for the amended C2 on the duplicate-expansion world
`"*_@"`. -/
theorem claim_C2_witness :
    keyCount ((0, 2), {(0, 0)})
        ((ucs 3 1 [['*', '_', '_']] ⟨(0, 2), {(0, 0)}, []⟩ 100).2)
      ≤ (if (((0, 2), {(0, 0)}) : Key) = (((0, 2), {(0, 0)}) : Key) then 1 else 0)
          + 1 ∧
    ((ucsPushIfNew ([], ∅, 0) ⟨(0, 0), ∅, []⟩).2.1
        = insert (RobotState.key ⟨(0, 0), ∅, []⟩) (∅ : Finset Key) ∧
      (ucsPushIfNew ([], ∅, 0) ⟨(0, 0), ∅, []⟩).2.2 = 0 + 1 ∧
      (ucsPushIfNew ([], ∅, 0) ⟨(0, 0), ∅, []⟩).1.Perm
        [((List.length ([] : List Action)), ⟨(0, 0), ∅, []⟩)]) :=
  ⟨claim_C2.1 3 1 [['*', '_', '_']] (0, 2) {(0, 0)} 100 ((0, 2), {(0, 0)}),
   claim_C2.2.2.1 ([], ∅, 0) ⟨(0, 0), ∅, []⟩ (by decide)⟩

/-! ## Termination (C7)

Every key ever inserted into the explored set has an in-bounds position
and a dirty set included in the initial one, so the explored set lives
inside a finite key space of `rows·cols·2^|d0|` keys.  Each loop
iteration pops one frontier entry and pushes only entries whose keys
strictly enlarge the explored set, so the measure
`2·(capacity − |explored|) + |frontier|` strictly decreases. -/

/-- The finite space of keys a generated successor can have: in-bounds
positions paired with subsets of the initial dirty set. -/
def keySpace (cols rows : Int) (d0 : Dirty) : Finset Key :=
  (Finset.Ico (0 : Int) rows ×ˢ Finset.Ico (0 : Int) cols) ×ˢ d0.powerset

/-- The key space has exactly (grid cells) × 2^(initial dirty count)
elements. -/
theorem keySpace_card (cols rows : Int) (d0 : Dirty) :
    (keySpace cols rows d0).card = rows.toNat * cols.toNat * 2 ^ d0.card := by
  simp [keySpace, Finset.card_product, Int.card_Ico]

/-- Cardinality bookkeeping for the `ucs` successor fold: the frontier
grows exactly as much as the explored set, the explored set only grows,
and it only gains keys from the given key space. -/
theorem ucsFold_card (ksp : Finset Key) :
    ∀ (l : List RobotState) (pq : List (Nat × RobotState)) (ex : Finset Key)
      (gen : Nat), (∀ ns ∈ l, ns.key ∈ ksp) →
      ((l.foldl ucsPushIfNew (pq, ex, gen)).1.length + ex.card
        = pq.length + (l.foldl ucsPushIfNew (pq, ex, gen)).2.1.card) ∧
      ex ⊆ (l.foldl ucsPushIfNew (pq, ex, gen)).2.1 ∧
      (l.foldl ucsPushIfNew (pq, ex, gen)).2.1 ⊆ ex ∪ ksp := by
  intro l
  induction l with
  | nil => intro pq ex gen _; exact ⟨rfl, Finset.Subset.refl ex, Finset.subset_union_left⟩
  | cons a l ih =>
    intro pq ex gen hl
    simp only [List.foldl_cons]
    by_cases hnew : a.key ∈ ex
    · simp only [ucsPushIfNew_neg (pq, ex, gen) a hnew]
      exact ih pq ex gen (fun ns hns => hl ns (List.mem_cons_of_mem a hns))
    · simp only [ucsPushIfNew_pos (pq, ex, gen) a hnew]
      obtain ⟨h1, h2, h3⟩ := ih (heappush entryKey pq (a.path.length, a))
        (insert a.key ex) (gen + 1)
        (fun ns hns => hl ns (List.mem_cons_of_mem a hns))
      have hlen : (heappush entryKey pq (a.path.length, a)).length
          = pq.length + 1 := by
        simpa using (heappush_perm entryKey pq (a.path.length, a)).length_eq
      have hcard : (insert a.key ex).card = ex.card + 1 :=
        Finset.card_insert_of_not_mem hnew
      refine ⟨by omega, ?_, ?_⟩
      · exact Finset.Subset.trans (Finset.subset_insert a.key ex) h2
      · refine Finset.Subset.trans h3 ?_
        intro k hk
        rcases Finset.mem_union.1 hk with hk | hk
        · rcases Finset.mem_insert.1 hk with rfl | hk
          · exact Finset.mem_union_right ex (hl a (List.mem_cons_self a l))
          · exact Finset.mem_union_left ksp hk
        · exact Finset.mem_union_right ex hk

/-- Cardinality bookkeeping for the `dfs` successor fold. -/
theorem dfsFold_card (ksp : Finset Key) :
    ∀ (l : List RobotState) (stack : List RobotState) (ex : Finset Key)
      (gen : Nat), (∀ ns ∈ l, ns.key ∈ ksp) →
      ((l.foldl dfsPushIfNew (stack, ex, gen)).1.length + ex.card
        = stack.length + (l.foldl dfsPushIfNew (stack, ex, gen)).2.1.card) ∧
      ex ⊆ (l.foldl dfsPushIfNew (stack, ex, gen)).2.1 ∧
      (l.foldl dfsPushIfNew (stack, ex, gen)).2.1 ⊆ ex ∪ ksp := by
  intro l
  induction l with
  | nil => intro stack ex gen _; exact ⟨rfl, Finset.Subset.refl ex, Finset.subset_union_left⟩
  | cons a l ih =>
    intro stack ex gen hl
    simp only [List.foldl_cons]
    by_cases hnew : a.key ∈ ex
    · simp only [dfsPushIfNew_neg (stack, ex, gen) a hnew]
      exact ih stack ex gen (fun ns hns => hl ns (List.mem_cons_of_mem a hns))
    · simp only [dfsPushIfNew_pos (stack, ex, gen) a hnew]
      obtain ⟨h1, h2, h3⟩ := ih (stack ++ [a]) (insert a.key ex) (gen + 1)
        (fun ns hns => hl ns (List.mem_cons_of_mem a hns))
      have hlen : (stack ++ [a]).length = stack.length + 1 := by simp
      have hcard : (insert a.key ex).card = ex.card + 1 :=
        Finset.card_insert_of_not_mem hnew
      refine ⟨by omega, ?_, ?_⟩
      · exact Finset.Subset.trans (Finset.subset_insert a.key ex) h2
      · refine Finset.Subset.trans h3 ?_
        intro k hk
        rcases Finset.mem_union.1 hk with hk | hk
        · rcases Finset.mem_insert.1 hk with rfl | hk
          · exact Finset.mem_union_right ex (hl a (List.mem_cons_self a l))
          · exact Finset.mem_union_left ksp hk
        · exact Finset.mem_union_right ex hk

/-- Generated successors have keys in the key space, provided the
expanded node's dirty set is contained in the initial one. -/
theorem genSuccessors_key_mem (cols rows : Int) (world : List (List Char))
    (d0 : Dirty) (cur : RobotState) (r c : Int)
    (hd : cur.dirty_cells ⊆ d0) :
    ∀ ns ∈ genSuccessors cols rows world cur r c,
      ns.key ∈ keySpace cols rows d0 := by
  intro ns hns
  rw [mem_genSuccessors_iff] at hns
  obtain ⟨a, dr, dc, _hmem, h1, h2, h3, h4, _h5, rfl⟩ := hns
  unfold keySpace RobotState.key
  refine Finset.mem_product.2 ⟨Finset.mem_product.2 ⟨?_, ?_⟩, ?_⟩
  · exact Finset.mem_Ico.2 ⟨h1, h2⟩
  · exact Finset.mem_Ico.2 ⟨h3, h4⟩
  · exact Finset.mem_powerset.2 hd

/-- The `ucs` loop cannot run out of fuel once the fuel dominates the
decreasing measure `2·(capacity − |explored|) + |frontier|`. -/
theorem ucsGo_no_fuel_out (cols rows : Int) (world : List (List Char))
    (d0 : Dirty) :
    ∀ (fuel : Nat) (pq : List (Nat × RobotState)) (explored : Finset Key)
      (gen exp : Nat) (trace : List Key),
      (∀ e ∈ pq, e.2.dirty_cells ⊆ d0) →
      explored ⊆ keySpace cols rows d0 →
      2 * ((keySpace cols rows d0).card - explored.card) + pq.length < fuel →
      (ucsGo cols rows world fuel pq explored gen exp trace).1
        ≠ SearchResult.outOfFuel := by
  intro fuel
  induction fuel with
  | zero => intro pq ex gen exp tr _ _ hm; omega
  | succ fuel ih =>
    intro pq ex gen exp tr hdirty hexsub hm
    cases hpop : heappop entryKey pq with
    | none =>
      have hstep : ucsGo cols rows world (fuel + 1) pq ex gen exp tr
          = (SearchResult.exhausted gen exp, tr) := by
        simp [ucsGo, hpop]
      rw [hstep]
      simp
    | some pr =>
      obtain ⟨e0, pq'⟩ := pr
      rw [ucsGo_succ_pop cols rows world fuel ex gen exp tr hpop]
      set cur : RobotState :=
        if e0.2.position ∈ e0.2.dirty_cells then
          ⟨e0.2.position, e0.2.dirty_cells.erase e0.2.position,
            e0.2.path ++ [Action.V]⟩
        else e0.2 with hcurdef
      have hcurd : cur.dirty_cells ⊆ d0 := by
        have he0 : e0.2.dirty_cells ⊆ d0 := hdirty e0 (heappop_mem hpop)
        rw [hcurdef]
        split_ifs
        · exact Finset.Subset.trans (Finset.erase_subset _ _) he0
        · exact he0
      unfold ucsProcess
      by_cases hgoal : cur.dirty_cells = ∅
      · rw [if_pos hgoal]
        simp
      · rw [if_neg hgoal]
        have hkeymem := genSuccessors_key_mem cols rows world d0 cur
          cur.position.1 cur.position.2 hcurd
        obtain ⟨hlen, hsub, hspace⟩ := ucsFold_card (keySpace cols rows d0)
          (genSuccessors cols rows world cur cur.position.1 cur.position.2)
          pq' ex gen hkeymem
        have hplen : pq.length = pq'.length + 1 := heappop_length hpop
        have hfold : ucsPushSuccessors cols rows world cur cur.position.1
              cur.position.2 pq' ex gen
            = (genSuccessors cols rows world cur cur.position.1
                cur.position.2).foldl ucsPushIfNew (pq', ex, gen) := rfl
        have hexsub' :
            ((genSuccessors cols rows world cur cur.position.1
              cur.position.2).foldl ucsPushIfNew (pq', ex, gen)).2.1
              ⊆ keySpace cols rows d0 := by
          refine Finset.Subset.trans hspace ?_
          exact Finset.union_subset hexsub (Finset.Subset.refl _)
        rw [hfold]
        refine ih _ _ _ _ _ ?_ hexsub' ?_
        · intro e he
          rcases ucsFold_mem _ _ e he with h | ⟨ns, hns, rfl⟩
          · exact hdirty e ((heappop_perm entryKey hpop).mem_iff.2
              (List.mem_cons_of_mem _ h))
          · rw [mem_genSuccessors_iff] at hns
            obtain ⟨a, dr, dc, _, _, _, _, _, _, rfl⟩ := hns
            exact hcurd
        · have hc1 : ex.card
              ≤ ((genSuccessors cols rows world cur cur.position.1
                cur.position.2).foldl ucsPushIfNew (pq', ex, gen)).2.1.card :=
            Finset.card_le_card hsub
          have hc2 : ((genSuccessors cols rows world cur cur.position.1
              cur.position.2).foldl ucsPushIfNew (pq', ex, gen)).2.1.card
                ≤ (keySpace cols rows d0).card :=
            Finset.card_le_card hexsub'
          have hc3 : ex.card ≤ (keySpace cols rows d0).card :=
            Finset.card_le_card hexsub
          omega

/-- The `dfs` loop cannot run out of fuel once the fuel dominates the
decreasing measure. -/
theorem dfsGo_no_fuel_out (cols rows : Int) (world : List (List Char))
    (d0 : Dirty) :
    ∀ (fuel : Nat) (stack : List RobotState) (explored : Finset Key)
      (gen exp : Nat) (trace : List Key),
      (∀ s ∈ stack, s.dirty_cells ⊆ d0) →
      explored ⊆ keySpace cols rows d0 →
      2 * ((keySpace cols rows d0).card - explored.card) + stack.length < fuel →
      (dfsGo cols rows world fuel stack explored gen exp trace).1
        ≠ SearchResult.outOfFuel := by
  intro fuel
  induction fuel with
  | zero => intro stack ex gen exp tr _ _ hm; omega
  | succ fuel ih =>
    intro stack ex gen exp tr hdirty hexsub hm
    cases hpop : stackPop stack with
    | none =>
      have hstep : dfsGo cols rows world (fuel + 1) stack ex gen exp tr
          = (SearchResult.exhausted gen exp, tr) := by
        simp [dfsGo, hpop]
      rw [hstep]
      simp
    | some pr =>
      obtain ⟨e0, stack'⟩ := pr
      rw [dfsGo_succ_pop cols rows world fuel ex gen exp tr hpop]
      set cur : RobotState :=
        if e0.position ∈ e0.dirty_cells then
          ⟨e0.position, e0.dirty_cells.erase e0.position, e0.path ++ [Action.V]⟩
        else e0 with hcurdef
      have hcurd : cur.dirty_cells ⊆ d0 := by
        have he0 : e0.dirty_cells ⊆ d0 := hdirty e0 (stackPop_mem hpop)
        rw [hcurdef]
        split_ifs
        · exact Finset.Subset.trans (Finset.erase_subset _ _) he0
        · exact he0
      unfold dfsProcess
      by_cases hgoal : cur.dirty_cells = ∅
      · rw [if_pos hgoal]
        simp
      · rw [if_neg hgoal]
        have hkeymem := genSuccessors_key_mem cols rows world d0 cur
          cur.position.1 cur.position.2 hcurd
        obtain ⟨hlen, hsub, hspace⟩ := dfsFold_card (keySpace cols rows d0)
          (genSuccessors cols rows world cur cur.position.1 cur.position.2)
          stack' ex gen hkeymem
        have hslen : stack.length = stack'.length + 1 := by
          simpa using (stackPop_perm hpop).length_eq
        have hfold : dfsPushSuccessors cols rows world cur cur.position.1
              cur.position.2 stack' ex gen
            = (genSuccessors cols rows world cur cur.position.1
                cur.position.2).foldl dfsPushIfNew (stack', ex, gen) := rfl
        have hexsub' :
            ((genSuccessors cols rows world cur cur.position.1
              cur.position.2).foldl dfsPushIfNew (stack', ex, gen)).2.1
              ⊆ keySpace cols rows d0 := by
          refine Finset.Subset.trans hspace ?_
          exact Finset.union_subset hexsub (Finset.Subset.refl _)
        rw [hfold]
        refine ih _ _ _ _ _ ?_ hexsub' ?_
        · intro s hs
          rcases dfsFold_mem _ _ s hs with h | h
          · exact hdirty s ((stackPop_perm hpop).mem_iff.2
              (List.mem_cons_of_mem _ h))
          · rw [mem_genSuccessors_iff] at h
            obtain ⟨a, dr, dc, _, _, _, _, _, _, rfl⟩ := h
            exact hcurd
        · have hc1 : ex.card
              ≤ ((genSuccessors cols rows world cur cur.position.1
                cur.position.2).foldl dfsPushIfNew (stack', ex, gen)).2.1.card :=
            Finset.card_le_card hsub
          have hc2 : ((genSuccessors cols rows world cur cur.position.1
              cur.position.2).foldl dfsPushIfNew (stack', ex, gen)).2.1.card
                ≤ (keySpace cols rows d0).card :=
            Finset.card_le_card hexsub'
          have hc3 : ex.card ≤ (keySpace cols rows d0).card :=
            Finset.card_le_card hexsub
          omega

/-- With fuel beyond twice the key-space capacity plus two, `ucs`
cannot run out of fuel. -/
theorem ucs_terminates (cols rows : Int) (world : List (List Char))
    (p0 : Pos) (d0 : Dirty) (fuel : Nat)
    (hfuel : 2 * (rows.toNat * cols.toNat * 2 ^ d0.card) + 2 ≤ fuel) :
    (ucs cols rows world ⟨p0, d0, []⟩ fuel).1 ≠ SearchResult.outOfFuel := by
  have hcap := keySpace_card cols rows d0
  unfold ucs
  refine ucsGo_no_fuel_out cols rows world d0 fuel _ _ _ _ _ ?_ ?_ ?_
  · intro e he
    rcases List.mem_cons.1
        ((heappush_perm entryKey [] (0, ⟨p0, d0, []⟩)).mem_iff.1 he) with
      rfl | h'
    · exact Finset.Subset.refl d0
    · simp at h'
  · exact Finset.empty_subset _
  · have hlen : (heappush entryKey []
        ((0 : Nat), (⟨p0, d0, []⟩ : RobotState))).length = 1 := rfl
    rw [hlen, hcap]
    simp only [Finset.card_empty]
    omega

/-- With fuel beyond twice the key-space capacity plus two, `dfs`
cannot run out of fuel. -/
theorem dfs_terminates (cols rows : Int) (world : List (List Char))
    (p0 : Pos) (d0 : Dirty) (fuel : Nat)
    (hfuel : 2 * (rows.toNat * cols.toNat * 2 ^ d0.card) + 2 ≤ fuel) :
    (dfs cols rows world ⟨p0, d0, []⟩ fuel).1 ≠ SearchResult.outOfFuel := by
  have hcap := keySpace_card cols rows d0
  unfold dfs
  refine dfsGo_no_fuel_out cols rows world d0 fuel _ _ _ _ _ ?_ ?_ ?_
  · intro s hs
    rcases List.mem_singleton.1 hs with rfl
    exact Finset.Subset.refl d0
  · exact Finset.empty_subset _
  · rw [hcap]
    simp only [Finset.card_empty, List.length_singleton]
    omega

/-- C7.  Both strategies terminate on every world: with fuel beyond
`2·(rows·cols·2^(initial dirty count)) + 2` — twice the finite key-space
capacity plus the seed — neither loop can still be running, because each
key enters the frontier at most a bounded number of times. -/
theorem claim_C7 (cols rows : Int) (world : List (List Char)) (p0 : Pos)
    (d0 : Dirty) (fuel : Nat)
    (hfuel : 2 * (rows.toNat * cols.toNat * 2 ^ d0.card) + 2 ≤ fuel) :
    (ucs cols rows world ⟨p0, d0, []⟩ fuel).1 ≠ SearchResult.outOfFuel ∧
    (dfs cols rows world ⟨p0, d0, []⟩ fuel).1 ≠ SearchResult.outOfFuel :=
  ⟨ucs_terminates cols rows world p0 d0 fuel hfuel,
   dfs_terminates cols rows world p0 d0 fuel hfuel⟩

/-- Witness for C7 on the world `"_*@"` with the exact fuel bound 14. -/
theorem claim_C7_witness :
    (ucs 3 1 [['_', '*', '_']] ⟨(0, 2), {(0, 1)}, []⟩ 14).1
        ≠ SearchResult.outOfFuel ∧
    (dfs 3 1 [['_', '*', '_']] ⟨(0, 2), {(0, 1)}, []⟩ 14).1
        ≠ SearchResult.outOfFuel :=
  claim_C7 3 1 [['_', '*', '_']] (0, 2) {(0, 1)} 14 (by decide)

/-! ## The key graph and completeness (C8)

A search key `(position, dirty)` determines the engine's behaviour: the
vacuum transition erases the position from the dirty set, the goal test
checks the result for emptiness, and successors carry the vacuumed dirty
set to the in-bounds, passable neighbours.  If the engine exhausts its
frontier, the set of popped keys is closed under this successor relation
and contains no goal, so no key popped — in particular the seed — can
reach a goal; conversely a valid cleaning replay witnesses that the seed
reaches a goal. -/

/-- The vacuum transition on keys. -/
def vacKey (k : Key) : Key := (k.1, k.2.erase k.1)

/-- Key-level successors: the four direction targets that are in bounds
and passable, carrying the key's dirty set. -/
def keySuccs (cols rows : Int) (world : List (List Char)) (k : Key) :
    List Key :=
  dirList.filterMap (fun ad =>
    let nr := k.1.1 + ad.2.1
    let nc := k.1.2 + ad.2.2
    if 0 ≤ nr ∧ nr < rows ∧ 0 ≤ nc ∧ nc < cols ∧ cellAt world nr nc ≠ '#' then
      some ((nr, nc), k.2)
    else none)

/-- Membership characterization of `keySuccs`. -/
theorem mem_keySuccs_iff (cols rows : Int) (world : List (List Char))
    (k0 k' : Key) :
    k' ∈ keySuccs cols rows world k0 ↔
      ∃ a dr dc, ((a, (dr, dc)) : Action × (Int × Int)) ∈ dirList ∧
        0 ≤ k0.1.1 + dr ∧ k0.1.1 + dr < rows ∧
        0 ≤ k0.1.2 + dc ∧ k0.1.2 + dc < cols ∧
        cellAt world (k0.1.1 + dr) (k0.1.2 + dc) ≠ '#' ∧
        k' = ((k0.1.1 + dr, k0.1.2 + dc), k0.2) := by
  simp only [keySuccs, List.mem_filterMap]
  constructor
  · rintro ⟨⟨a, dr, dc⟩, hmem, htry⟩
    simp only at htry
    split_ifs at htry with hcond
    · simp only [Option.some.injEq] at htry
      exact ⟨a, dr, dc, hmem, hcond.1, hcond.2.1, hcond.2.2.1, hcond.2.2.2.1,
        hcond.2.2.2.2, htry.symm⟩
  · rintro ⟨a, dr, dc, hmem, h1, h2, h3, h4, h5, hk⟩
    refine ⟨(a, dr, dc), hmem, ?_⟩
    simp only
    rw [if_pos ⟨h1, h2, h3, h4, h5⟩, hk]

/-- The keys of the generated successors are exactly the key-level
successors of the expanded key. -/
theorem genSuccessors_map_key (cols rows : Int) (world : List (List Char))
    (cur : RobotState) (r c : Int) :
    (genSuccessors cols rows world cur r c).map RobotState.key
      = keySuccs cols rows world ((r, c), cur.dirty_cells) := by
  unfold genSuccessors keySuccs
  rw [List.map_filterMap]
  congr 1
  funext ad
  unfold tryDir
  simp only
  split_ifs with h
  · simp [RobotState.key]
  · simp

/-- A key reaches the goal in the engine's key graph: either its vacuum
transition already empties the dirty set, or some key-level successor of
the vacuumed key reaches the goal. -/
inductive ReachesGoal (cols rows : Int) (world : List (List Char)) :
    Key → Prop
  | goal (k : Key) : k.2.erase k.1 = ∅ → ReachesGoal cols rows world k
  | step (k k' : Key) : k' ∈ keySuccs cols rows world (vacKey k) →
      ReachesGoal cols rows world k' → ReachesGoal cols rows world k

/-- Shrinking the dirty set preserves reachability of the goal. -/
theorem reachesGoal_mono (cols rows : Int) (world : List (List Char)) :
    ∀ {k : Key}, ReachesGoal cols rows world k →
      ∀ e : Dirty, e ⊆ k.2 → ReachesGoal cols rows world (k.1, e) := by
  intro k h
  induction h with
  | goal k hk =>
    intro e he
    refine ReachesGoal.goal _ ?_
    have : e.erase k.1 ⊆ k.2.erase k.1 := Finset.erase_subset_erase _ he
    rw [hk] at this
    exact Finset.subset_empty.1 this
  | step k k' hsucc _hreach ih =>
    intro e he
    by_cases hemp : e.erase k.1 = ∅
    · exact ReachesGoal.goal _ hemp
    · rw [mem_keySuccs_iff] at hsucc
      obtain ⟨a, dr, dc, hmem, h1, h2, h3, h4, h5, hk'⟩ := hsucc
      have herase : e.erase k.1 ⊆ k'.2 := by
        rw [hk']
        exact Finset.erase_subset_erase _ he
      refine ReachesGoal.step _ (k'.1, e.erase k.1) ?_ (ih _ herase)
      rw [mem_keySuccs_iff]
      refine ⟨a, dr, dc, hmem, ?_, ?_, ?_, ?_, ?_, ?_⟩ <;>
        simp only [vacKey] at h1 h2 h3 h4 h5 hk' ⊢ <;>
        first
          | exact h1 | exact h2 | exact h3 | exact h4 | exact h5
          | (rw [hk'])

/-- A no-op vacuum can be absorbed: if the key with the position already
erased reaches the goal, so does the original key. -/
theorem reachesGoal_vac (cols rows : Int) (world : List (List Char))
    (p : Pos) (d : Dirty)
    (h : ReachesGoal cols rows world (p, d.erase p)) :
    ReachesGoal cols rows world (p, d) := by
  cases h with
  | goal _ hk =>
    refine ReachesGoal.goal _ ?_
    simpa [Finset.erase_idem] using hk
  | step _ k' hsucc hreach =>
    refine ReachesGoal.step _ k' ?_ hreach
    have : vacKey (p, d.erase p) = vacKey (p, d) := by
      simp [vacKey, Finset.erase_idem]
    rwa [this] at hsucc

/-- A valid replay that ends with no dirty cells witnesses that its
start key reaches the goal. -/
theorem replay_reachesGoal (cols rows : Int) (world : List (List Char)) :
    ∀ (σ : List Action) (p : Pos) (d : Dirty),
      ValidReplay cols rows world p d σ → (replay p d σ).2 = ∅ →
      ReachesGoal cols rows world (p, d) := by
  intro σ
  induction σ with
  | nil =>
    intro p d _ hend
    refine ReachesGoal.goal _ ?_
    simp only [replay] at hend
    rw [hend]
    exact Finset.erase_empty _
  | cons a σ ih =>
    intro p d hv hend
    obtain ⟨hstep, hv'⟩ := hv
    cases a with
    | V =>
      have h := ih p (d.erase p) hv' hend
      exact reachesGoal_vac cols rows world p d h
    | N =>
      have h := ih _ _ hv' hend
      by_cases hemp : d.erase p = ∅
      · exact ReachesGoal.goal _ hemp
      · refine ReachesGoal.step _ ((p.1 + -1, p.2 + 0), d.erase p) ?_ ?_
        · rw [mem_keySuccs_iff]
          exact ⟨Action.N, -1, 0, by simp [dirList], hstep.1, hstep.2.1,
            hstep.2.2.1, hstep.2.2.2.1, hstep.2.2.2.2, rfl⟩
        · exact reachesGoal_mono cols rows world h (d.erase p)
            (Finset.erase_subset _ _)
    | S =>
      have h := ih _ _ hv' hend
      by_cases hemp : d.erase p = ∅
      · exact ReachesGoal.goal _ hemp
      · refine ReachesGoal.step _ ((p.1 + 1, p.2 + 0), d.erase p) ?_ ?_
        · rw [mem_keySuccs_iff]
          exact ⟨Action.S, 1, 0, by simp [dirList], hstep.1, hstep.2.1,
            hstep.2.2.1, hstep.2.2.2.1, hstep.2.2.2.2, rfl⟩
        · exact reachesGoal_mono cols rows world h (d.erase p)
            (Finset.erase_subset _ _)
    | E =>
      have h := ih _ _ hv' hend
      by_cases hemp : d.erase p = ∅
      · exact ReachesGoal.goal _ hemp
      · refine ReachesGoal.step _ ((p.1 + 0, p.2 + 1), d.erase p) ?_ ?_
        · rw [mem_keySuccs_iff]
          exact ⟨Action.E, 0, 1, by simp [dirList], hstep.1, hstep.2.1,
            hstep.2.2.1, hstep.2.2.2.1, hstep.2.2.2.2, rfl⟩
        · exact reachesGoal_mono cols rows world h (d.erase p)
            (Finset.erase_subset _ _)
    | W =>
      have h := ih _ _ hv' hend
      by_cases hemp : d.erase p = ∅
      · exact ReachesGoal.goal _ hemp
      · refine ReachesGoal.step _ ((p.1 + 0, p.2 + -1), d.erase p) ?_ ?_
        · rw [mem_keySuccs_iff]
          exact ⟨Action.W, 0, -1, by simp [dirList], hstep.1, hstep.2.1,
            hstep.2.2.1, hstep.2.2.2.1, hstep.2.2.2.2, rfl⟩
        · exact reachesGoal_mono cols rows world h (d.erase p)
            (Finset.erase_subset _ _)

/-- Keys of a list closed under the key graph, with no goal key among
them, cannot reach the goal. -/
theorem closed_not_reachesGoal (cols rows : Int) (world : List (List Char))
    (T : List Key)
    (hclosed : ∀ k ∈ T, (vacKey k).2 ≠ ∅ ∧
      ∀ k' ∈ keySuccs cols rows world (vacKey k), k' ∈ T) :
    ∀ k, ReachesGoal cols rows world k → k ∈ T → False := by
  intro k h
  induction h with
  | goal k' hg =>
    intro hk
    exact (hclosed k' hk).1 hg
  | step k' k'' hs _hr ih =>
    intro hk
    exact ih ((hclosed k' hk).2 k'' hs)

/-- The explored set only grows along the `ucs` successor fold. -/
theorem ucsFold_ex_mono (l : List RobotState) :
    ∀ (acc : List (Nat × RobotState) × Finset Key × Nat),
      acc.2.1 ⊆ (l.foldl ucsPushIfNew acc).2.1 := by
  induction l with
  | nil => intro acc; exact Finset.Subset.refl _
  | cons a l ih =>
    intro acc
    refine Finset.Subset.trans ?_ (ih (ucsPushIfNew acc a))
    by_cases hnew : a.key ∈ acc.2.1
    · rw [ucsPushIfNew_neg acc a hnew]
    · rw [ucsPushIfNew_pos acc a hnew]
      exact Finset.subset_insert _ _

/-- After the `ucs` successor fold, every candidate's key is explored. -/
theorem ucsFold_gen_key_mem (l : List RobotState) :
    ∀ (acc : List (Nat × RobotState) × Finset Key × Nat) (ns : RobotState),
      ns ∈ l → ns.key ∈ (l.foldl ucsPushIfNew acc).2.1 := by
  induction l with
  | nil => intro acc ns h; simp at h
  | cons a l ih =>
    intro acc ns hns
    rcases List.mem_cons.1 hns with rfl | h
    · refine ucsFold_ex_mono l (ucsPushIfNew acc ns) ?_
      by_cases hnew : ns.key ∈ acc.2.1
      · rw [ucsPushIfNew_neg acc ns hnew]
        exact hnew
      · rw [ucsPushIfNew_pos acc ns hnew]
        exact Finset.mem_insert_self _ _
    · exact ih (ucsPushIfNew acc a) ns h

/-- Every key explored after the `ucs` successor fold was already
explored or belongs to a frontier entry. -/
theorem ucsFold_explored_mem (l : List RobotState) :
    ∀ (acc : List (Nat × RobotState) × Finset Key × Nat) (k : Key),
      k ∈ (l.foldl ucsPushIfNew acc).2.1 →
      k ∈ acc.2.1 ∨ ∃ e ∈ (l.foldl ucsPushIfNew acc).1, (e : Nat × RobotState).2.key = k := by
  induction l with
  | nil => intro acc k h; exact Or.inl h
  | cons a l ih =>
    intro acc k hk
    rcases ih (ucsPushIfNew acc a) k hk with h | h
    · by_cases hnew : a.key ∈ acc.2.1
      · rw [ucsPushIfNew_neg acc a hnew] at h
        exact Or.inl h
      · rw [ucsPushIfNew_pos acc a hnew] at h
        rcases Finset.mem_insert.1 h with rfl | h'
        · refine Or.inr ⟨(a.path.length, a), ?_, rfl⟩
          refine ucsFold_mem_mono l (ucsPushIfNew acc a) _ ?_
          rw [ucsPushIfNew_pos acc a hnew]
          exact (heappush_perm entryKey acc.1 (a.path.length, a)).mem_iff.2
            (List.mem_cons_self _ _)
        · exact Or.inl h'
    · exact Or.inr h

/-- The explored set only grows along the `dfs` successor fold. -/
theorem dfsFold_ex_mono (l : List RobotState) :
    ∀ (acc : List RobotState × Finset Key × Nat),
      acc.2.1 ⊆ (l.foldl dfsPushIfNew acc).2.1 := by
  induction l with
  | nil => intro acc; exact Finset.Subset.refl _
  | cons a l ih =>
    intro acc
    refine Finset.Subset.trans ?_ (ih (dfsPushIfNew acc a))
    by_cases hnew : a.key ∈ acc.2.1
    · rw [dfsPushIfNew_neg acc a hnew]
    · rw [dfsPushIfNew_pos acc a hnew]
      exact Finset.subset_insert _ _

/-- After the `dfs` successor fold, every candidate's key is explored. -/
theorem dfsFold_gen_key_mem (l : List RobotState) :
    ∀ (acc : List RobotState × Finset Key × Nat) (ns : RobotState),
      ns ∈ l → ns.key ∈ (l.foldl dfsPushIfNew acc).2.1 := by
  induction l with
  | nil => intro acc ns h; simp at h
  | cons a l ih =>
    intro acc ns hns
    rcases List.mem_cons.1 hns with rfl | h
    · refine dfsFold_ex_mono l (dfsPushIfNew acc ns) ?_
      by_cases hnew : ns.key ∈ acc.2.1
      · rw [dfsPushIfNew_neg acc ns hnew]
        exact hnew
      · rw [dfsPushIfNew_pos acc ns hnew]
        exact Finset.mem_insert_self _ _
    · exact ih (dfsPushIfNew acc a) ns h

/-- Every key explored after the `dfs` successor fold was already
explored or belongs to a frontier entry. -/
theorem dfsFold_explored_mem (l : List RobotState) :
    ∀ (acc : List RobotState × Finset Key × Nat) (k : Key),
      k ∈ (l.foldl dfsPushIfNew acc).2.1 →
      k ∈ acc.2.1 ∨ ∃ s ∈ (l.foldl dfsPushIfNew acc).1, RobotState.key s = k := by
  induction l with
  | nil => intro acc k h; exact Or.inl h
  | cons a l ih =>
    intro acc k hk
    rcases ih (dfsPushIfNew acc a) k hk with h | h
    · by_cases hnew : a.key ∈ acc.2.1
      · rw [dfsPushIfNew_neg acc a hnew] at h
        exact Or.inl h
      · rw [dfsPushIfNew_pos acc a hnew] at h
        rcases Finset.mem_insert.1 h with rfl | h'
        · refine Or.inr ⟨a, ?_, rfl⟩
          refine dfsFold_mem_mono l (dfsPushIfNew acc a) _ ?_
          rw [dfsPushIfNew_pos acc a hnew]
          exact List.mem_append.2 (Or.inr (List.mem_singleton_self a))
        · exact Or.inl h'
    · exact Or.inr h

/-- When the `dfs` loop exhausts its frontier, every key that was on
the frontier or explored ends up in the final popped-key trace `T`, and
`T` is closed: no key in `T` passes the (post-vacuum) goal test, and all
key-level successors of keys in `T` are again in `T`. -/
theorem dfsGo_exhausted_closed (cols rows : Int) (world : List (List Char)) :
    ∀ (fuel : Nat) (stack : List RobotState) (ex : Finset Key)
      (gen exp : Nat) (trace : List Key) (g x : Nat) (T : List Key),
      dfsGo cols rows world fuel stack ex gen exp trace
        = (SearchResult.exhausted g x, T) →
      (∀ k ∈ ex, (∃ s ∈ stack, RobotState.key s = k) ∨ k ∈ trace) →
      (∀ k ∈ trace, (vacKey k).2 ≠ ∅ ∧
        ∀ k' ∈ keySuccs cols rows world (vacKey k), k' ∈ ex) →
      (∀ s ∈ stack, RobotState.key s ∈ T) ∧ (∀ k ∈ ex, k ∈ T) ∧
      (∀ k ∈ trace, k ∈ T) ∧
      (∀ k ∈ T, (vacKey k).2 ≠ ∅ ∧
        ∀ k' ∈ keySuccs cols rows world (vacKey k), k' ∈ T) := by
  intro fuel
  induction fuel with
  | zero =>
    intro stack ex gen exp tr g x T heq _ _
    exact absurd (congrArg Prod.fst heq) (by simp [dfsGo])
  | succ fuel ih =>
    intro stack ex gen exp tr g x T heq hex htr
    cases hpop : stackPop stack with
    | none =>
      have hstack : stack = [] := (stackPop_eq_none_iff stack).1 hpop
      have hstep : dfsGo cols rows world (fuel + 1) stack ex gen exp tr
          = (SearchResult.exhausted gen exp, tr) := by
        simp [dfsGo, hpop]
      rw [hstep] at heq
      have hT : T = tr := (congrArg Prod.snd heq).symm
      rw [hT]
      have hexT : ∀ k ∈ ex, k ∈ tr := by
        intro k hk
        rcases hex k hk with ⟨s, hs, -⟩ | h
        · rw [hstack] at hs
          simp at hs
        · exact h
      refine ⟨?_, hexT, fun k hk => hk, ?_⟩
      · intro s hs
        rw [hstack] at hs
        simp at hs
      · intro k hk
        exact ⟨(htr k hk).1, fun k' hk' => hexT k' ((htr k hk).2 k' hk')⟩
    | some pr =>
      obtain ⟨e0, stack'⟩ := pr
      rw [dfsGo_succ_pop cols rows world fuel ex gen exp tr hpop] at heq
      set cur : RobotState :=
        if e0.position ∈ e0.dirty_cells then
          ⟨e0.position, e0.dirty_cells.erase e0.position, e0.path ++ [Action.V]⟩
        else e0 with hcurdef
      unfold dfsProcess at heq
      by_cases hgoal : cur.dirty_cells = ∅
      · rw [if_pos hgoal] at heq
        exact absurd (congrArg Prod.fst heq) (by simp)
      · rw [if_neg hgoal] at heq
        have hfold : dfsPushSuccessors cols rows world cur cur.position.1
              cur.position.2 stack' ex gen
            = (genSuccessors cols rows world cur cur.position.1
                cur.position.2).foldl dfsPushIfNew (stack', ex, gen) := rfl
        rw [hfold] at heq
        set l : List RobotState :=
          genSuccessors cols rows world cur cur.position.1 cur.position.2
          with hldef
        set acc' := l.foldl dfsPushIfNew (stack', ex, gen) with haccdef
        have hvac : vacKey (RobotState.key e0)
            = (cur.position, cur.dirty_cells) := by
          rw [hcurdef]
          split_ifs with hd
          · simp [vacKey, RobotState.key]
          · simp [vacKey, RobotState.key, Finset.erase_eq_of_not_mem hd]
        have hsuccs : keySuccs cols rows world (vacKey (RobotState.key e0))
            = l.map RobotState.key := by
          rw [hvac, hldef, genSuccessors_map_key]
        obtain ⟨A', B', C', D'⟩ := ih acc'.1 acc'.2.1 acc'.2.2 (exp + 1)
          (tr ++ [e0.key]) g x T heq
          (by
            intro k hk
            rcases dfsFold_explored_mem l (stack', ex, gen) k hk with h | h
            · rcases hex k h with ⟨s, hs, hkey⟩ | h'
              · rcases List.mem_cons.1
                    ((stackPop_perm hpop).mem_iff.1 hs) with rfl | hs'
                · refine Or.inr (List.mem_append.2 (Or.inr ?_))
                  rw [← hkey]
                  exact List.mem_singleton_self _
                · exact Or.inl ⟨s, dfsFold_mem_mono l (stack', ex, gen) s hs',
                    hkey⟩
              · exact Or.inr (List.mem_append.2 (Or.inl h'))
            · exact Or.inl h)
          (by
            intro k hk
            rcases List.mem_append.1 hk with h | h
            · obtain ⟨hne, hsub⟩ := htr k h
              exact ⟨hne, fun k' hk' =>
                dfsFold_ex_mono l (stack', ex, gen) (hsub k' hk')⟩
            · rcases List.mem_singleton.1 h with rfl
              refine ⟨?_, ?_⟩
              · rw [hvac]
                exact hgoal
              · intro k' hk'
                rw [hsuccs] at hk'
                obtain ⟨ns, hns, rfl⟩ := List.mem_map.1 hk'
                exact dfsFold_gen_key_mem l (stack', ex, gen) ns hns)
        refine ⟨?_, ?_, ?_, D'⟩
        · intro s hs
          rcases List.mem_cons.1 ((stackPop_perm hpop).mem_iff.1 hs) with
            rfl | hs'
          · exact C' s.key (List.mem_append.2 (Or.inr (List.mem_singleton_self _)))
          · exact A' s (dfsFold_mem_mono l (stack', ex, gen) s hs')
        · intro k hk
          exact B' k (dfsFold_ex_mono l (stack', ex, gen) hk)
        · intro k hk
          exact C' k (List.mem_append.2 (Or.inl hk))

/-- When the `ucs` loop exhausts its frontier, the analogous closure
facts hold for its final popped-key trace. -/
theorem ucsGo_exhausted_closed (cols rows : Int) (world : List (List Char)) :
    ∀ (fuel : Nat) (pq : List (Nat × RobotState)) (ex : Finset Key)
      (gen exp : Nat) (trace : List Key) (g x : Nat) (T : List Key),
      ucsGo cols rows world fuel pq ex gen exp trace
        = (SearchResult.exhausted g x, T) →
      (∀ k ∈ ex, (∃ e ∈ pq, (e : Nat × RobotState).2.key = k) ∨ k ∈ trace) →
      (∀ k ∈ trace, (vacKey k).2 ≠ ∅ ∧
        ∀ k' ∈ keySuccs cols rows world (vacKey k), k' ∈ ex) →
      (∀ e ∈ pq, (e : Nat × RobotState).2.key ∈ T) ∧ (∀ k ∈ ex, k ∈ T) ∧
      (∀ k ∈ trace, k ∈ T) ∧
      (∀ k ∈ T, (vacKey k).2 ≠ ∅ ∧
        ∀ k' ∈ keySuccs cols rows world (vacKey k), k' ∈ T) := by
  intro fuel
  induction fuel with
  | zero =>
    intro pq ex gen exp tr g x T heq _ _
    exact absurd (congrArg Prod.fst heq) (by simp [ucsGo])
  | succ fuel ih =>
    intro pq ex gen exp tr g x T heq hex htr
    cases hpop : heappop entryKey pq with
    | none =>
      have hpq : pq = [] := (heappop_eq_none_iff entryKey pq).1 hpop
      have hstep : ucsGo cols rows world (fuel + 1) pq ex gen exp tr
          = (SearchResult.exhausted gen exp, tr) := by
        simp [ucsGo, hpop]
      rw [hstep] at heq
      have hT : T = tr := (congrArg Prod.snd heq).symm
      rw [hT]
      have hexT : ∀ k ∈ ex, k ∈ tr := by
        intro k hk
        rcases hex k hk with ⟨e, he, -⟩ | h
        · rw [hpq] at he
          simp at he
        · exact h
      refine ⟨?_, hexT, fun k hk => hk, ?_⟩
      · intro e he
        rw [hpq] at he
        simp at he
      · intro k hk
        exact ⟨(htr k hk).1, fun k' hk' => hexT k' ((htr k hk).2 k' hk')⟩
    | some pr =>
      obtain ⟨e0, pq'⟩ := pr
      rw [ucsGo_succ_pop cols rows world fuel ex gen exp tr hpop] at heq
      set cur : RobotState :=
        if e0.2.position ∈ e0.2.dirty_cells then
          ⟨e0.2.position, e0.2.dirty_cells.erase e0.2.position,
            e0.2.path ++ [Action.V]⟩
        else e0.2 with hcurdef
      unfold ucsProcess at heq
      by_cases hgoal : cur.dirty_cells = ∅
      · rw [if_pos hgoal] at heq
        exact absurd (congrArg Prod.fst heq) (by simp)
      · rw [if_neg hgoal] at heq
        have hfold : ucsPushSuccessors cols rows world cur cur.position.1
              cur.position.2 pq' ex gen
            = (genSuccessors cols rows world cur cur.position.1
                cur.position.2).foldl ucsPushIfNew (pq', ex, gen) := rfl
        rw [hfold] at heq
        set l : List RobotState :=
          genSuccessors cols rows world cur cur.position.1 cur.position.2
          with hldef
        set acc' := l.foldl ucsPushIfNew (pq', ex, gen) with haccdef
        have hvac : vacKey (RobotState.key e0.2)
            = (cur.position, cur.dirty_cells) := by
          rw [hcurdef]
          split_ifs with hd
          · simp [vacKey, RobotState.key]
          · simp [vacKey, RobotState.key, Finset.erase_eq_of_not_mem hd]
        have hsuccs : keySuccs cols rows world (vacKey (RobotState.key e0.2))
            = l.map RobotState.key := by
          rw [hvac, hldef, genSuccessors_map_key]
        obtain ⟨A', B', C', D'⟩ := ih acc'.1 acc'.2.1 acc'.2.2 (exp + 1)
          (tr ++ [e0.2.key]) g x T heq
          (by
            intro k hk
            rcases ucsFold_explored_mem l (pq', ex, gen) k hk with h | h
            · rcases hex k h with ⟨e, he, hkey⟩ | h'
              · rcases List.mem_cons.1
                    ((heappop_perm entryKey hpop).mem_iff.1 he) with rfl | he'
                · refine Or.inr (List.mem_append.2 (Or.inr ?_))
                  rw [← hkey]
                  exact List.mem_singleton_self _
                · exact Or.inl ⟨e, ucsFold_mem_mono l (pq', ex, gen) e he',
                    hkey⟩
              · exact Or.inr (List.mem_append.2 (Or.inl h'))
            · exact Or.inl h)
          (by
            intro k hk
            rcases List.mem_append.1 hk with h | h
            · obtain ⟨hne, hsub⟩ := htr k h
              exact ⟨hne, fun k' hk' =>
                ucsFold_ex_mono l (pq', ex, gen) (hsub k' hk')⟩
            · rcases List.mem_singleton.1 h with rfl
              refine ⟨?_, ?_⟩
              · rw [hvac]
                exact hgoal
              · intro k' hk'
                rw [hsuccs] at hk'
                obtain ⟨ns, hns, rfl⟩ := List.mem_map.1 hk'
                exact ucsFold_gen_key_mem l (pq', ex, gen) ns hns)
        refine ⟨?_, ?_, ?_, D'⟩
        · intro e he
          rcases List.mem_cons.1 ((heappop_perm entryKey hpop).mem_iff.1 he)
            with rfl | he'
          · exact C' e.2.key
              (List.mem_append.2 (Or.inr (List.mem_singleton_self _)))
          · exact A' e (ucsFold_mem_mono l (pq', ex, gen) e he')
        · intro k hk
          exact B' k (ucsFold_ex_mono l (pq', ex, gen) hk)
        · intro k hk
          exact C' k (List.mem_append.2 (Or.inl hk))

/-- If the start key reaches the goal in the key graph, `dfs` can never
report exhaustion. -/
theorem dfs_not_exhausted (cols rows : Int) (world : List (List Char))
    (p0 : Pos) (d0 : Dirty)
    (hreach : ReachesGoal cols rows world (p0, d0)) (fuel g x : Nat) :
    (dfs cols rows world ⟨p0, d0, []⟩ fuel).1 ≠ SearchResult.exhausted g x := by
  intro heq1
  have heq : dfsGo cols rows world fuel [⟨p0, d0, []⟩] ∅ 0 0 []
      = (SearchResult.exhausted g x,
          (dfs cols rows world ⟨p0, d0, []⟩ fuel).2) :=
    Prod.ext heq1 rfl
  obtain ⟨A, _B, _C, D⟩ := dfsGo_exhausted_closed cols rows world fuel
    [⟨p0, d0, []⟩] ∅ 0 0 [] g x _ heq (by simp) (by simp)
  exact closed_not_reachesGoal cols rows world _ D (p0, d0) hreach
    (A ⟨p0, d0, []⟩ (List.mem_singleton_self _))

/-- If the start key reaches the goal in the key graph, `ucs` can never
report exhaustion. -/
theorem ucs_not_exhausted (cols rows : Int) (world : List (List Char))
    (p0 : Pos) (d0 : Dirty)
    (hreach : ReachesGoal cols rows world (p0, d0)) (fuel g x : Nat) :
    (ucs cols rows world ⟨p0, d0, []⟩ fuel).1 ≠ SearchResult.exhausted g x := by
  intro heq1
  have heq : ucsGo cols rows world fuel (heappush entryKey [] (0, ⟨p0, d0, []⟩))
        ∅ 0 0 []
      = (SearchResult.exhausted g x,
          (ucs cols rows world ⟨p0, d0, []⟩ fuel).2) :=
    Prod.ext heq1 rfl
  obtain ⟨A, _B, _C, D⟩ := ucsGo_exhausted_closed cols rows world fuel
    (heappush entryKey [] (0, ⟨p0, d0, []⟩)) ∅ 0 0 [] g x _ heq
    (by simp) (by simp)
  refine closed_not_reachesGoal cols rows world _ D (p0, d0) hreach ?_
  exact A (0, ⟨p0, d0, []⟩)
    ((heappush_perm entryKey [] (0, ⟨p0, d0, []⟩)).mem_iff.2
      (List.mem_cons_self _ _))

/-- C8.  For every world with a finite reachable solution — an action
sequence that replays validly and cleans every dirty cell — the
stack-ordered strategy terminates (given the C7 fuel bound) and returns
a solution, and the returned solution is itself valid, though not
necessarily of minimal length. -/
theorem claim_C8 (cols rows : Int) (world : List (List Char)) (p0 : Pos)
    (d0 : Dirty) (fuel : Nat)
    (hfuel : 2 * (rows.toNat * cols.toNat * 2 ^ d0.card) + 2 ≤ fuel)
    (hsol : ∃ σ, ValidReplay cols rows world p0 d0 σ ∧
      (replay p0 d0 σ).2 = ∅) :
    ∃ p g x,
      (dfs cols rows world ⟨p0, d0, []⟩ fuel).1 = SearchResult.solved p g x ∧
      ValidReplay cols rows world p0 d0 p ∧ (replay p0 d0 p).2 = ∅ := by
  obtain ⟨σ, hv, hend⟩ := hsol
  have hreach := replay_reachesGoal cols rows world σ p0 d0 hv hend
  cases hres : (dfs cols rows world ⟨p0, d0, []⟩ fuel).1 with
  | solved p g x =>
    refine ⟨p, g, x, rfl, ?_⟩
    obtain ⟨pos, hvp, hrp⟩ := dfsGo_solved_valid cols rows world p0 d0 fuel
      [⟨p0, d0, []⟩] ∅ 0 0 [] p g x
      (by
        intro s hs
        rcases List.mem_singleton.1 hs with rfl
        exact stateInv_start cols rows world p0 d0)
      hres
    exact ⟨hvp, by rw [hrp]⟩
  | exhausted g x =>
    exact absurd hres (dfs_not_exhausted cols rows world p0 d0 hreach fuel g x)
  | outOfFuel =>
    exact absurd hres (dfs_terminates cols rows world p0 d0 fuel hfuel)

/-- Witness for C8 on the world `"_*@"` with solution `["W","V"]`. -/
theorem claim_C8_witness :
    ∃ p g x,
      (dfs 3 1 [['_', '*', '_']] ⟨(0, 2), {(0, 1)}, []⟩ 14).1
        = SearchResult.solved p g x ∧
      ValidReplay 3 1 [['_', '*', '_']] (0, 2) {(0, 1)} p ∧
      (replay (0, 2) {(0, 1)} p).2 = ∅ :=
  claim_C8 3 1 [['_', '*', '_']] (0, 2) {(0, 1)} 14 (by decide)
    ⟨[Action.W, Action.V], by decide, by decide⟩

/-! ## The binary heap invariant (C10)

`heapq` maintains the array as a binary min-heap with respect to the
tuple comparison — here, the strict lexicographic order on
`(cost, number of dirty cells)`.  We verify that the exact CPython sift
routines preserve the heap shape and that a pop returns a minimal
element; on equal costs, minimality is exactly `RobotState.__lt__`, so a
state with strictly fewer remaining dirty cells is popped before one
with strictly more. -/

theorem pairLt_irrefl (x : Nat × Nat) : ¬ pairLt x x := by
  unfold pairLt; omega

theorem pairLt_asymm {x y : Nat × Nat} (h : pairLt x y) : ¬ pairLt y x := by
  unfold pairLt at h ⊢; omega

/-- `¬·<·` (i.e. `≥` in the lexicographic order) is transitive. -/
theorem not_pairLt_trans {a b c : Nat × Nat}
    (h1 : ¬ pairLt b a) (h2 : ¬ pairLt c b) : ¬ pairLt c a := by
  unfold pairLt at h1 h2 ⊢; omega

theorem getD_set_self {α : Type u} {l : List α} {i : Nat} (hi : i < l.length)
    (v d : α) : (l.set i v).getD i d = v := by
  rw [List.getD_eq_getElem _ _ (by simpa using hi)]
  exact List.getElem_set_self _

theorem getD_set_ne {α : Type u} {l : List α} {i j : Nat} (h : i ≠ j)
    (v d : α) : (l.set i v).getD j d = l.getD j d := by
  by_cases hj : j < l.length
  · rw [List.getD_eq_getElem _ _ (by simpa using hj),
      List.getD_eq_getElem _ _ hj]
    exact List.getElem_set_ne h _
  · rw [List.getD_eq_default _ _ (by simpa using not_lt.1 hj),
      List.getD_eq_default _ _ (not_lt.1 hj)]

/-- The binary min-heap shape: no child is strictly smaller than its
parent.  (The default value of `getD` is irrelevant because both indices
are guarded to be in range.) -/
def IsHeap (κ : α → Nat × Nat) (l : List α) : Prop :=
  ∀ (i : Nat) (d : α), 0 < i → i < l.length →
    ¬ pairLt (κ (l.getD i d)) (κ (l.getD ((i - 1) / 2) d))

theorem isHeap_nil (κ : α → Nat × Nat) : IsHeap κ [] := by
  intro i d h1 h2
  simp at h2

/-- In a heap, no element is strictly smaller than the root. -/
theorem isHeap_root_min (κ : α → Nat × Nat) (l : List α) (h : IsHeap κ l) :
    ∀ (i : Nat) (d : α), i < l.length →
      ¬ pairLt (κ (l.getD i d)) (κ (l.getD 0 d)) := by
  intro i
  induction i using Nat.strong_induction_on with
  | _ i ih =>
    intro d hi
    rcases Nat.eq_zero_or_pos i with rfl | hpos
    · exact pairLt_irrefl _
    · have hpar : (i - 1) / 2 < i := by omega
      have h1 := h i d hpos hi
      have h2 := ih ((i - 1) / 2) hpar d (lt_trans hpar hi)
      exact not_pairLt_trans h2 h1

theorem pairLt_trans {a b c : Nat × Nat} (h1 : pairLt a b) (h2 : pairLt b c) :
    pairLt a c := by
  unfold pairLt at h1 h2 ⊢; omega

/-- In-range `getD` does not depend on the default. -/
theorem getD_congr_default {α : Type u} {l : List α} {i : Nat}
    (hi : i < l.length) (d d' : α) : l.getD i d = l.getD i d' := by
  rw [List.getD_eq_getElem _ _ hi, List.getD_eq_getElem _ _ hi]

/-- Precondition of the bubble-up `_siftdown` (with `startpos = 0`):
the array has a conceptual hole at `pos` holding `newitem`;
(1) every child–parent pair not touching the hole is heap-ordered;
(2) no child of the hole is smaller than `newitem`;
(3) when the hole is not the root, no child of the hole is smaller than
the hole's parent. -/
def AlmostHeapUp (κ : α → Nat × Nat) (l : List α) (pos : Nat) (item : α) :
    Prop :=
  (∀ (i : Nat) (d : α), 0 < i → i < l.length → i ≠ pos → (i - 1) / 2 ≠ pos →
      ¬ pairLt (κ (l.getD i d)) (κ (l.getD ((i - 1) / 2) d))) ∧
  (∀ (c : Nat) (d : α), 0 < c → c < l.length → (c - 1) / 2 = pos →
      ¬ pairLt (κ (l.getD c d)) (κ item)) ∧
  (∀ (c : Nat) (d : α), 0 < c → c < l.length → (c - 1) / 2 = pos → 0 < pos →
      ¬ pairLt (κ (l.getD c d)) (κ (l.getD ((pos - 1) / 2) d)))

/-- Writing the hole's item into its slot yields a heap, provided the
item is not smaller than the hole's parent (or the hole is the root). -/
theorem place_isHeap (κ : α → Nat × Nat) {l : List α} {pos : Nat} {item : α}
    (hpos : pos < l.length) (hA : AlmostHeapUp κ l pos item)
    (hstop : 0 < pos →
      ¬ pairLt (κ item) (κ (l.getD ((pos - 1) / 2) item))) :
    IsHeap κ (l.set pos item) := by
  obtain ⟨h1, h2, h3⟩ := hA
  intro i d hi0 hilen
  rw [List.length_set] at hilen
  have hpar_lt : (i - 1) / 2 < l.length := by
    have : (i - 1) / 2 < i := by omega
    omega
  by_cases hip : i = pos
  · subst hip
    have hpp : (i - 1) / 2 ≠ i := by omega
    rw [getD_set_self hpos, getD_set_ne (fun h => hpp h.symm)]
    rw [getD_congr_default hpar_lt d item]
    exact hstop hi0
  · rw [getD_set_ne (fun h => hip h.symm)]
    by_cases hpp : (i - 1) / 2 = pos
    · rw [hpp, getD_set_self hpos]
      exact h2 i d hi0 hilen hpp
    · rw [getD_set_ne (fun h => hpp h.symm)]
      exact h1 i d hi0 hilen hip hpp

/-- The bubble-up loop turns an almost-heap with a hole into a heap. -/
theorem siftdownAux_isHeap (κ : α → Nat × Nat) :
    ∀ (n : Nat) (l : List α) (pos : Nat) (item : α),
      pos < l.length → pos ≤ n → AlmostHeapUp κ l pos item →
      IsHeap κ (siftdownAux κ n l 0 pos item)
  | 0, l, pos, item, hpos, hn, hA => by
    have hp0 : pos = 0 := by omega
    subst hp0
    show IsHeap κ (l.set 0 item)
    exact place_isHeap κ hpos hA (by omega)
  | n + 1, l, pos, item, hpos, hn, hA => by
    show IsHeap κ (siftdownAux κ (n + 1) l 0 pos item)
    rw [siftdownAux]
    by_cases hp0 : 0 < pos
    · rw [if_pos hp0]
      obtain ⟨h1, h2, h3⟩ := hA
      set p := (pos - 1) / 2 with hpdef
      have hplt : p < pos := by omega
      have hplen : p < l.length := lt_trans hplt hpos
      by_cases hcmp : pairLt (κ item) (κ (l.getD p item))
      · rw [if_pos hcmp]
        refine siftdownAux_isHeap κ n (l.set pos (l.getD p item)) p item
          (by simpa using hplen) (by omega) ⟨?_, ?_, ?_⟩
        · intro i d hi0 hilen hip hipp
          rw [List.length_set] at hilen
          have hpar_lt : (i - 1) / 2 < l.length := by
            have : (i - 1) / 2 < i := by omega
            omega
          by_cases hipos : i = pos
          · exact absurd (by omega : (i - 1) / 2 = p) hipp
          · rw [getD_set_ne (fun h => hipos h.symm)]
            by_cases hppos : (i - 1) / 2 = pos
            · rw [hppos, getD_set_self hpos]
              rw [getD_congr_default hplen item d]
              exact h3 i d hi0 hilen hppos hp0
            · rw [getD_set_ne (fun h => hppos h.symm)]
              exact h1 i d hi0 hilen hipos hppos
        · intro c d hc0 hclen hcp
          rw [List.length_set] at hclen
          by_cases hcpos : c = pos
          · subst hcpos
            rw [getD_set_self hpos]
            exact pairLt_asymm hcmp
          · rw [getD_set_ne (fun h => hcpos h.symm)]
            intro hlt
            have hedge : ¬ pairLt (κ (l.getD c d)) (κ (l.getD ((c - 1) / 2) d)) := by
              refine h1 c d hc0 hclen hcpos ?_
              omega
            rw [hcp] at hedge
            rw [getD_congr_default hplen item d] at hcmp
            exact hedge (pairLt_trans hlt hcmp)
        · intro c d hc0 hclen hcp hp0'
          rw [List.length_set] at hclen
          have hgp_ne : (p - 1) / 2 ≠ pos := by omega
          have hgp_lt : (p - 1) / 2 < l.length := by
            have : (p - 1) / 2 < p := by omega
            omega
          rw [getD_set_ne (fun h => hgp_ne h.symm)]
          by_cases hcpos : c = pos
          · subst hcpos
            rw [getD_set_self hpos, getD_congr_default hplen item d]
            exact h1 p d hp0' hplen (by omega) (by omega)
          · rw [getD_set_ne (fun h => hcpos h.symm)]
            have e1 : ¬ pairLt (κ (l.getD c d)) (κ (l.getD p d)) := by
              have := h1 c d hc0 hclen hcpos (by omega)
              rwa [hcp] at this
            have e2 : ¬ pairLt (κ (l.getD p d)) (κ (l.getD ((p - 1) / 2) d)) := by
              refine h1 p d hp0' hplen (by omega) (by omega)
            exact not_pairLt_trans e2 e1
      · rw [if_neg hcmp]
        refine place_isHeap κ hpos ⟨h1, h2, h3⟩ ?_
        intro _
        exact hcmp
    · rw [if_neg hp0]
      have hp0' : pos = 0 := by omega
      subst hp0'
      exact place_isHeap κ hpos hA (by omega)

/-- In-range `getD` reads the left part of an append. -/
theorem getD_append_left {α : Type u} {l1 l2 : List α} {j : Nat}
    (h : j < l1.length) (d : α) : (l1 ++ l2).getD j d = l1.getD j d := by
  have h2 : j < (l1 ++ l2).length := by
    rw [List.length_append]; omega
  rw [List.getD_eq_getElem _ _ h2, List.getD_eq_getElem _ _ h]
  exact List.getElem_append_left h

/-- In-range `getD` on `dropLast` reads the original list. -/
theorem getD_dropLast {α : Type u} {l : List α} {j : Nat}
    (h : j < l.dropLast.length) (d : α) : l.dropLast.getD j d = l.getD j d := by
  rw [List.getD_eq_getElem _ _ h,
    List.getD_eq_getElem _ _ (by rw [List.length_dropLast] at h; omega)]
  exact List.getElem_dropLast l j h

/-- Precondition of the walk-down `_siftup` phase (with `startpos = 0`):
the array has a conceptual hole at `pos`;
(1) every child–parent pair not touching the hole is heap-ordered;
(2) when the hole is not the root, no child of the hole is smaller than
the hole's parent.  (The hole's current value is irrelevant: the walk
overwrites it before it is ever compared.) -/
def AlmostHeapDown (κ : α → Nat × Nat) (l : List α) (pos : Nat) : Prop :=
  (∀ (i : Nat) (d : α), 0 < i → i < l.length → i ≠ pos → (i - 1) / 2 ≠ pos →
      ¬ pairLt (κ (l.getD i d)) (κ (l.getD ((i - 1) / 2) d))) ∧
  (∀ (c : Nat) (d : α), 0 < c → c < l.length → (c - 1) / 2 = pos → 0 < pos →
      ¬ pairLt (κ (l.getD c d)) (κ (l.getD ((pos - 1) / 2) d)))

/-- When the hole has no children, writing any item into it and bubbling
up restores the heap shape. -/
theorem siftupLeaf_isHeap (κ : α → Nat × Nat) {l : List α} {pos : Nat}
    (item : α) (hpos : pos < l.length) (hleaf : l.length ≤ 2 * pos + 1)
    (hA : AlmostHeapDown κ l pos) :
    IsHeap κ (siftdownLoop κ (l.set pos item) 0 pos item) := by
  obtain ⟨q1, q2⟩ := hA
  unfold siftdownLoop
  refine siftdownAux_isHeap κ pos (l.set pos item) pos item
    (by simpa using hpos) le_rfl ⟨?_, ?_, ?_⟩
  · intro i d hi0 hilen hip hipp
    rw [List.length_set] at hilen
    rw [getD_set_ne (fun h => hip h.symm), getD_set_ne (fun h => hipp h.symm)]
    exact q1 i d hi0 hilen hip hipp
  · intro c d hc0 hclen hcp
    rw [List.length_set] at hclen
    exact absurd hcp (by omega)
  · intro c d hc0 hclen hcp hp0
    rw [List.length_set] at hclen
    exact absurd hcp (by omega)

/-- The walk-down loop of `_siftup` restores the heap shape from an
almost-heap with a hole, provided the fuel dominates the remaining
depth. -/
theorem siftupAux_isHeap (κ : α → Nat × Nat) :
    ∀ (n : Nat) (l : List α) (pos : Nat) (item : α),
      pos < l.length → l.length ≤ pos + n + 1 → AlmostHeapDown κ l pos →
      IsHeap κ (siftupAux κ n l 0 pos item)
  | 0, l, pos, item, hpos, hn, hA => by
    simp only [siftupAux]
    exact siftupLeaf_isHeap κ item hpos (by omega) hA
  | n + 1, l, pos, item, hpos, hn, hA => by
    simp only [siftupAux]
    by_cases hch : 2 * pos + 1 < l.length
    · simp only [if_pos hch]
      set c : Nat :=
        if 2 * pos + 1 + 1 < l.length ∧
            ¬ pairLt (κ (l.getD (2 * pos + 1) item))
              (κ (l.getD (2 * pos + 1 + 1) item)) then
          2 * pos + 1 + 1
        else 2 * pos + 1 with hc
      obtain ⟨q1, q2⟩ := hA
      have hcr : c < l.length := by
        rw [hc]; split_ifs with hsplit
        · exact hsplit.1
        · exact hch
      have hcge : 2 * pos + 1 ≤ c := by
        rw [hc]; split_ifs <;> omega
      have hcle : c ≤ 2 * pos + 1 + 1 := by
        rw [hc]; split_ifs <;> omega
      have hcp : (c - 1) / 2 = pos := by omega
      have hc0 : 0 < c := by omega
      -- The chosen child is minimal among the hole's children.
      have hmin : ∀ (i : Nat) (d : α), 0 < i → i < l.length →
          (i - 1) / 2 = pos → ¬ pairLt (κ (l.getD i d)) (κ (l.getD c item)) := by
        intro i d hi0 hilen hipar
        have hirange : i = 2 * pos + 1 ∨ i = 2 * pos + 1 + 1 := by omega
        rw [hc]
        by_cases hsplit : 2 * pos + 1 + 1 < l.length ∧
            ¬ pairLt (κ (l.getD (2 * pos + 1) item))
              (κ (l.getD (2 * pos + 1 + 1) item))
        · rw [if_pos hsplit]
          rcases hirange with rfl | rfl
          · rw [getD_congr_default hilen d item]
            exact hsplit.2
          · rw [getD_congr_default hilen d item]
            exact pairLt_irrefl _
        · rw [if_neg hsplit]
          rcases hirange with rfl | rfl
          · rw [getD_congr_default hilen d item]
            exact pairLt_irrefl _
          · have hlt : pairLt (κ (l.getD (2 * pos + 1) item))
                (κ (l.getD (2 * pos + 1 + 1) item)) := by
              by_contra hno
              exact hsplit ⟨hilen, hno⟩
            rw [getD_congr_default hilen d item]
            exact pairLt_asymm hlt
      refine siftupAux_isHeap κ n (l.set pos (l.getD c item)) c item
        (by rw [List.length_set]; exact hcr)
        (by rw [List.length_set]; omega) ⟨?_, ?_⟩
      · intro i d hi0 hilen hic hipc
        rw [List.length_set] at hilen
        by_cases hipos : i = pos
        · have hp0 : 0 < pos := hipos ▸ hi0
          have hpar_ne : pos ≠ (pos - 1) / 2 := by omega
          have hpar_lt : (pos - 1) / 2 < l.length := by omega
          rw [hipos, getD_set_self hpos, getD_set_ne hpar_ne,
            getD_congr_default hcr item d]
          exact q2 c d hc0 hcr hcp hp0
        · by_cases hipp : (i - 1) / 2 = pos
          · rw [getD_set_ne (fun h => hipos h.symm), hipp, getD_set_self hpos]
            exact hmin i d hi0 hilen hipp
          · rw [getD_set_ne (fun h => hipos h.symm),
              getD_set_ne (fun h => hipp h.symm)]
            exact q1 i d hi0 hilen hipos hipp
      · intro c2 d hc20 hc2len hc2p hcpos0
        rw [List.length_set] at hc2len
        have hc2_ne_pos : c2 ≠ pos := by omega
        have hc2_par_ne : (c2 - 1) / 2 ≠ pos := by omega
        rw [getD_set_ne (fun h => hc2_ne_pos h.symm), hcp, getD_set_self hpos,
          getD_congr_default hcr item d]
        have hedge := q1 c2 d hc20 hc2len hc2_ne_pos hc2_par_ne
        rwa [hc2p] at hedge
    · simp only [if_neg hch]
      exact siftupLeaf_isHeap κ item hpos (by omega) hA

/-- `heappush` preserves the heap shape. -/
theorem heappush_isHeap (κ : α → Nat × Nat) (heap : List α) (item : α)
    (h : IsHeap κ heap) : IsHeap κ (heappush κ heap item) := by
  unfold heappush siftdownLoop
  refine siftdownAux_isHeap κ heap.length (heap ++ [item]) heap.length item
    (by simp) le_rfl ⟨?_, ?_, ?_⟩
  · intro i d hi0 hilen hip hipp
    simp only [List.length_append, List.length_singleton] at hilen
    have hi : i < heap.length := by omega
    have hpar : (i - 1) / 2 < heap.length := by omega
    rw [getD_append_left hi, getD_append_left hpar]
    exact h i d hi0 hi
  · intro c d hc0 hclen hcp
    simp only [List.length_append, List.length_singleton] at hclen
    exact absurd hcp (by omega)
  · intro c d hc0 hclen hcp hp0
    simp only [List.length_append, List.length_singleton] at hclen
    exact absurd hcp (by omega)

/-- `heappop` preserves the heap shape on the remaining heap. -/
theorem heappop_isHeap {α : Type u} (κ : α → Nat × Nat)
    {heap rest : List α} {e : α}
    (h : IsHeap κ heap) (hpop : heappop κ heap = some (e, rest)) :
    IsHeap κ rest := by
  match heap with
  | [] => simp [heappop] at hpop
  | x :: xs =>
    rw [heappop] at hpop
    set last := (x :: xs).getLast (List.cons_ne_nil x xs) with hlastdef
    rcases hdl : (x :: xs).dropLast with _ | ⟨r, rs⟩
    · rw [hdl] at hpop
      simp only [Option.some.injEq, Prod.mk.injEq] at hpop
      rw [← hpop.2]
      exact isHeap_nil κ
    · rw [hdl] at hpop
      simp only [Option.some.injEq, Prod.mk.injEq] at hpop
      rw [← hpop.2]
      show IsHeap κ (siftupLoop κ ((r :: rs).set 0 last) 0 0 last)
      unfold siftupLoop
      refine siftupAux_isHeap κ ((r :: rs).set 0 last).length
        ((r :: rs).set 0 last) 0 last (by simp) (by omega) ⟨?_, ?_⟩
      · intro i d hi0 hilen hip hipp
        rw [List.length_set] at hilen
        rw [getD_set_ne (fun hh => hip hh.symm),
          getD_set_ne (fun hh => hipp hh.symm)]
        have hdl' : r :: rs = (x :: xs).dropLast := hdl.symm
        have hilen' : i < (x :: xs).dropLast.length := by
          rw [← hdl']; exact hilen
        have hpar : (i - 1) / 2 < (x :: xs).dropLast.length := by
          rw [← hdl']
          simp only [List.length_cons] at hilen ⊢
          omega
        rw [hdl', getD_dropLast hilen' d, getD_dropLast hpar d]
        have hxlen : i < (x :: xs).length := by
          rw [List.length_dropLast] at hilen'; omega
        exact h i d hi0 hxlen
      · intro c d hc0 hclen hcp hp0
        exact absurd hp0 (lt_irrefl 0)

/-- On a well-shaped heap, `heappop` returns a minimal element. -/
theorem heappop_min {α : Type u} (κ : α → Nat × Nat) {heap rest : List α}
    {e : α} (h : IsHeap κ heap) (hpop : heappop κ heap = some (e, rest)) :
    ∀ y ∈ heap, ¬ pairLt (κ y) (κ e) := by
  match heap with
  | [] => simp [heappop] at hpop
  | x :: xs =>
    rw [heappop] at hpop
    rcases hdl : (x :: xs).dropLast with _ | ⟨r, rs⟩
    · have hxs : xs = [] := by
        cases xs with
        | nil => rfl
        | cons a as =>
          rw [List.dropLast_cons_of_ne_nil (List.cons_ne_nil a as)] at hdl
          simp at hdl
      subst hxs
      rw [hdl] at hpop
      simp only [Option.some.injEq, Prod.mk.injEq] at hpop
      intro y hy
      simp only [List.mem_singleton] at hy
      have he : e = x := by rw [← hpop.1]; rfl
      rw [hy, he]
      exact pairLt_irrefl _
    · rw [hdl] at hpop
      simp only [Option.some.injEq, Prod.mk.injEq] at hpop
      have hxs : xs ≠ [] := by
        intro hnil; rw [hnil] at hdl; simp at hdl
      have hcons : x :: xs.dropLast = r :: rs := by
        rw [← List.dropLast_cons_of_ne_nil hxs, hdl]
      have hrx : x = r := (List.cons.injEq x xs.dropLast r rs ▸ hcons :
        x = r ∧ xs.dropLast = rs).1
      intro y hy
      obtain ⟨i, hi, hget⟩ := List.mem_iff_getElem.mp hy
      have hroot := isHeap_root_min κ (x :: xs) h i y hi
      rw [List.getD_eq_getElem _ _ hi, hget] at hroot
      have h0 : (0 : Nat) < (x :: xs).length := by simp
      rw [List.getD_eq_getElem _ _ h0] at hroot
      simp only [List.getElem_cons_zero] at hroot
      rw [← hpop.1, ← hrx]
      exact hroot

/-- A two-element heap for the C10 instantiation: root with no dirty
cells, child with one dirty cell, equal costs. -/
def heapStA : RobotState := ⟨(0, 0), ∅, []⟩

def heapStB : RobotState := ⟨(0, 0), {((0 : Int), (0 : Int))}, []⟩

theorem isHeap_pairAB :
    IsHeap entryKey [(1, heapStA), (1, heapStB)] := by
  intro i d hi0 hilen
  simp only [List.length_cons, List.length_nil] at hilen
  interval_cases i
  show ¬ pairLt (entryKey (1, heapStB)) (entryKey (1, heapStA))
  decide

theorem isHeap_singletonA : IsHeap entryKey [(1, heapStA)] := by
  intro i d hi0 hilen
  simp only [List.length_cons, List.length_nil] at hilen
  omega

/-- **C10.**  The tie-break ordering on search states (`__lt__`)
compares only the number of remaining dirty cells, independent of
position and path; frontier entries `(cost, state)` are compared
lexicographically, so on equal costs that state comparison decides; on a
well-shaped heap, `heappop` returns an entry not lexicographically
larger than any frontier entry — in particular, among frontier entries
with equal path length, a state with strictly fewer remaining dirty
cells is popped before one with strictly more — and `heappush` /
`heappop` preserve the heap shape, so every pop of the cost-ordered
strategy enjoys this minimality. -/
theorem claim_C10 :
    (∀ s1 s2 : RobotState, RobotState.lt s1 s2 ↔
      s1.dirty_cells.card < s2.dirty_cells.card) ∧
    (∀ (c : Nat) (s1 s2 : RobotState),
      pairLt (entryKey (c, s1)) (entryKey (c, s2)) ↔ RobotState.lt s1 s2) ∧
    (∀ (pq pq' : List (Nat × RobotState)) (e : Nat × RobotState),
      IsHeap entryKey pq → heappop entryKey pq = some (e, pq') →
      ∀ y ∈ pq, ¬ pairLt (entryKey y) (entryKey e)) ∧
    (∀ (pq pq' : List (Nat × RobotState)) (e : Nat × RobotState),
      IsHeap entryKey pq → heappop entryKey pq = some (e, pq') →
      ∀ y ∈ pq, y.1 = e.1 → ¬ RobotState.lt y.2 e.2) ∧
    (∀ (pq : List (Nat × RobotState)) (x : Nat × RobotState),
      IsHeap entryKey pq → IsHeap entryKey (heappush entryKey pq x)) ∧
    (∀ (pq pq' : List (Nat × RobotState)) (e : Nat × RobotState),
      IsHeap entryKey pq → heappop entryKey pq = some (e, pq') →
      IsHeap entryKey pq') := by
  refine ⟨?_, ?_, ?_, ?_, ?_, ?_⟩
  · intro s1 s2
    exact Iff.rfl
  · intro c s1 s2
    unfold pairLt entryKey RobotState.lt
    constructor
    · rintro (h | ⟨-, h⟩)
      · exact absurd h (lt_irrefl c)
      · exact h
    · intro h
      exact Or.inr ⟨rfl, h⟩
  · intro pq pq' e hheap hpop y hy
    exact heappop_min entryKey hheap hpop y hy
  · intro pq pq' e hheap hpop y hy hcost hlt
    have hmin := heappop_min entryKey hheap hpop y hy
    apply hmin
    unfold pairLt entryKey
    unfold RobotState.lt at hlt
    simp only
    omega
  · intro pq x hheap
    exact heappush_isHeap entryKey pq x hheap
  · intro pq pq' e hheap hpop
    exact heappop_isHeap entryKey hheap hpop

/-- Concrete instantiation of C10: equal-cost entries with 0 resp. 1
remaining dirty cells; the pop of the two-element heap returns the
0-dirty entry, the 1-dirty entry is not smaller, and push/pop preserve
the heap shape. -/
theorem claim_C10_witness :
    RobotState.lt heapStA heapStB ∧
    pairLt (entryKey (1, heapStA)) (entryKey (1, heapStB)) ∧
    ¬ pairLt (entryKey (1, heapStB)) (entryKey (1, heapStA)) ∧
    ¬ RobotState.lt heapStB heapStA ∧
    IsHeap entryKey (heappush entryKey [(1, heapStA)] (1, heapStB)) ∧
    IsHeap entryKey [(1, heapStB)] := by
  obtain ⟨ha, hb, hc, hc', hd, he⟩ := claim_C10
  have hpop : heappop entryKey [(1, heapStA), (1, heapStB)]
      = some ((1, heapStA), [(1, heapStB)]) := by decide
  refine ⟨?_, ?_, ?_, ?_, ?_, ?_⟩
  · exact (ha heapStA heapStB).mpr (by decide)
  · exact (hb 1 heapStA heapStB).mpr ((ha heapStA heapStB).mpr (by decide))
  · exact hc [(1, heapStA), (1, heapStB)] [(1, heapStB)] (1, heapStA)
      isHeap_pairAB hpop (1, heapStB) (by decide)
  · exact hc' [(1, heapStA), (1, heapStB)] [(1, heapStB)] (1, heapStA)
      isHeap_pairAB hpop (1, heapStB) (by decide) rfl
  · exact hd [(1, heapStA)] (1, heapStB) isHeap_singletonA
  · exact he [(1, heapStA), (1, heapStB)] [(1, heapStB)] (1, heapStA)
      isHeap_pairAB hpop

/-! ## C1: forced-vacuum move paths

The `ucs` loop only ever inserts a `V` when the popped position is
dirty, so the action sequences it can return are exactly move sequences
with the vacuum actions forced in.  On the *key* level (pre-vacuum
`(position, dirty)` pairs), a run of the search walks the graph whose
step first vacuums the current position and then makes one admissible
move.  We show that restricting attention to such forced-vacuum move
paths loses no generality: every valid cleaning action sequence of
length `L` yields a forced-vacuum move path cleaning with total cost
(moves plus forced vacuums) at most `L`. -/

/-- The target square of a move action. -/
def moveTarget (p : Pos) (a : Action) : Pos :=
  (p.1 + (moveDelta a).1, p.2 + (moveDelta a).2)

/-- One forced-vacuum step on pre-vacuum keys: vacuum the current
position, then move. -/
def fvStep (k : Key) (a : Action) : Key :=
  (moveTarget k.1 a, k.2.erase k.1)

/-- Walk a move sequence through the forced-vacuum key graph. -/
def fvReplay (k : Key) : List Action → Key
  | [] => k
  | a :: μ => fvReplay (fvStep k a) μ

/-- A move sequence is admissible from a key: every action is a real
move (not `V`) whose target is in bounds and passable. -/
def fvValid (cols rows : Int) (world : List (List Char)) :
    Key → List Action → Prop
  | _, [] => True
  | k, a :: μ => a ≠ Action.V ∧ StepOk cols rows world k.1 a ∧
      fvValid cols rows world (fvStep k a) μ

/-- The keys visited along a forced-vacuum walk (pre-vacuum, including
the start and the final key). -/
def fvKeys (k : Key) : List Action → List Key
  | [] => [k]
  | a :: μ => k :: fvKeys (fvStep k a) μ

/-- The walk ends in a key that passes the post-vacuum goal test. -/
def FvCleans (k : Key) (μ : List Action) : Prop :=
  ((fvReplay k μ).2).erase (fvReplay k μ).1 = ∅

theorem fvReplay_append (σ τ : List Action) :
    ∀ k : Key, fvReplay k (σ ++ τ) = fvReplay (fvReplay k σ) τ := by
  induction σ with
  | nil => intro k; rfl
  | cons a σ ih => intro k; simp only [List.cons_append, fvReplay]; exact ih _

theorem fvKeys_length (μ : List Action) :
    ∀ k : Key, (fvKeys k μ).length = μ.length + 1 := by
  induction μ with
  | nil => intro k; rfl
  | cons a μ ih => intro k; simp [fvKeys, ih]

theorem fvKeys_getElem (μ : List Action) :
    ∀ (k : Key) (i : Nat) (h : i < (fvKeys k μ).length),
      (fvKeys k μ)[i] = fvReplay k (μ.take i) := by
  induction μ with
  | nil =>
    intro k i h
    simp only [fvKeys, List.length_singleton] at h
    interval_cases i
    rfl
  | cons a μ ih =>
    intro k i h
    cases i with
    | zero => rfl
    | succ i =>
      have hl := fvKeys_length (a :: μ) k
      simp only [List.length_cons] at hl
      have h2 : i < μ.length + 1 := by omega
      simp only [fvKeys, List.getElem_cons_succ, List.take_succ_cons]
      rw [ih (fvStep k a) i (by rw [fvKeys_length]; omega)]
      rfl

theorem fvReplay_dirty_subset (μ : List Action) :
    ∀ k : Key, (fvReplay k μ).2 ⊆ k.2 := by
  induction μ with
  | nil => intro k; exact Finset.Subset.refl _
  | cons a μ ih =>
    intro k
    refine Finset.Subset.trans (ih (fvStep k a)) ?_
    exact Finset.erase_subset _ _

/-- Along the walk, later dirty sets are contained in earlier ones. -/
theorem fvReplay_take_dirty_subset (μ : List Action) (k : Key) {i j : Nat}
    (hij : i ≤ j) :
    (fvReplay k (μ.take j)).2 ⊆ (fvReplay k (μ.take i)).2 := by
  have hj : j = i + (j - i) := by omega
  rw [hj, List.take_add, fvReplay_append]
  exact fvReplay_dirty_subset _ _

/-- The positions of a forced-vacuum walk do not depend on the dirty
set. -/
theorem fvReplay_fst_congr (μ : List Action) :
    ∀ (p : Pos) (d d' : Dirty),
      (fvReplay (p, d) μ).1 = (fvReplay (p, d') μ).1 := by
  induction μ with
  | nil => intro p d d'; rfl
  | cons a μ ih =>
    intro p d d'
    exact ih (moveTarget p a) (d.erase p) (d'.erase p)

/-- Walking from a smaller dirty set keeps the dirty set smaller. -/
theorem fvReplay_snd_mono (μ : List Action) :
    ∀ (p : Pos) (d d' : Dirty), d' ⊆ d →
      (fvReplay (p, d') μ).2 ⊆ (fvReplay (p, d) μ).2 := by
  induction μ with
  | nil => intro p d d' h; exact h
  | cons a μ ih =>
    intro p d d' h
    exact ih (moveTarget p a) (d.erase p) (d'.erase p)
      (Finset.erase_subset_erase p h)

/-- Admissibility of a move sequence does not depend on the dirty set. -/
theorem fvValid_congr (cols rows : Int) (world : List (List Char))
    (μ : List Action) :
    ∀ (p : Pos) (d d' : Dirty),
      fvValid cols rows world (p, d) μ → fvValid cols rows world (p, d') μ := by
  induction μ with
  | nil => intro p d d' _; trivial
  | cons a μ ih =>
    intro p d d' h
    obtain ⟨ha, hstep, hrest⟩ := h
    exact ⟨ha, hstep, ih (moveTarget p a) (d.erase p) (d'.erase p) hrest⟩

theorem fvValid_append (cols rows : Int) (world : List (List Char))
    (σ τ : List Action) :
    ∀ k : Key,
      fvValid cols rows world k (σ ++ τ) ↔
        fvValid cols rows world k σ ∧
          fvValid cols rows world (fvReplay k σ) τ := by
  induction σ with
  | nil =>
    intro k
    constructor
    · intro h; exact ⟨trivial, h⟩
    · intro h; exact h.2
  | cons a σ ih =>
    intro k
    constructor
    · rintro ⟨ha, hstep, hrest⟩
      obtain ⟨h1, h2⟩ := (ih (fvStep k a)).1 hrest
      exact ⟨⟨ha, hstep, h1⟩, h2⟩
    · rintro ⟨⟨ha, hstep, h1⟩, h2⟩
      exact ⟨ha, hstep, (ih (fvStep k a)).2 ⟨h1, h2⟩⟩

/-- Cleaning only improves when the start dirty set shrinks by the
vacuum: the key after the start vacuum cleans iff the start key does. -/
theorem fvCleans_of_vac {p : Pos} {d : Dirty} {μ : List Action}
    (h : FvCleans (p, d.erase p) μ) : FvCleans (p, d) μ := by
  cases μ with
  | nil =>
    unfold FvCleans fvReplay at h ⊢
    simpa [Finset.erase_idem] using h
  | cons a μ =>
    unfold FvCleans fvReplay at h ⊢
    have hstep : fvStep (p, d) a = fvStep (p, d.erase p) a := by
      unfold fvStep
      simp [Finset.erase_idem]
    rw [hstep]
    exact h

/-- A move not hitting `V` applies as a plain move. -/
theorem applyAction_ne_V {p : Pos} {d : Dirty} {a : Action}
    (ha : a ≠ Action.V) : applyAction p d a = (moveTarget p a, d) := by
  cases a with
  | V => exact absurd rfl ha
  | N => rfl
  | S => rfl
  | E => rfl
  | W => rfl

/-- **Reduction to forced-vacuum paths.**  Every valid cleaning action
sequence of length `L` from `(p, d)` yields an admissible forced-vacuum
move sequence that cleans, of total cost (moves plus the `|d|` forced
vacuums) at most `L`. -/
theorem cleaning_to_fv (cols rows : Int) (world : List (List Char)) :
    ∀ (σ : List Action) (p : Pos) (d : Dirty),
      ValidReplay cols rows world p d σ → (replay p d σ).2 = ∅ →
      ∃ μ, fvValid cols rows world (p, d) μ ∧ FvCleans (p, d) μ ∧
        μ.length + d.card ≤ σ.length := by
  intro σ
  induction σ with
  | nil =>
    intro p d _ hclean
    simp only [replay] at hclean
    refine ⟨[], trivial, ?_, ?_⟩
    · unfold FvCleans fvReplay
      rw [hclean]
      simp
    · simp [hclean]
  | cons a σ ih =>
    intro p d hv hclean
    obtain ⟨hstep, hv'⟩ := hv
    by_cases haV : a = Action.V
    · subst haV
      have happ : applyAction p d Action.V = (p, d.erase p) := rfl
      rw [happ] at hv'
      have hclean' : (replay p (d.erase p) σ).2 = ∅ := by
        simpa [replay, happ] using hclean
      obtain ⟨μ, hval, hcl, hlen⟩ := ih p (d.erase p) hv' hclean'
      refine ⟨μ, fvValid_congr cols rows world μ p (d.erase p) d hval,
        fvCleans_of_vac hcl, ?_⟩
      by_cases hpd : p ∈ d
      · have := Finset.card_erase_add_one hpd
        simp only [List.length_cons]
        omega
      · rw [Finset.erase_eq_of_not_mem hpd] at hlen
        simp only [List.length_cons]
        omega
    · have happ : applyAction p d a = (moveTarget p a, d) := applyAction_ne_V haV
      rw [happ] at hv'
      have hclean' : (replay (moveTarget p a) d σ).2 = ∅ := by
        simpa [replay, happ] using hclean
      obtain ⟨μ, hval, hcl, hlen⟩ := ih (moveTarget p a) d hv' hclean'
      refine ⟨a :: μ, ⟨haV, hstep, ?_⟩, ?_, ?_⟩
      · show fvValid cols rows world (moveTarget p a, d.erase p) μ
        exact fvValid_congr cols rows world μ _ d (d.erase p) hval
      · unfold FvCleans at hcl ⊢
        have hrw : fvReplay (p, d) (a :: μ)
            = fvReplay (moveTarget p a, d.erase p) μ := rfl
        rw [hrw]
        have hfst : (fvReplay (moveTarget p a, d.erase p) μ).1
            = (fvReplay (moveTarget p a, d) μ).1 :=
          fvReplay_fst_congr μ _ (d.erase p) d
        have hsnd : (fvReplay (moveTarget p a, d.erase p) μ).2
            ⊆ (fvReplay (moveTarget p a, d) μ).2 :=
          fvReplay_snd_mono μ _ d (d.erase p) (Finset.erase_subset _ _)
        rw [hfst]
        refine Finset.subset_empty.mp ?_
        rw [← hcl]
        exact Finset.erase_subset_erase _ hsnd
      · simp only [List.length_cons]
        omega

/-- **Key-simplification.**  Any admissible cleaning move sequence can
be shortened to one visiting each pre-vacuum key at most once. -/
theorem fv_simple (cols rows : Int) (world : List (List Char)) (k0 : Key) :
    ∀ (n : Nat) (μ : List Action), μ.length ≤ n →
      fvValid cols rows world k0 μ → FvCleans k0 μ →
      ∃ μ', μ'.length ≤ μ.length ∧ fvValid cols rows world k0 μ' ∧
        FvCleans k0 μ' ∧ (fvKeys k0 μ').Nodup := by
  intro n
  induction n with
  | zero =>
    intro μ hlen hval hcl
    have hnil : μ = [] := List.length_eq_zero.mp (by omega)
    subst hnil
    exact ⟨[], le_rfl, hval, hcl, List.nodup_singleton k0⟩
  | succ n ih =>
    intro μ hlen hval hcl
    by_cases hnd : (fvKeys k0 μ).Nodup
    · exact ⟨μ, le_rfl, hval, hcl, hnd⟩
    · have hninj : ¬ Function.Injective (fvKeys k0 μ).get := by
        intro hinj
        exact hnd (List.nodup_iff_injective_get.mpr hinj)
      obtain ⟨a, b, hab, hne⟩ := Function.not_injective_iff.mp hninj
      -- order the two indices
      obtain ⟨i, j, hij, hi, hj, hkeq⟩ :
          ∃ i j, ∃ (hij : i < j) (hi : i < (fvKeys k0 μ).length)
            (hj : j < (fvKeys k0 μ).length),
            (fvKeys k0 μ).get ⟨i, hi⟩ = (fvKeys k0 μ).get ⟨j, hj⟩ := by
        rcases lt_or_gt_of_ne (fun h => hne (Fin.ext h)) with h | h
        · exact ⟨a.val, b.val, h, a.isLt, b.isLt, hab⟩
        · exact ⟨b.val, a.val, h, b.isLt, a.isLt, hab.symm⟩
      have hlenk := fvKeys_length μ k0
      have hi' : i < μ.length + 1 := by omega
      have hj' : j < μ.length + 1 := by omega
      have hdup : fvReplay k0 (μ.take i) = fvReplay k0 (μ.take j) := by
        rw [← fvKeys_getElem μ k0 i hi, ← fvKeys_getElem μ k0 j hj]
        exact hkeq
      set ν : List Action := μ.take i ++ μ.drop j with hν
      have hνlen : ν.length < μ.length := by
        rw [hν]
        simp only [List.length_append, List.length_take, List.length_drop]
        omega
      have hsplitj : μ = μ.take j ++ μ.drop j := (List.take_append_drop j μ).symm
      have hvalj : fvValid cols rows world (fvReplay k0 (μ.take j)) (μ.drop j) := by
        have := (fvValid_append cols rows world (μ.take j) (μ.drop j) k0).1
          (by rw [← hsplitj]; exact hval)
        exact this.2
      have hvali : fvValid cols rows world k0 (μ.take i) := by
        have hspliti : μ = μ.take i ++ μ.drop i := (List.take_append_drop i μ).symm
        have := (fvValid_append cols rows world (μ.take i) (μ.drop i) k0).1
          (by rw [← hspliti]; exact hval)
        exact this.1
      have hνval : fvValid cols rows world k0 ν := by
        rw [hν]
        refine (fvValid_append cols rows world _ _ k0).2 ⟨hvali, ?_⟩
        rw [hdup]
        exact hvalj
      have hνrep : fvReplay k0 ν = fvReplay k0 μ := by
        rw [hν, fvReplay_append, hdup, ← fvReplay_append, ← hsplitj]
      have hνcl : FvCleans k0 ν := by
        unfold FvCleans at hcl ⊢
        rw [hνrep]
        exact hcl
      obtain ⟨μ', h1, h2, h3, h4⟩ := ih ν (by omega) hνval hνcl
      exact ⟨μ', by omega, h2, h3, h4⟩

/-- On a key-simple walk, visited keys identify their position in the
walk. -/
theorem fvKeys_nodup_inj {k0 : Key} {μ : List Action}
    (hnd : (fvKeys k0 μ).Nodup) {a b : Nat} (ha : a ≤ μ.length)
    (hb : b ≤ μ.length)
    (h : fvReplay k0 (μ.take a) = fvReplay k0 (μ.take b)) : a = b := by
  have hla : a < (fvKeys k0 μ).length := by rw [fvKeys_length]; omega
  have hlb : b < (fvKeys k0 μ).length := by rw [fvKeys_length]; omega
  have hg : (fvKeys k0 μ).get ⟨a, hla⟩ = (fvKeys k0 μ).get ⟨b, hlb⟩ := by
    show (fvKeys k0 μ)[a] = (fvKeys k0 μ)[b]
    rw [fvKeys_getElem μ k0 a hla, fvKeys_getElem μ k0 b hlb]
    exact h
  exact congrArg Fin.val ((List.Nodup.get_inj_iff hnd).1 hg)

/-- Each step of an admissible walk: the next action is a real move,
admissible at the current key's position, and advances the walk by one
forced-vacuum step. -/
theorem fvValid_take_succ (cols rows : Int) (world : List (List Char))
    (μ : List Action) (k0 : Key) (hv : fvValid cols rows world k0 μ)
    {i : Nat} (hi : i < μ.length) :
    ∃ a : Action, a ≠ Action.V ∧
      StepOk cols rows world (fvReplay k0 (μ.take i)).1 a ∧
      fvReplay k0 (μ.take (i + 1)) = fvStep (fvReplay k0 (μ.take i)) a := by
  have hsplit : μ = μ.take i ++ μ.drop i := (List.take_append_drop i μ).symm
  have hval2 : fvValid cols rows world (fvReplay k0 (μ.take i)) (μ.drop i) :=
    ((fvValid_append cols rows world _ _ k0).1 (by rw [← hsplit]; exact hv)).2
  cases hdrop : μ.drop i with
  | nil =>
    have hdl := congrArg List.length hdrop
    simp only [List.length_drop, List.length_nil] at hdl
    omega
  | cons a rest =>
    rw [hdrop] at hval2
    obtain ⟨haV, hstep, -⟩ := hval2
    refine ⟨a, haV, hstep, ?_⟩
    have hlen_take : (μ.take i).length = i := by rw [List.length_take]; omega
    have htake : μ.take (i + 1) = μ.take i ++ [a] := by
      conv_lhs => rw [hsplit, hdrop]
      rw [(by omega : i + 1 = (μ.take i).length + 1), List.take_append]
      rfl
    rw [htake, fvReplay_append]
    rfl

/-- An admissible move from the expanded node's own position is among
its generated successors. -/
theorem mem_genSuccessors_of_step (cols rows : Int) (world : List (List Char))
    (cur : RobotState) {a : Action} (haV : a ≠ Action.V)
    (hstep : StepOk cols rows world cur.position a) :
    (⟨moveTarget cur.position a, cur.dirty_cells, cur.path ++ [a]⟩ : RobotState)
      ∈ genSuccessors cols rows world cur cur.position.1 cur.position.2 := by
  rw [mem_genSuccessors_iff]
  cases a with
  | V => exact absurd rfl haV
  | N =>
    exact ⟨Action.N, -1, 0, by simp [dirList], hstep.1, hstep.2.1,
      hstep.2.2.1, hstep.2.2.2.1, hstep.2.2.2.2, rfl⟩
  | S =>
    exact ⟨Action.S, 1, 0, by simp [dirList], hstep.1, hstep.2.1,
      hstep.2.2.1, hstep.2.2.2.1, hstep.2.2.2.2, rfl⟩
  | E =>
    exact ⟨Action.E, 0, 1, by simp [dirList], hstep.1, hstep.2.1,
      hstep.2.2.1, hstep.2.2.2.1, hstep.2.2.2.2, rfl⟩
  | W =>
    exact ⟨Action.W, 0, -1, by simp [dirList], hstep.1, hstep.2.1,
      hstep.2.2.1, hstep.2.2.2.1, hstep.2.2.2.2, rfl⟩

/-- Two successors of one expansion with equal keys are the same state:
the four directions land on four distinct squares. -/
theorem genSuccessors_key_inj (cols rows : Int) (world : List (List Char))
    (cur : RobotState) (r c : Int) {ns ns' : RobotState}
    (h : ns ∈ genSuccessors cols rows world cur r c)
    (h' : ns' ∈ genSuccessors cols rows world cur r c)
    (hk : RobotState.key ns = RobotState.key ns') : ns = ns' := by
  rw [mem_genSuccessors_iff] at h h'
  obtain ⟨a, dr, dc, hmem, -, -, -, -, -, rfl⟩ := h
  obtain ⟨a', dr', dc', hmem', -, -, -, -, -, rfl⟩ := h'
  simp only [RobotState.key, Prod.mk.injEq] at hk
  obtain ⟨⟨h1, h2⟩, -⟩ := hk
  simp only [dirList, List.mem_cons, List.not_mem_nil, or_false,
    Prod.mk.injEq] at hmem hmem'
  rcases hmem with ⟨rfl, rfl, rfl⟩ | ⟨rfl, rfl, rfl⟩ | ⟨rfl, rfl, rfl⟩ |
      ⟨rfl, rfl, rfl⟩ <;>
    rcases hmem' with ⟨rfl, rfl, rfl⟩ | ⟨rfl, rfl, rfl⟩ | ⟨rfl, rfl, rfl⟩ |
        ⟨rfl, rfl, rfl⟩ <;>
      first
        | rfl
        | (exfalso; omega)

/-- The `ucs` successor fold preserves the heap shape. -/
theorem ucsFold_isHeap (l : List RobotState) :
    ∀ acc : List (Nat × RobotState) × Finset Key × Nat,
      IsHeap entryKey acc.1 → IsHeap entryKey (l.foldl ucsPushIfNew acc).1 := by
  induction l with
  | nil => intro acc h; exact h
  | cons a l ih =>
    intro acc h
    refine ih (ucsPushIfNew acc a) ?_
    by_cases hnew : a.key ∈ acc.2.1
    · rw [ucsPushIfNew_neg acc a hnew]
      exact h
    · rw [ucsPushIfNew_pos acc a hnew]
      exact heappush_isHeap entryKey acc.1 _ h

/-- A candidate with an unexplored key that no other candidate shares
ends up on the frontier with its `(len(path), state)` entry. -/
theorem ucsFold_push_mem (l : List RobotState) :
    ∀ (acc : List (Nat × RobotState) × Finset Key × Nat) (ns : RobotState),
      ns ∈ l → ns.key ∉ acc.2.1 →
      (∀ ns' ∈ l, RobotState.key ns' = ns.key → ns' = ns) →
      (ns.path.length, ns) ∈ (l.foldl ucsPushIfNew acc).1 := by
  induction l with
  | nil => intro acc ns h; simp at h
  | cons a l ih =>
    intro acc ns hns hnew hinj
    rcases List.mem_cons.1 hns with rfl | h
    · refine ucsFold_mem_mono l (ucsPushIfNew acc ns) _ ?_
      rw [ucsPushIfNew_pos acc ns hnew]
      exact (heappush_perm entryKey acc.1 (ns.path.length, ns)).mem_iff.2
        (List.mem_cons_self _ _)
    · by_cases hkey : a.key = ns.key
      · have ha : a = ns := hinj a (List.mem_cons_self a l) hkey
        subst ha
        refine ucsFold_mem_mono l (ucsPushIfNew acc a) _ ?_
        rw [ucsPushIfNew_pos acc a hnew]
        exact (heappush_perm entryKey acc.1 (a.path.length, a)).mem_iff.2
          (List.mem_cons_self _ _)
      · have hnew' : ns.key ∉ (ucsPushIfNew acc a).2.1 := by
          by_cases hanew : a.key ∈ acc.2.1
          · rw [ucsPushIfNew_neg acc a hanew]
            exact hnew
          · rw [ucsPushIfNew_pos acc a hanew]
            show ns.key ∉ insert a.key acc.2.1
            intro hcon
            exact (Finset.mem_insert.1 hcon).elim (fun he => hkey he.symm) hnew
        exact ih (ucsPushIfNew acc a) ns h hnew'
          (fun ns' h' he => hinj ns' (List.mem_cons_of_mem a h') he)

/-- **Witness repair.**  Consider the frontier and explored set right
after one expansion, characterized against the pre-expansion data: every
explored key was explored before or belongs to a frontier entry, every
frontier entry is old or a freshly pushed successor, all successors
share the expanded node's path length plus one and its dirty set, old
entries have explored keys (seed apart), and any strictly later key of
the fixed key-simple path whose dirty set matches is within budget at
the uniform fresh cost.  Then a path witness within budget whose later
path keys were unexplored *before* can be moved forward to one whose
later path keys are unexplored *now*. -/
theorem ucsRepair (p0 : Pos) (d0 : Dirty) (μ : List Action)
    (hμnd : (fvKeys (p0, d0) μ).Nodup)
    (PQ : List (Nat × RobotState)) (EX explored : Finset Key)
    (pq' : List (Nat × RobotState)) (SUC : List RobotState)
    (cpath : List Action) (cdirty : Dirty) (iOrig : Nat)
    (hEXch : ∀ k : Key, k ∈ EX → k ∈ explored ∨
      ∃ e ∈ PQ, RobotState.key (e : Nat × RobotState).2 = k)
    (hPQch : ∀ e ∈ PQ, e ∈ pq' ∨ ∃ ns ∈ SUC, e = (ns.path.length, ns))
    (hsucc : ∀ ns ∈ SUC, ns.path.length = cpath.length + 1 ∧
      ns.dirty_cells = cdirty)
    (hold : ∀ e ∈ pq', RobotState.key (e : Nat × RobotState).2 ∈ explored ∨
      e = ((0, ⟨p0, d0, []⟩) : Nat × RobotState))
    (hP : ∀ j, iOrig < j → j ≤ μ.length →
      (fvReplay (p0, d0) (μ.take j)).2 = cdirty →
      cpath.length + 1 + cdirty.card ≤ j + d0.card) :
    ∀ (m i₀ : Nat), μ.length - i₀ ≤ m → iOrig ≤ i₀ → i₀ ≤ μ.length →
      (∀ j, i₀ < j → j ≤ μ.length →
        fvReplay (p0, d0) (μ.take j) ∉ explored) →
      (∃ e ∈ PQ, RobotState.key (e : Nat × RobotState).2
          = fvReplay (p0, d0) (μ.take i₀) ∧
        e.1 + (fvReplay (p0, d0) (μ.take i₀)).2.card ≤ i₀ + d0.card) →
      ∃ i₁, i₁ ≤ μ.length ∧
        (∀ j, i₁ < j → j ≤ μ.length → fvReplay (p0, d0) (μ.take j) ∉ EX) ∧
        ∃ e ∈ PQ, RobotState.key (e : Nat × RobotState).2
            = fvReplay (p0, d0) (μ.take i₁) ∧
          e.1 + (fvReplay (p0, d0) (μ.take i₁)).2.card ≤ i₁ + d0.card := by
  intro m
  induction m with
  | zero =>
    intro i₀ hm horig hik hexp hwit
    refine ⟨i₀, hik, ?_, hwit⟩
    intro j hj hjk
    exact absurd hjk (by omega)
  | succ m ih =>
    intro i₀ hm horig hik hexp hwit
    by_cases hbad : ∃ j, i₀ < j ∧ j ≤ μ.length ∧
        fvReplay (p0, d0) (μ.take j) ∈ EX
    · obtain ⟨j0, hj0i, hj0k, hj0EX⟩ := hbad
      have hj0nexp : fvReplay (p0, d0) (μ.take j0) ∉ explored :=
        hexp j0 hj0i hj0k
      rcases hEXch _ hj0EX with h | ⟨e', he'PQ, he'key⟩
      · exact absurd h hj0nexp
      · rcases hPQch e' he'PQ with hold' | ⟨ns, hnsSUC, rfl⟩
        · rcases hold e' hold' with hk | hse
          · rw [he'key] at hk
            exact absurd hk hj0nexp
          · exfalso
            rw [hse] at he'key
            have h0 : fvReplay (p0, d0) (μ.take 0) = (p0, d0) := rfl
            have h0j : (0 : Nat) = j0 := fvKeys_nodup_inj hμnd (by omega) hj0k
              (by rw [h0, ← he'key]; rfl)
            omega
        · obtain ⟨hlen', hdirty'⟩ := hsucc ns hnsSUC
          have hd2 : (fvReplay (p0, d0) (μ.take j0)).2 = cdirty := by
            rw [← he'key]
            show ns.dirty_cells = cdirty
            exact hdirty'
          have hbud := hP j0 (by omega) hj0k hd2
          refine ih j0 (by omega) (by omega) hj0k
            (fun j hj hjk => hexp j (by omega) hjk) ?_
          refine ⟨(ns.path.length, ns), he'PQ, he'key, ?_⟩
          show ns.path.length + (fvReplay (p0, d0) (μ.take j0)).2.card
            ≤ j0 + d0.card
          rw [hd2]
          omega
    · push_neg at hbad
      refine ⟨i₀, hik, ?_, hwit⟩
      intro j hj hjk
      exact hbad j hj hjk

/-- **UCS optimality against a fixed path.**  Fix a key-simple
admissible cleaning move path `μ` from the start configuration.  Suppose
the frontier is a well-shaped heap of cost-correct, path-coherent
entries whose keys are explored (the seed entry apart), some frontier
entry lies on `μ` within the exact cost budget of its path position, and
no strictly later path key is explored.  Then any solution the loop
returns has length at most the path's total forced cost
`μ.length + d0.card`.  The budget is preserved through the critical
equal-cost races by the dirty-count tie-break of the heap order. -/
theorem ucsGo_opt (cols rows : Int) (world : List (List Char)) (p0 : Pos)
    (d0 : Dirty) (μ : List Action)
    (hμv : fvValid cols rows world (p0, d0) μ)
    (hμc : FvCleans (p0, d0) μ)
    (hμnd : (fvKeys (p0, d0) μ).Nodup) :
    ∀ (fuel : Nat) (pq : List (Nat × RobotState)) (explored : Finset Key)
      (gen exp : Nat) (trace : List Key) (π : List Action) (g x : Nat),
      IsHeap entryKey pq →
      (∀ e ∈ pq, (e : Nat × RobotState).1 = e.2.path.length) →
      (∀ e ∈ pq, StateInv cols rows world p0 d0 e.2) →
      (∀ e ∈ pq, RobotState.key (e : Nat × RobotState).2 ∈ explored ∨
        e = ((0, ⟨p0, d0, []⟩) : Nat × RobotState)) →
      (∃ i, i ≤ μ.length ∧
        (∀ j, i < j → j ≤ μ.length →
          fvReplay (p0, d0) (μ.take j) ∉ explored) ∧
        ∃ e ∈ pq, RobotState.key (e : Nat × RobotState).2
            = fvReplay (p0, d0) (μ.take i) ∧
          e.1 + (fvReplay (p0, d0) (μ.take i)).2.card ≤ i + d0.card) →
      (ucsGo cols rows world fuel pq explored gen exp trace).1
        = SearchResult.solved π g x →
      π.length ≤ μ.length + d0.card := by
  intro fuel
  induction fuel with
  | zero =>
    intro pq explored gen exp trace π g x _ _ _ _ _ heq
    exact absurd heq (by simp [ucsGo])
  | succ fuel ih =>
    intro pq explored gen exp trace π g x hheap hcost hsinv hseed hwit heq
    obtain ⟨i, hik, hexp, e, hepq, hekey, hebud⟩ := hwit
    cases hpop : heappop entryKey pq with
    | none =>
      rw [heappop_eq_none_iff] at hpop
      rw [hpop] at hepq
      simp at hepq
    | some pr =>
      obtain ⟨estar, pq'⟩ := pr
      rw [ucsGo_succ_pop cols rows world fuel explored gen exp trace hpop] at heq
      have hmin := heappop_min entryKey hheap hpop e hepq
      have hmin2 : ¬ ((e : Nat × RobotState).1 < estar.1 ∨
          ((e : Nat × RobotState).1 = estar.1 ∧
            (e : Nat × RobotState).2.dirty_cells.card
              < estar.2.dirty_cells.card)) := hmin
      push_neg at hmin2
      have hestar_cost : estar.1 = estar.2.path.length :=
        hcost estar (heappop_mem hpop)
      have hecard : (e : Nat × RobotState).2.dirty_cells.card
          = (fvReplay (p0, d0) (μ.take i)).2.card := by
        have hc := congrArg (fun k : Key => k.2.card) hekey
        simpa [RobotState.key] using hc
      set cur : RobotState :=
        if estar.2.position ∈ estar.2.dirty_cells then
          ⟨estar.2.position, estar.2.dirty_cells.erase estar.2.position,
            estar.2.path ++ [Action.V]⟩
        else estar.2 with hcurdef
      have hcurpos : cur.position = estar.2.position := by
        rw [hcurdef]; split_ifs <;> rfl
      have hcurdirty : cur.dirty_cells
          = estar.2.dirty_cells.erase estar.2.position := by
        rw [hcurdef]
        split_ifs with hd
        · rfl
        · exact (Finset.erase_eq_of_not_mem hd).symm
      have hcurlen : cur.path.length = estar.1
          + (if estar.2.position ∈ estar.2.dirty_cells then 1 else 0) := by
        rw [hcurdef, hestar_cost]
        split_ifs with hd
        · simp
        · simp
      unfold ucsProcess at heq
      split_ifs at heq with hgoal
      · -- the run returned the popped node's (vacuumed) path
        simp only [Prod.fst, SearchResult.solved.injEq] at heq
        obtain ⟨rfl, -, -⟩ := heq
        by_cases hd : estar.2.position ∈ estar.2.dirty_cells
        · have hsub : estar.2.dirty_cells ⊆ {estar.2.position} := by
            intro y hy
            by_cases hxy : y = estar.2.position
            · simp [hxy]
            · exfalso
              have hmem : y ∈ estar.2.dirty_cells.erase estar.2.position :=
                Finset.mem_erase.mpr ⟨hxy, hy⟩
              rw [← hcurdirty, hgoal] at hmem
              simp at hmem
          have hD1 : estar.2.dirty_cells.card ≤ 1 := by
            have hcc := Finset.card_le_card hsub
            simpa using hcc
          have hD2 : 0 < estar.2.dirty_cells.card :=
            Finset.card_pos.mpr ⟨estar.2.position, hd⟩
          have hπ : cur.path.length = estar.1 + 1 := by
            rw [hcurlen, if_pos hd]
          rcases eq_or_lt_of_le hmin2.1 with hEq | hLt
          · have hcd := hmin2.2 hEq.symm
            omega
          · omega
        · have hD0 : estar.2.dirty_cells = ∅ := by
            rw [← Finset.erase_eq_of_not_mem hd, ← hcurdirty]
            exact hgoal
          have hπ : cur.path.length = estar.1 := by
            rw [hcurlen, if_neg hd]
            omega
          have hDc : estar.2.dirty_cells.card = 0 := by
            rw [hD0]
            exact Finset.card_empty
          omega
      · -- the loop continues: re-establish every invariant
        have hpq'sub : ∀ e' ∈ pq', e' ∈ pq := fun e' he' =>
          (heappop_perm entryKey hpop).mem_iff.2 (List.mem_cons_of_mem _ he')
        have hcurinv : StateInv cols rows world p0 d0 cur := by
          rw [hcurdef]
          split_ifs with hd
          · exact stateInv_vac (hsinv estar (heappop_mem hpop))
          · exact hsinv estar (heappop_mem hpop)
        set SUC := genSuccessors cols rows world cur cur.position.1
          cur.position.2 with hSUC
        have hfold : ucsPushSuccessors cols rows world cur cur.position.1
            cur.position.2 pq' explored gen
            = SUC.foldl ucsPushIfNew (pq', explored, gen) := rfl
        have hsucc : ∀ ns ∈ SUC, ns.path.length = cur.path.length + 1 ∧
            ns.dirty_cells = cur.dirty_cells := by
          intro ns hns
          rw [hSUC, mem_genSuccessors_iff] at hns
          obtain ⟨a, dr, dc, -, -, -, -, -, -, rfl⟩ := hns
          constructor
          · simp
          · rfl
        have hP : ∀ j, i < j → j ≤ μ.length →
            (fvReplay (p0, d0) (μ.take j)).2 = cur.dirty_cells →
            cur.path.length + 1 + cur.dirty_cells.card ≤ j + d0.card := by
          intro j hji hjk hdj
          have hvcb : cur.path.length ≤ estar.1 + 1 := by
            rw [hcurlen]; split_ifs <;> omega
          rcases Nat.lt_or_ge j (i + 2) with hj2 | hj2
          · have hj1 : j = i + 1 := by omega
            subst hj1
            obtain ⟨a, haV, hstep, hstepEq⟩ :=
              fvValid_take_succ cols rows world μ (p0, d0) hμv
                (by omega : i < μ.length)
            have hdirtyEq : (fvReplay (p0, d0) (μ.take (i + 1))).2
                = (fvReplay (p0, d0) (μ.take i)).2.erase
                    (fvReplay (p0, d0) (μ.take i)).1 := by
              rw [hstepEq]
              rfl
            have hcde : cur.dirty_cells
                = (fvReplay (p0, d0) (μ.take i)).2.erase
                    (fvReplay (p0, d0) (μ.take i)).1 := by
              rw [← hdj, hdirtyEq]
            by_cases hq : (fvReplay (p0, d0) (μ.take i)).1
                ∈ (fvReplay (p0, d0) (μ.take i)).2
            · have hcard := Finset.card_erase_add_one hq
              have hcurc : cur.dirty_cells.card
                  = ((fvReplay (p0, d0) (μ.take i)).2.erase
                      (fvReplay (p0, d0) (μ.take i)).1).card := by
                rw [hcde]
              omega
            · have herase := Finset.erase_eq_of_not_mem hq
              rw [herase] at hcde
              have hcurc : cur.dirty_cells.card
                  = (fvReplay (p0, d0) (μ.take i)).2.card := by rw [hcde]
              by_cases hvac : estar.2.position ∈ estar.2.dirty_cells
              · have hDcard := Finset.card_erase_add_one hvac
                have hED : (fvReplay (p0, d0) (μ.take i)).2.card + 1
                    = estar.2.dirty_cells.card := by
                  rw [← hcurc, hcurdirty]
                  exact hDcard
                have hcl : cur.path.length = estar.1 + 1 := by
                  rw [hcurlen, if_pos hvac]
                rcases eq_or_lt_of_le hmin2.1 with hEq | hLt
                · have hcd := hmin2.2 hEq.symm
                  omega
                · omega
              · have hcl : cur.path.length = estar.1 := by
                  rw [hcurlen, if_neg hvac]
                  omega
                omega
          · have hmono := Finset.card_le_card
              (fvReplay_take_dirty_subset μ (p0, d0) (by omega : i ≤ j))
            rw [hdj] at hmono
            omega
        refine ih _ _ _ _ _ π g x ?_ ?_ ?_ ?_ ?_ heq
        · rw [hfold]
          exact ucsFold_isHeap SUC (pq', explored, gen)
            (heappop_isHeap entryKey hheap hpop)
        · intro e' he'
          rw [hfold] at he'
          rcases ucsFold_mem SUC (pq', explored, gen) e' he' with h | ⟨ns, -, rfl⟩
          · exact hcost e' (hpq'sub e' h)
          · rfl
        · intro e' he'
          rw [hfold] at he'
          rcases ucsFold_mem SUC (pq', explored, gen) e' he' with h | ⟨ns, hns, rfl⟩
          · exact hsinv e' (hpq'sub e' h)
          · exact stateInv_succ hcurinv (by rw [hSUC] at hns; exact hns)
        · intro e' he'
          rw [hfold] at he'
          rcases ucsFold_mem SUC (pq', explored, gen) e' he' with h | ⟨ns, hns, rfl⟩
          · rcases hseed e' (hpq'sub e' h) with hk | hs
            · left
              rw [hfold]
              exact ucsFold_ex_mono SUC (pq', explored, gen) hk
            · right
              exact hs
          · left
            rw [hfold]
            exact ucsFold_gen_key_mem SUC (pq', explored, gen) ns hns
        · -- the path witness
          rw [hfold]
          rcases List.mem_cons.1 ((heappop_perm entryKey hpop).mem_iff.1 hepq)
            with he_star | he_pq'
          · -- the witness was the popped entry: push its on-path successor
            have hekey' : RobotState.key estar.2
                = fvReplay (p0, d0) (μ.take i) := by
              rw [← he_star]
              exact hekey
            have hebud' : estar.1 + (fvReplay (p0, d0) (μ.take i)).2.card
                ≤ i + d0.card := by
              rw [← he_star]
              exact hebud
            have hpos : estar.2.position = (fvReplay (p0, d0) (μ.take i)).1 := by
              have hc := congrArg Prod.fst hekey'
              simpa [RobotState.key] using hc
            have hdirt : estar.2.dirty_cells
                = (fvReplay (p0, d0) (μ.take i)).2 := by
              have hc := congrArg Prod.snd hekey'
              simpa [RobotState.key] using hc
            have hilt : i < μ.length := by
              by_contra hcon
              have hieq : i = μ.length := by omega
              apply hgoal
              rw [hcurdirty, hdirt, hpos, hieq, List.take_length]
              exact hμc
            obtain ⟨a, haV, hstep, hstepEq⟩ :=
              fvValid_take_succ cols rows world μ (p0, d0) hμv hilt
            have hstepc : StepOk cols rows world cur.position a := by
              rw [hcurpos, hpos]
              exact hstep
            have hns0 := mem_genSuccessors_of_step cols rows world cur haV hstepc
            have hnskey : RobotState.key
                (⟨moveTarget cur.position a, cur.dirty_cells,
                  cur.path ++ [a]⟩ : RobotState)
                = fvReplay (p0, d0) (μ.take (i + 1)) := by
              rw [hstepEq]
              show (moveTarget cur.position a, cur.dirty_cells)
                = fvStep (fvReplay (p0, d0) (μ.take i)) a
              unfold fvStep
              rw [hcurpos, hpos, hcurdirty, hdirt, hpos]
            have hnsnew : RobotState.key
                (⟨moveTarget cur.position a, cur.dirty_cells,
                  cur.path ++ [a]⟩ : RobotState) ∉ explored := by
              rw [hnskey]
              exact hexp (i + 1) (by omega) (by omega)
            have hinj : ∀ ns' ∈ SUC, RobotState.key ns'
                = RobotState.key (⟨moveTarget cur.position a, cur.dirty_cells,
                  cur.path ++ [a]⟩ : RobotState) →
                ns' = ⟨moveTarget cur.position a, cur.dirty_cells,
                  cur.path ++ [a]⟩ := by
              intro ns' h' hk
              exact genSuccessors_key_inj cols rows world cur cur.position.1
                cur.position.2 (by rw [hSUC] at h'; exact h') hns0 hk
            have hpush := ucsFold_push_mem SUC (pq', explored, gen)
              ⟨moveTarget cur.position a, cur.dirty_cells, cur.path ++ [a]⟩
              (by rw [hSUC]; exact hns0) hnsnew hinj
            have hd1 : (fvReplay (p0, d0) (μ.take (i + 1))).2
                = cur.dirty_cells := by
              rw [hstepEq]
              show (fvReplay (p0, d0) (μ.take i)).2.erase
                (fvReplay (p0, d0) (μ.take i)).1 = cur.dirty_cells
              rw [hcurdirty, hdirt, hpos]
            have hbud' : (⟨moveTarget cur.position a, cur.dirty_cells,
                cur.path ++ [a]⟩ : RobotState).path.length
                + (fvReplay (p0, d0) (μ.take (i + 1))).2.card
                ≤ (i + 1) + d0.card := by
              show (cur.path ++ [a]).length
                + (fvReplay (p0, d0) (μ.take (i + 1))).2.card
                ≤ (i + 1) + d0.card
              rw [List.length_append, hd1]
              have hb : estar.1 + estar.2.dirty_cells.card ≤ i + d0.card := by
                rw [hdirt]
                exact hebud'
              by_cases hvac : estar.2.position ∈ estar.2.dirty_cells
              · have hc1 := Finset.card_erase_add_one hvac
                have hc2 : cur.dirty_cells.card
                    = (estar.2.dirty_cells.erase estar.2.position).card := by
                  rw [hcurdirty]
                have hcl : cur.path.length = estar.1 + 1 := by
                  rw [hcurlen, if_pos hvac]
                simp only [List.length_singleton]
                omega
              · have hc2 : cur.dirty_cells.card = estar.2.dirty_cells.card := by
                  rw [hcurdirty, Finset.erase_eq_of_not_mem hvac]
                have hcl : cur.path.length = estar.1 := by
                  rw [hcurlen, if_neg hvac]
                  omega
                simp only [List.length_singleton]
                omega
            exact ucsRepair p0 d0 μ hμnd _ _ explored pq' SUC cur.path
              cur.dirty_cells i
              (fun k hk => ucsFold_explored_mem SUC (pq', explored, gen) k hk)
              (fun e' he' => ucsFold_mem SUC (pq', explored, gen) e' he')
              hsucc (fun e' he' => hseed e' (hpq'sub e' he')) hP
              μ.length (i + 1) (by omega) (by omega) (by omega)
              (fun j hj hjk => hexp j (by omega) hjk)
              ⟨((⟨moveTarget cur.position a, cur.dirty_cells,
                    cur.path ++ [a]⟩ : RobotState).path.length,
                  (⟨moveTarget cur.position a, cur.dirty_cells,
                    cur.path ++ [a]⟩ : RobotState)),
                hpush, hnskey, hbud'⟩
          · -- the witness survives the pop
            exact ucsRepair p0 d0 μ hμnd _ _ explored pq' SUC cur.path
              cur.dirty_cells i
              (fun k hk => ucsFold_explored_mem SUC (pq', explored, gen) k hk)
              (fun e' he' => ucsFold_mem SUC (pq', explored, gen) e' he')
              hsucc (fun e' he' => hseed e' (hpq'sub e' he')) hP
              μ.length i (by omega) le_rfl hik hexp
              ⟨e, ucsFold_mem_mono SUC (pq', explored, gen) e he_pq', hekey,
                hebud⟩

/-- C1.  For every world in which some action sequence cleans every
dirty cell, the cost-ordered (uniform-cost) strategy — given the C7 fuel
bound — returns an action sequence that itself cleans every dirty cell
and whose total length (moves plus vacuum actions) is minimal among all
valid action sequences that clean every dirty cell. -/
theorem claim_C1 (cols rows : Int) (world : List (List Char)) (p0 : Pos)
    (d0 : Dirty) (fuel : Nat)
    (hfuel : 2 * (rows.toNat * cols.toNat * 2 ^ d0.card) + 2 ≤ fuel)
    (hsol : ∃ σ, ValidReplay cols rows world p0 d0 σ ∧
      (replay p0 d0 σ).2 = ∅) :
    ∃ p g x,
      (ucs cols rows world ⟨p0, d0, []⟩ fuel).1 = SearchResult.solved p g x ∧
      ValidReplay cols rows world p0 d0 p ∧ (replay p0 d0 p).2 = ∅ ∧
      ∀ σ, ValidReplay cols rows world p0 d0 σ → (replay p0 d0 σ).2 = ∅ →
        p.length ≤ σ.length := by
  obtain ⟨σ0, hv0, he0⟩ := hsol
  have hreach := replay_reachesGoal cols rows world σ0 p0 d0 hv0 he0
  cases hres : (ucs cols rows world ⟨p0, d0, []⟩ fuel).1 with
  | solved p g x =>
    refine ⟨p, g, x, rfl, ?_, ?_, ?_⟩
    · obtain ⟨pos, hvp, hrp⟩ := ucsGo_solved_valid cols rows world p0 d0 fuel
        (heappush entryKey [] (0, ⟨p0, d0, []⟩)) ∅ 0 0 [] p g x
        (by
          intro e he
          rcases List.mem_cons.1
              ((heappush_perm entryKey [] (0, ⟨p0, d0, []⟩)).mem_iff.1 he) with
            rfl | hf
          · exact stateInv_start cols rows world p0 d0
          · simp at hf)
        hres
      exact hvp
    · obtain ⟨pos, hvp, hrp⟩ := ucsGo_solved_valid cols rows world p0 d0 fuel
        (heappush entryKey [] (0, ⟨p0, d0, []⟩)) ∅ 0 0 [] p g x
        (by
          intro e he
          rcases List.mem_cons.1
              ((heappush_perm entryKey [] (0, ⟨p0, d0, []⟩)).mem_iff.1 he) with
            rfl | hf
          · exact stateInv_start cols rows world p0 d0
          · simp at hf)
        hres
      rw [hrp]
    · intro σ hvσ heσ
      obtain ⟨μ, hμval, hμcl, hμlen⟩ :=
        cleaning_to_fv cols rows world σ p0 d0 hvσ heσ
      obtain ⟨ν, hlenν, hvalν, hclν, hndν⟩ :=
        fv_simple cols rows world (p0, d0) μ.length μ le_rfl hμval hμcl
      have hopt := ucsGo_opt cols rows world p0 d0 ν hvalν hclν hndν fuel
        (heappush entryKey [] (0, ⟨p0, d0, []⟩)) ∅ 0 0 [] p g x
        (heappush_isHeap entryKey [] _ (isHeap_nil entryKey))
        (by
          intro e he
          rcases List.mem_cons.1
              ((heappush_perm entryKey [] (0, ⟨p0, d0, []⟩)).mem_iff.1 he) with
            rfl | hf
          · rfl
          · simp at hf)
        (by
          intro e he
          rcases List.mem_cons.1
              ((heappush_perm entryKey [] (0, ⟨p0, d0, []⟩)).mem_iff.1 he) with
            rfl | hf
          · exact stateInv_start cols rows world p0 d0
          · simp at hf)
        (by
          intro e he
          rcases List.mem_cons.1
              ((heappush_perm entryKey [] (0, ⟨p0, d0, []⟩)).mem_iff.1 he) with
            rfl | hf
          · right
            rfl
          · simp at hf)
        ⟨0, by omega, by simp, (0, ⟨p0, d0, []⟩),
          (heappush_perm entryKey [] (0, ⟨p0, d0, []⟩)).mem_iff.2
            (List.mem_cons_self _ _),
          rfl, le_rfl⟩
        hres
      omega
  | exhausted g x =>
    exact absurd hres (ucs_not_exhausted cols rows world p0 d0 hreach fuel g x)
  | outOfFuel =>
    exact absurd hres (ucs_terminates cols rows world p0 d0 fuel hfuel)

/-- Witness for C1 on the world `"_*@"`: the returned plan is valid,
cleans the dirty cell, and is no longer than any valid cleaning
sequence. -/
theorem claim_C1_witness :
    ∃ p g x,
      (ucs 3 1 [['_', '*', '_']] ⟨(0, 2), {(0, 1)}, []⟩ 14).1
        = SearchResult.solved p g x ∧
      ValidReplay 3 1 [['_', '*', '_']] (0, 2) {(0, 1)} p ∧
      (replay (0, 2) {(0, 1)} p).2 = ∅ ∧
      ∀ σ, ValidReplay 3 1 [['_', '*', '_']] (0, 2) {(0, 1)} σ →
        (replay (0, 2) {(0, 1)} σ).2 = ∅ → p.length ≤ σ.length :=
  claim_C1 3 1 [['_', '*', '_']] (0, 2) {(0, 1)} 14 (by decide)
    ⟨[Action.W, Action.V], by decide, by decide⟩

end VacuumPlanner
